import Mathlib

/-!
# A verification development for the `dag` library (JodeZer/dag)

This file embeds the core of the generic DAG implementation
(`GenericDAG[T]` from `typed_dag.go`, the walkers from the visitor
files and the serializer from `generic_marshal.go`) into Lean and
proves, or refutes, the behavioural claims made by the library's
specification.

Modelling conventions:

* Go maps (`map[K]V`) are modelled as association lists
  `List (K × V)` with unique keys.  The list order stands in for
  Go's unspecified map iteration order: where the source iterates a
  map, the model iterates the list, and where the iteration order is
  observable the model exposes it (or takes an explicit reordering
  oracle, for statements about determinism).
* Go key-sets (`map[K]struct` unit maps) are modelled as
  duplicate-free lists `List K`.
* Reading a missing key of a Go map yields the zero value; the model
  uses `Option.getD` with the corresponding default.
* The unbounded recursion / loops of the source (`getDescendants`,
  `wouldCreateLoop`, the walkers) take an explicit fuel argument; the
  development proves that enough fuel makes the fuel bound irrelevant
  on the acyclic graphs the library maintains.
* Mutating methods return the new state together with an optional
  error, mirroring the in-place mutation of the source: an error
  return in the source happens before any mutation, and the model
  returns the unchanged state in those branches.
* The vertex hash policy (`options.VertexHashFunc`) is an ambient
  function `hash : V → K`; the library fixes it at construction time.
-/

section AssocListModel

variable {K : Type} [DecidableEq K] {β : Type}

/-- Lookup in an association list (Go map read, `m[k]`). -/
def lookupA : List (K × β) → K → Option β
  | [], _ => none
  | (k, v) :: rest, key => if k = key then some v else lookupA rest key

/-- Go map write `m[k] = v`: replace the binding if present, else add it. -/
def insertA (key : K) (val : β) : List (K × β) → List (K × β)
  | [] => [(key, val)]
  | (k, v) :: rest => if k = key then (key, val) :: rest else (k, v) :: insertA key val rest

/-- Go `delete(m, k)`: remove the binding for `k` if present. -/
def eraseA (key : K) : List (K × β) → List (K × β) :=
  List.filter (fun p => p.1 ≠ key)

/-- Go set insert on a key-set. -/
def addK (key : K) (s : List K) : List K :=
  if key ∈ s then s else s ++ [key]

/-- Go set removal `delete(s, k)` on a key-set. -/
def delK (key : K) (s : List K) : List K :=
  List.filter (fun k => k ≠ key) s

@[simp] theorem lookupA_nil (key : K) : lookupA ([] : List (K × β)) key = none := rfl

theorem lookupA_cons (k : K) (v : β) (rest : List (K × β)) (key : K) :
    lookupA ((k, v) :: rest) key = if k = key then some v else lookupA rest key := rfl

@[simp] theorem mem_addK (key k : K) (s : List K) :
    k ∈ addK key s ↔ k ∈ s ∨ k = key := by
  unfold addK
  by_cases h : key ∈ s
  · simp only [if_pos h]
    constructor
    · exact Or.inl
    · rintro (hk | rfl) <;> [exact hk; exact h]
  · simp only [if_neg h, List.mem_append, List.mem_singleton]

@[simp] theorem mem_delK (key k : K) (s : List K) :
    k ∈ delK key s ↔ k ∈ s ∧ k ≠ key := by
  unfold delK; simp

@[simp] theorem lookupA_insertA (key : K) (val : β) (l : List (K × β)) (k : K) :
    lookupA (insertA key val l) k = if key = k then some val else lookupA l k := by
  induction l with
  | nil => simp [insertA, lookupA_cons]
  | cons p rest ih =>
    obtain ⟨pk, pv⟩ := p
    by_cases hpk : pk = key <;> by_cases hk : pk = k <;>
      simp_all [insertA, lookupA_cons] <;>
      first
        | exact (if_neg (fun h => hpk h.symm)).symm
        | exact fun h => hpk h.symm

@[simp] theorem lookupA_eraseA (key : K) (l : List (K × β)) (k : K) :
    lookupA (eraseA key l) k = if key = k then none else lookupA l k := by
  induction l with
  | nil => simp [eraseA]
  | cons p rest ih =>
    obtain ⟨pk, pv⟩ := p
    by_cases hpk : pk = key <;> by_cases hk : pk = k <;>
      simp_all [eraseA, List.filter_cons, lookupA_cons] <;>
      first
        | exact (if_neg (fun h => hpk h.symm)).symm
        | exact fun h => hpk h.symm

end AssocListModel

/-! ## The generic DAG state (`GenericDAG[T]`, typed_dag.go) -/

/-- The state of a `GenericDAG[T]`.  `K` is the vertex-key (hash) type,
`V` the payload type.  Field names follow the Go struct; each Go map is
an association list, each Go key-set a duplicate-free list. -/
structure GenericDAG (K V : Type) where
  vertices : List (K × String)
  vertexValues : List (String × V)
  inboundEdge : List (K × List K)
  outboundEdge : List (K × List K)
  ancestorsCache : List (K × List K)
  descendantsCache : List (K × List K)
  deriving DecidableEq

/-- The error values of the library (`errors.go` surface used by the
generic implementation). -/
inductive DagError (K V : Type) where
  | IDEmptyError : DagError K V
  | IDUnknownError (id : String) : DagError K V
  | VertexDuplicateError (v : V) : DagError K V
  | IDDuplicateError (id : String) : DagError K V
  | SrcDstEqualError (src dst : String) : DagError K V
  | EdgeDuplicateError (src dst : String) : DagError K V
  | EdgeLoopError (src dst : String) : DagError K V
  | EdgeUnknownError (src dst : String) : DagError K V
  deriving DecidableEq

variable {K V : Type} [DecidableEq K] [DecidableEq V] [Inhabited V]

/-- `NewGenericDAG`: the empty graph. -/
def NewGenericDAG (K V : Type) : GenericDAG K V :=
  { vertices := [], vertexValues := [], inboundEdge := [], outboundEdge := [],
    ancestorsCache := [], descendantsCache := [] }

/-- Go read `d.outboundEdge[k]` (zero value `nil` when missing). -/
def outList (g : GenericDAG K V) (k : K) : List K :=
  (lookupA g.outboundEdge k).getD []

/-- Go read `d.inboundEdge[k]` (zero value `nil` when missing). -/
def inList (g : GenericDAG K V) (k : K) : List K :=
  (lookupA g.inboundEdge k).getD []

/-- Go in-place removal from an inner key-set of an adjacency map:
`delete(m[k], x)` is a no-op when `m[k]` is missing and does not create
an entry. -/
def updateIfPresent (k : K) (f : List K → List K) (m : List (K × List K)) :
    List (K × List K) :=
  match lookupA m k with
  | none => m
  | some s => insertA k (f s) m

/-- `saneID` (typed_dag.go): empty-id and unknown-id validation. -/
def saneID (g : GenericDAG K V) (id : String) : Option (DagError K V) :=
  if id = "" then some .IDEmptyError
  else
    match lookupA g.vertexValues id with
    | some _ => none
    | none => some (.IDUnknownError id)

variable (hash : V → K)

/-- `addVertexByID` (typed_dag.go): duplicate-key and duplicate-id
checks, then insertion into both vertex indices. -/
def addVertexByID (g : GenericDAG K V) (id : String) (v : V) :
    GenericDAG K V × Option (DagError K V) :=
  let vHash := hash v
  if (lookupA g.vertices vHash).isSome then (g, some (.VertexDuplicateError v))
  else if (lookupA g.vertexValues id).isSome then (g, some (.IDDuplicateError id))
  else ({ g with vertices := insertA vHash id g.vertices,
                 vertexValues := insertA id v g.vertexValues }, none)

/-- `AddVertexByID` (public wrapper; the lock is irrelevant in the
sequential model). -/
def AddVertexByID (g : GenericDAG K V) (id : String) (v : V) :
    GenericDAG K V × Option (DagError K V) :=
  addVertexByID hash g id v

/-- `AddVertex` (typed_dag.go): the engine picks the id (the payload's
own `ID()` or a fresh uuid); the model takes the picked id as the
argument `genId` and then behaves like `addVertexByID`. -/
def AddVertex (g : GenericDAG K V) (genId : String) (v : V) :
    GenericDAG K V × Option (DagError K V) :=
  addVertexByID hash g genId v

/-- `isEdge` (typed_dag.go): presence of the pair in both adjacency
maps; a missing row reads as the empty set. -/
def isEdge (g : GenericDAG K V) (srcHash dstHash : K) : Bool :=
  decide (dstHash ∈ outList g srcHash) && decide (srcHash ∈ inList g dstHash)

/-- The sequential enqueue-if-unvisited step of `wouldCreateLoop`'s BFS:
first component is the FIFO, second the visited set. -/
def bfsEnqueue (children : List K) (p : List K × List K) : List K × List K :=
  children.foldl (fun q c => if c ∈ q.2 then q else (q.1 ++ [c], q.2 ++ [c])) p

/-- The BFS loop of `wouldCreateLoop` (typed_dag.go): pop the front,
succeed on `srcHash`, otherwise enqueue unvisited children.  `fuel`
bounds the number of iterations; the loop of the source is unbounded
but, as proved below, terminates within any fuel of the proved bound. -/
def wouldCreateLoopAux (g : GenericDAG K V) (srcHash : K) :
    Nat → List K → List K → Bool
  | 0, _, _ => false
  | fuel + 1, fifo, visited =>
    match fifo with
    | [] => false
    | top :: rest =>
      if top = srcHash then true
      else
        let q := bfsEnqueue (outList g top) (rest, visited)
        wouldCreateLoopAux g srcHash fuel q.1 q.2

/-- `wouldCreateLoop` (typed_dag.go): BFS from `dstHash` along
`outboundEdge` searching for `srcHash`. -/
def wouldCreateLoop (fuel : Nat) (g : GenericDAG K V) (srcHash dstHash : K) : Bool :=
  let q := bfsEnqueue (outList g dstHash) ([], [])
  wouldCreateLoopAux g srcHash fuel q.1 q.2

/-- The child loop shared by `getDescendants`/`getAncestors`
(typed_dag.go): for each relative, recurse, merge the returned set into
the accumulator, then add the relative itself. -/
def relLoop (recurse : GenericDAG K V → K → List K × GenericDAG K V) :
    List K → List K × GenericDAG K V → List K × GenericDAG K V
  | [], p => p
  | c :: rest, p =>
    let q := recurse p.2 c
    relLoop recurse rest (addK c (q.1.foldl (fun a d => addK d a) p.1), q.2)

/-- `getDescendants` (typed_dag.go): return the cached set if present,
else recursively collect each child's descendants plus the child and
memoise the result under `vHash`. -/
def getDescendants : Nat → GenericDAG K V → K → List K × GenericDAG K V
  | 0, g, _ => ([], g)
  | fuel + 1, g, vHash =>
    match lookupA g.descendantsCache vHash with
    | some cache => (cache, g)
    | none =>
      let r := relLoop (getDescendants fuel) (outList g vHash) ([], g)
      (r.1, { r.2 with descendantsCache := insertA vHash r.1 r.2.descendantsCache })

/-- `getAncestors` (typed_dag.go): mirror of `getDescendants` over
`inboundEdge` and the ancestors cache. -/
def getAncestors : Nat → GenericDAG K V → K → List K × GenericDAG K V
  | 0, g, _ => ([], g)
  | fuel + 1, g, vHash =>
    match lookupA g.ancestorsCache vHash with
    | some cache => (cache, g)
    | none =>
      let r := relLoop (getAncestors fuel) (inList g vHash) ([], g)
      (r.1, { r.2 with ancestorsCache := insertA vHash r.1 r.2.ancestorsCache })

/-- `AddEdge` (typed_dag.go): id checks, equality check, duplicate
check, loop check, then capture of the pre-mutation descendant and
ancestor sets, adjacency insertion and cache invalidation. -/
def AddEdge (fuel : Nat) (g : GenericDAG K V) (srcID dstID : String) :
    GenericDAG K V × Option (DagError K V) :=
  match saneID g srcID with
  | some e => (g, some e)
  | none =>
  match saneID g dstID with
  | some e => (g, some e)
  | none =>
  if srcID = dstID then (g, some (.SrcDstEqualError srcID dstID))
  else
    let src := (lookupA g.vertexValues srcID).getD default
    let srcHash := hash src
    let dst := (lookupA g.vertexValues dstID).getD default
    let dstHash := hash dst
    if isEdge g srcHash dstHash then (g, some (.EdgeDuplicateError srcID dstID))
    else if wouldCreateLoop fuel g srcHash dstHash then
      (g, some (.EdgeLoopError srcID dstID))
    else
      let dp := getDescendants fuel g dstHash
      let ap := getAncestors fuel dp.2 srcHash
      let g2 := ap.2
      let newOut := insertA srcHash (addK dstHash (outList g2 srcHash)) g2.outboundEdge
      let g3 := { g2 with outboundEdge := newOut }
      let newIn := insertA dstHash (addK srcHash (inList g3 dstHash)) g3.inboundEdge
      let g4 := { g3 with inboundEdge := newIn }
      let newAC := eraseA dstHash (dp.1.foldl (fun m d => eraseA d m) g4.ancestorsCache)
      let g5 := { g4 with ancestorsCache := newAC }
      let newDC := eraseA srcHash (ap.1.foldl (fun m a => eraseA a m) g5.descendantsCache)
      let g6 := { g5 with descendantsCache := newDC }
      (g6, none)

/-- `IsEdge` (typed_dag.go): id checks, equality check, then `isEdge`. -/
def IsEdge (g : GenericDAG K V) (srcID dstID : String) :
    Bool × Option (DagError K V) :=
  match saneID g srcID with
  | some e => (false, some e)
  | none =>
  match saneID g dstID with
  | some e => (false, some e)
  | none =>
  if srcID = dstID then (false, some (.SrcDstEqualError srcID dstID))
  else
    let src := (lookupA g.vertexValues srcID).getD default
    let dst := (lookupA g.vertexValues dstID).getD default
    (isEdge g (hash src) (hash dst), none)

/-- `DeleteEdge` (typed_dag.go): id checks, equality check, unknown-edge
check, then capture of the pre-mutation sets, adjacency removal and
cache invalidation. -/
def DeleteEdge (fuel : Nat) (g : GenericDAG K V) (srcID dstID : String) :
    GenericDAG K V × Option (DagError K V) :=
  match saneID g srcID with
  | some e => (g, some e)
  | none =>
  match saneID g dstID with
  | some e => (g, some e)
  | none =>
  if srcID = dstID then (g, some (.SrcDstEqualError srcID dstID))
  else
    let src := (lookupA g.vertexValues srcID).getD default
    let srcHash := hash src
    let dst := (lookupA g.vertexValues dstID).getD default
    let dstHash := hash dst
    if ¬ isEdge g srcHash dstHash then (g, some (.EdgeUnknownError srcID dstID))
    else
      let dp := getDescendants fuel g srcHash
      let ap := getAncestors fuel dp.2 dstHash
      let g2 := ap.2
      let newOut := updateIfPresent srcHash (delK dstHash) g2.outboundEdge
      let newIn := updateIfPresent dstHash (delK srcHash) g2.inboundEdge
      let g3 := { g2 with outboundEdge := newOut, inboundEdge := newIn }
      let newAC := eraseA srcHash (dp.1.foldl (fun m d => eraseA d m) g3.ancestorsCache)
      let g4 := { g3 with ancestorsCache := newAC }
      let newDC := eraseA dstHash (ap.1.foldl (fun m a => eraseA a m) g4.descendantsCache)
      let g5 := { g4 with descendantsCache := newDC }
      (g5, none)

/-- `DeleteVertex` (typed_dag.go): id check, capture of the pre-mutation
descendant/ancestor sets, removal of all incident edges, cache
invalidation for the vertex and its former relatives, then removal from
both vertex indices. -/
def DeleteVertex (fuel : Nat) (g : GenericDAG K V) (id : String) :
    GenericDAG K V × Option (DagError K V) :=
  match saneID g id with
  | some e => (g, some e)
  | none =>
    let v := (lookupA g.vertexValues id).getD default
    let vHash := hash v
    let dp := getDescendants fuel g vHash
    let ap := getAncestors fuel dp.2 vHash
    let g2 := ap.2
    let newOut :=
      (inList g2 vHash).foldl (fun m parent => updateIfPresent parent (delK vHash) m)
        g2.outboundEdge
    let g3 := { g2 with outboundEdge := newOut }
    let newIn :=
      (outList g3 vHash).foldl (fun m child => updateIfPresent child (delK vHash) m)
        g3.inboundEdge
    let g4 := { g3 with inboundEdge := newIn }
    let g5 := { g4 with inboundEdge := eraseA vHash g4.inboundEdge,
                        outboundEdge := eraseA vHash g4.outboundEdge }
    let newAC := eraseA vHash (dp.1.foldl (fun m d => eraseA d m) g5.ancestorsCache)
    let g6 := { g5 with ancestorsCache := newAC }
    let newDC := eraseA vHash (ap.1.foldl (fun m a => eraseA a m) g6.descendantsCache)
    let g7 := { g6 with descendantsCache := newDC }
    let g8 := { g7 with vertices := eraseA vHash g7.vertices,
                        vertexValues := eraseA id g7.vertexValues }
    (g8, none)

/-- `getOrder` (typed_dag.go): number of vertices. -/
def getOrder (g : GenericDAG K V) : Nat := g.vertices.length

/-- `getSize` (typed_dag.go): total number of outbound edges. -/
def getSize (g : GenericDAG K V) : Nat :=
  g.outboundEdge.foldl (fun n p => n + p.2.length) 0

/-- `getRoots` (typed_dag.go): the vertices with no inbound edge, as
(id, value) pairs in the iteration order of `d.vertices`. -/
def getRoots (g : GenericDAG K V) : List (String × V) :=
  g.vertices.filterMap fun kv =>
    if inList g kv.1 = [] then
      some (kv.2, (lookupA g.vertexValues kv.2).getD default)
    else none

/-- `getLeaves` (typed_dag.go): the vertices with no outbound edge. -/
def getLeaves (g : GenericDAG K V) : List (String × V) :=
  g.vertices.filterMap fun kv =>
    if outList g kv.1 = [] then
      some (kv.2, (lookupA g.vertexValues kv.2).getD default)
    else none

/-- `GetParents` (typed_dag.go): id check, then the inbound neighbours
of the vertex's key mapped back to (id, value) pairs. -/
def GetParents (g : GenericDAG K V) (id : String) :
    List (String × V) × Option (DagError K V) :=
  match saneID g id with
  | some e => ([], some e)
  | none =>
    let vHash := hash ((lookupA g.vertexValues id).getD default)
    ((inList g vHash).map fun pv =>
      let pid := (lookupA g.vertices pv).getD ""
      (pid, (lookupA g.vertexValues pid).getD default), none)

/-- `getChildren` (typed_dag.go): id check, then the outbound
neighbours of the vertex's key mapped back to (id, value) pairs. -/
def getChildren (g : GenericDAG K V) (id : String) :
    List (String × V) × Option (DagError K V) :=
  match saneID g id with
  | some e => ([], some e)
  | none =>
    let vHash := hash ((lookupA g.vertexValues id).getD default)
    ((outList g vHash).map fun cv =>
      let cid := (lookupA g.vertices cv).getD ""
      (cid, (lookupA g.vertexValues cid).getD default), none)

/-- `flushCaches` (typed_dag.go). -/
def flushCaches (g : GenericDAG K V) : GenericDAG K V :=
  { g with ancestorsCache := [], descendantsCache := [] }

/-- `ReduceTransitively` (typed_dag.go): populate the descendants cache
from every root, then for every vertex delete the edges to children
that are descendants of some child, and flush the caches if anything
changed. -/
def ReduceTransitively (fuel : Nat) (g : GenericDAG K V) : GenericDAG K V :=
  let g1 := (getRoots g).foldl (fun h rv => (getDescendants fuel h (hash rv.2)).2) g
  let r := g.vertices.foldl
    (fun (p : GenericDAG K V × Bool) kv =>
      let vHash := kv.1
      let gc := p.1
      let descendantsOfChildrenOfV := (outList gc vHash).foldl
        (fun acc c =>
          ((lookupA gc.descendantsCache c).getD []).foldl (fun a d => addK d a) acc)
        []
      (outList gc vHash).foldl
        (fun (q : GenericDAG K V × Bool) childOfV =>
          if childOfV ∈ descendantsOfChildrenOfV then
            ({ q.1 with
                outboundEdge := updateIfPresent vHash (delK childOfV) q.1.outboundEdge,
                inboundEdge := updateIfPresent childOfV (delK vHash) q.1.inboundEdge },
              true)
          else q)
        (gc, p.2))
    (g1, false)
  if r.2 then flushCaches r.1 else r.1

/-! ## Mutation sequences -/

/-- One public mutation of the graph (the five fallible mutations plus
`ReduceTransitively`), as named by the specification. -/
inductive MutOp (V : Type) where
  | addVertex (genId : String) (v : V)
  | addVertexByID (id : String) (v : V)
  | addEdge (src dst : String)
  | deleteEdge (src dst : String)
  | deleteVertex (id : String)
  | reduceTransitively
  deriving DecidableEq

/-- Run one mutation with the given fuel, discarding the error. -/
def applyMutOp (fuel : Nat) (g : GenericDAG K V) : MutOp V → GenericDAG K V
  | .addVertex i v => (AddVertex hash g i v).1
  | .addVertexByID i v => (AddVertexByID hash g i v).1
  | .addEdge s d => (AddEdge hash fuel g s d).1
  | .deleteEdge s d => (DeleteEdge hash fuel g s d).1
  | .deleteVertex i => (DeleteVertex hash fuel g i).1
  | .reduceTransitively => ReduceTransitively hash fuel g

/-- Fuel that always suffices for the recursions of one mutation: one
more than the number of live vertices. -/
def opFuel (g : GenericDAG K V) : Nat := g.vertices.length + 1

/-- Run a list of mutations from a state, giving each step the
canonical sufficient fuel. -/
def runMutOps (g : GenericDAG K V) : List (MutOp V) → GenericDAG K V
  | [] => g
  | op :: rest => runMutOps (applyMutOp hash (opFuel g) g op) rest

/-! ## Concrete graphs used by the specification's scenarios -/

/-- The default vertex hash policy: the payload itself
(`VertexHashFunc` of `defaultOptions`). -/
def idHash : String → String := fun v => v

/-- The linear chain 1→2→3→4→5 of scenario (a)/(b). -/
def chain5 : GenericDAG String String :=
  runMutOps idHash (NewGenericDAG String String)
    [.addVertexByID "1" "1", .addVertexByID "2" "2", .addVertexByID "3" "3",
     .addVertexByID "4" "4", .addVertexByID "5" "5",
     .addEdge "1" "2", .addEdge "2" "3", .addEdge "3" "4", .addEdge "4" "5"]

/-- The triangle 1→2, 2→3, 1→3 of scenario (d). -/
def triangle3 : GenericDAG String String :=
  runMutOps idHash (NewGenericDAG String String)
    [.addVertexByID "1" "1", .addVertexByID "2" "2", .addVertexByID "3" "3",
     .addEdge "1" "2", .addEdge "2" "3", .addEdge "1" "3"]

example : (getDescendants 6 chain5 "1").1 = ["5", "4", "3", "2"] := by decide

example : (AddEdge idHash 6 chain5 "5" "1").2 =
    some (DagError.EdgeLoopError "5" "1") := by decide

example : (AddEdge idHash 6 chain5 "5" "1").1 = chain5 := by decide

example : getSize (ReduceTransitively idHash 4 triangle3) = 2 := by decide

example : isEdge (ReduceTransitively idHash 4 triangle3) "1" "3" = false := by decide

example : (getDescendants 4 (ReduceTransitively idHash 4 triangle3) "1").1 = ["3", "2"]
    := by decide

/-! ## Reachability along outbound edges -/

/-- `ReachN g n a b`: there is a path of exactly `n` outbound edges
from `a` to `b`. -/
def ReachN (g : GenericDAG K V) : Nat → K → K → Prop
  | 0, a, b => a = b
  | n + 1, a, b => ∃ c ∈ outList g a, ReachN g n c b

def reachNDecidable (g : GenericDAG K V) :
    (n : Nat) → (a b : K) → Decidable (ReachN g n a b)
  | 0, a, b => inferInstanceAs (Decidable (a = b))
  | n + 1, a, b =>
    haveI : DecidablePred fun c => ReachN g n c b := fun c => reachNDecidable g n c b
    inferInstanceAs (Decidable (∃ c ∈ outList g a, ReachN g n c b))

instance (g : GenericDAG K V) (n : Nat) (a b : K) : Decidable (ReachN g n a b) :=
  reachNDecidable g n a b

/-- `ReachStar g a b`: `b` is reachable from `a` in zero or more steps. -/
def ReachStar (g : GenericDAG K V) (a b : K) : Prop := ∃ n, ReachN g n a b

/-- `ReachPlus g a b`: `b` is reachable from `a` in one or more steps
(the notion of descendant used throughout the library). -/
def ReachPlus (g : GenericDAG K V) (a b : K) : Prop := ∃ n, ReachN g (n + 1) a b

/-- No vertex reaches itself through a non-empty path: the acyclicity
invariant the library maintains. -/
def Acyclic (g : GenericDAG K V) : Prop := ∀ k, ¬ ReachPlus g k k

theorem reachN_trans {g : GenericDAG K V} {m n : Nat} {a b c : K}
    (h1 : ReachN g m a b) (h2 : ReachN g n b c) : ReachN g (m + n) a c := by
  induction m generalizing a with
  | zero => cases h1; simpa using h2
  | succ m ih =>
    rw [Nat.succ_add]
    obtain ⟨d, hd, hr⟩ := h1
    exact ⟨d, hd, ih hr⟩

theorem reachStar_trans {g : GenericDAG K V} {a b c : K}
    (h1 : ReachStar g a b) (h2 : ReachStar g b c) : ReachStar g a c := by
  obtain ⟨m, hm⟩ := h1; obtain ⟨n, hn⟩ := h2
  exact ⟨m + n, reachN_trans hm hn⟩

theorem reachStar_refl (g : GenericDAG K V) (a : K) : ReachStar g a a := ⟨0, rfl⟩

theorem reachPlus_of_step {g : GenericDAG K V} {a b : K}
    (h : b ∈ outList g a) : ReachPlus g a b := ⟨0, b, h, rfl⟩

theorem reachPlus_iff_step_reachStar {g : GenericDAG K V} {a b : K} :
    ReachPlus g a b ↔ ∃ c ∈ outList g a, ReachStar g c b := by
  constructor
  · rintro ⟨n, c, hc, hr⟩; exact ⟨c, hc, n, hr⟩
  · rintro ⟨c, hc, n, hr⟩; exact ⟨n, c, hc, hr⟩

theorem ReachPlus.trans_star {g : GenericDAG K V} {a b c : K}
    (h1 : ReachPlus g a b) (h2 : ReachStar g b c) : ReachPlus g a c := by
  obtain ⟨m, hm⟩ := h1; obtain ⟨n, hn⟩ := h2
  refine ⟨m + n, ?_⟩
  have := reachN_trans hm hn
  rwa [Nat.succ_add] at this

theorem ReachStar.trans_plus {g : GenericDAG K V} {a b c : K}
    (h1 : ReachStar g a b) (h2 : ReachPlus g b c) : ReachPlus g a c := by
  obtain ⟨m, hm⟩ := h1; obtain ⟨n, hn⟩ := h2
  refine ⟨m + n, ?_⟩
  have := reachN_trans hm hn
  rwa [Nat.add_succ] at this

theorem reachStar_iff_eq_or_plus {g : GenericDAG K V} {a b : K} :
    ReachStar g a b ↔ a = b ∨ ReachPlus g a b := by
  constructor
  · rintro ⟨(_ | n), hr⟩
    · exact Or.inl hr
    · exact Or.inr ⟨n, hr⟩
  · rintro (rfl | ⟨n, hr⟩)
    · exact ⟨0, rfl⟩
    · exact ⟨n + 1, hr⟩

/-! ## Error atomicity of the mutations (helper lemmas) -/

theorem addVertexByID_error_unchanged (hash : V → K) (g : GenericDAG K V)
    (i : String) (v : V) :
    (addVertexByID hash g i v).2.isSome → (addVertexByID hash g i v).1 = g := by
  unfold addVertexByID
  by_cases h1 : (lookupA g.vertices (hash v)).isSome
  · simp [h1]
  · by_cases h2 : (lookupA g.vertexValues i).isSome <;> simp [h1, h2]

theorem addEdge_error_unchanged (hash : V → K) (fuel : Nat) (g : GenericDAG K V)
    (s d : String) :
    (AddEdge hash fuel g s d).2.isSome → (AddEdge hash fuel g s d).1 = g := by
  unfold AddEdge
  cases h1 : saneID g s with
  | some e => simp
  | none =>
    cases h2 : saneID g d with
    | some e => simp
    | none =>
      simp only []
      split_ifs <;> simp

theorem deleteEdge_error_unchanged (hash : V → K) (fuel : Nat) (g : GenericDAG K V)
    (s d : String) :
    (DeleteEdge hash fuel g s d).2.isSome → (DeleteEdge hash fuel g s d).1 = g := by
  unfold DeleteEdge
  cases h1 : saneID g s with
  | some e => simp
  | none =>
    cases h2 : saneID g d with
    | some e => simp
    | none =>
      simp only []
      split_ifs <;> simp

theorem deleteVertex_error_unchanged (hash : V → K) (fuel : Nat) (g : GenericDAG K V)
    (i : String) :
    (DeleteVertex hash fuel g i).2.isSome → (DeleteVertex hash fuel g i).1 = g := by
  unfold DeleteVertex
  cases h1 : saneID g i with
  | some e => simp
  | none => simp

/-! ## Claim C8 -/

/-- C8: every fallible mutation (`AddVertex`, `AddVertexByID`,
`AddEdge`, `DeleteEdge`, `DeleteVertex`) is atomic on error: whenever
it returns an error, the state after the call (vertex indices,
adjacency maps, caches) is exactly the state before the call. -/
theorem C8_mutations_atomic_on_error (hash : V → K) (fuel : Nat)
    (g : GenericDAG K V) (i s d : String) (v : V) :
    ((AddVertex hash g i v).2.isSome → (AddVertex hash g i v).1 = g) ∧
    ((AddVertexByID hash g i v).2.isSome → (AddVertexByID hash g i v).1 = g) ∧
    ((AddEdge hash fuel g s d).2.isSome → (AddEdge hash fuel g s d).1 = g) ∧
    ((DeleteEdge hash fuel g s d).2.isSome → (DeleteEdge hash fuel g s d).1 = g) ∧
    ((DeleteVertex hash fuel g i).2.isSome → (DeleteVertex hash fuel g i).1 = g) :=
  ⟨addVertexByID_error_unchanged hash g i v,
   addVertexByID_error_unchanged hash g i v,
   addEdge_error_unchanged hash fuel g s d,
   deleteEdge_error_unchanged hash fuel g s d,
   deleteVertex_error_unchanged hash fuel g i⟩

/-- Witness for C8: on the 1→2→3→4→5 chain, the loop-rejected
`AddEdge("5","1")` and a duplicate `AddVertexByID` leave the graph
exactly as it was. -/
theorem C8_mutations_atomic_on_error_witness :
    (AddEdge idHash 6 chain5 "5" "1").2.isSome = true ∧
    (AddEdge idHash 6 chain5 "5" "1").1 = chain5 ∧
    (AddVertexByID idHash chain5 "3" "3").2.isSome = true ∧
    (AddVertexByID idHash chain5 "3" "3").1 = chain5 :=
  ⟨by decide,
   (C8_mutations_atomic_on_error idHash 6 chain5 "3" "5" "1" "3").2.2.1 (by decide),
   by decide,
   (C8_mutations_atomic_on_error idHash 6 chain5 "3" "5" "1" "3").2.1 (by decide)⟩

/-! ## Claim C9 -/

/-- C9: for a live vertex with non-empty id `x`, both
`DeleteEdge(x, x)` and `IsEdge(x, x)` return the src-equals-dst error
(`SrcDstEqualError`), not the unknown-edge error. -/
theorem C9_self_edge_srcdst_error (hash : V → K) (fuel : Nat) (g : GenericDAG K V)
    (x : String) (v : V) (hx : x ≠ "") (hlive : lookupA g.vertexValues x = some v) :
    (DeleteEdge hash fuel g x x).2 = some (.SrcDstEqualError x x) ∧
    (IsEdge hash g x x).2 = some (.SrcDstEqualError x x) := by
  have hs : saneID g x = none := by simp [saneID, hx, hlive]
  constructor
  · unfold DeleteEdge
    rw [hs]
    simp
  · unfold IsEdge
    rw [hs]
    simp

/-- Witness for C9, on the chain graph at vertex "1". -/
theorem C9_self_edge_srcdst_error_witness :
    "1" ≠ "" ∧ lookupA chain5.vertexValues "1" = some "1" ∧
    (DeleteEdge idHash 6 chain5 "1" "1").2 =
      some (DagError.SrcDstEqualError "1" "1") ∧
    (IsEdge idHash chain5 "1" "1").2 = some (DagError.SrcDstEqualError "1" "1") :=
  ⟨by decide, by decide,
   (C9_self_edge_srcdst_error idHash 6 chain5 "1" "1" (by decide) (by decide)).1,
   (C9_self_edge_srcdst_error idHash 6 chain5 "1" "1" (by decide) (by decide)).2⟩

/-! ## Correctness of the `wouldCreateLoop` BFS (claim C1) -/

theorem lookupA_mem {K β : Type} [DecidableEq K] {m : List (K × β)} {k : K} {v : β}
    (h : lookupA m k = some v) : (k, v) ∈ m := by
  induction m with
  | nil => simp at h
  | cons p rest ih =>
    obtain ⟨pk, pv⟩ := p
    rw [lookupA_cons] at h
    by_cases hk : pk = k
    · rw [if_pos hk] at h
      obtain rfl := hk
      obtain rfl : pv = v := by simpa using h
      exact List.mem_cons_self _ _
    · rw [if_neg hk] at h
      exact List.mem_cons_of_mem _ (ih h)

/-- All keys that occur in some outbound adjacency row. -/
def adjTargets (g : GenericDAG K V) : List K :=
  (g.outboundEdge.map Prod.snd).join

theorem mem_adjTargets {g : GenericDAG K V} {x y : K} (h : x ∈ outList g y) :
    x ∈ adjTargets g := by
  unfold outList at h
  cases hl : lookupA g.outboundEdge y with
  | none => rw [hl] at h; simp at h
  | some s =>
    rw [hl] at h
    simp only [Option.getD_some] at h
    have hs : s ∈ g.outboundEdge.map Prod.snd :=
      List.mem_map.mpr ⟨(y, s), lookupA_mem hl, rfl⟩
    exact List.mem_join.mpr ⟨s, hs, h⟩

/-- The termination measure of the BFS: unvisited potential targets
plus the queue length. -/
def bfsMeasure (g : GenericDAG K V) (fifo visited : List K) : Nat :=
  ((adjTargets g).toFinset \ visited.toFinset).card + fifo.length

theorem bfsEnqueue_exists (cs : List K) :
    ∀ f v : List K, ∃ new : List K,
      bfsEnqueue cs (f, v) = (f ++ new, v ++ new) ∧
      (∀ x ∈ new, x ∈ cs ∧ x ∉ v) ∧
      (∀ c ∈ cs, c ∈ v ∨ c ∈ new) ∧ new.Nodup := by
  induction cs with
  | nil => intro f v; exact ⟨[], by simp [bfsEnqueue], by simp, by simp, List.nodup_nil⟩
  | cons c cs ih =>
    intro f v
    by_cases hc : c ∈ v
    · obtain ⟨new, h1, h2, h3, h4⟩ := ih f v
      refine ⟨new, ?_, ?_, ?_, h4⟩
      · simpa [bfsEnqueue, List.foldl_cons, hc] using h1
      · exact fun x hx => ⟨List.mem_cons_of_mem _ (h2 x hx).1, (h2 x hx).2⟩
      · intro d hd
        rcases List.mem_cons.mp hd with rfl | hd'
        · exact Or.inl hc
        · exact h3 d hd'
    · obtain ⟨new, h1, h2, h3, h4⟩ := ih (f ++ [c]) (v ++ [c])
      refine ⟨c :: new, ?_, ?_, ?_, ?_⟩
      · have : bfsEnqueue (c :: cs) (f, v) = bfsEnqueue cs (f ++ [c], v ++ [c]) := by
          simp [bfsEnqueue, List.foldl_cons, hc]
        rw [this, h1]
        simp
      · intro x hx
        rcases List.mem_cons.mp hx with rfl | hx'
        · exact ⟨List.mem_cons_self _ _, hc⟩
        · have := h2 x hx'
          refine ⟨List.mem_cons_of_mem _ this.1, fun hxv => this.2 ?_⟩
          exact List.mem_append.mpr (Or.inl hxv)
      · intro d hd
        rcases List.mem_cons.mp hd with rfl | hd'
        · exact Or.inr (List.mem_cons_self _ _)
        · rcases h3 d hd' with hv | hn
          · rcases List.mem_append.mp hv with hv' | hv'
            · exact Or.inl hv'
            · simp only [List.mem_singleton] at hv'
              exact Or.inr (hv' ▸ List.mem_cons_self _ _)
          · exact Or.inr (List.mem_cons_of_mem _ hn)
      · refine List.nodup_cons.mpr ⟨fun hcn => ?_, h4⟩
        exact (h2 c hcn).2 (List.mem_append.mpr (Or.inr (List.mem_singleton.mpr rfl)))

theorem wcl_aux_sound (g : GenericDAG K V) (src : K) :
    ∀ fuel fifo visited,
      wouldCreateLoopAux g src fuel fifo visited = true →
      ∃ x ∈ fifo, ReachStar g x src := by
  intro fuel
  induction fuel with
  | zero => intro fifo visited h; simp [wouldCreateLoopAux] at h
  | succ fuel ih =>
    intro fifo visited h
    match fifo with
    | [] => simp [wouldCreateLoopAux] at h
    | top :: rest =>
      rw [wouldCreateLoopAux] at h
      by_cases htop : top = src
      · exact ⟨top, List.mem_cons_self _ _, htop ▸ reachStar_refl g top⟩
      · rw [if_neg htop] at h
        obtain ⟨new, he, hsub, _, _⟩ := bfsEnqueue_exists (outList g top) rest visited
        rw [he] at h
        obtain ⟨x, hx, hr⟩ := ih _ _ h
        rcases List.mem_append.mp hx with hx' | hx'
        · exact ⟨x, List.mem_cons_of_mem _ hx', hr⟩
        · refine ⟨top, List.mem_cons_self _ _, ?_⟩
          have hstep : x ∈ outList g top := (hsub x hx').1
          exact reachStar_iff_eq_or_plus.mpr
            (Or.inr ((reachPlus_of_step hstep).trans_star hr))

theorem visited_closed_reach (g : GenericDAG K V) (visited : List K)
    (closed : ∀ y ∈ visited, ∀ c ∈ outList g y, c ∈ visited) :
    ∀ n x b, x ∈ visited → ReachN g n x b → b ∈ visited := by
  intro n
  induction n with
  | zero => intro x b hx h; exact h ▸ hx
  | succ n ih =>
    rintro x b hx ⟨c, hc, hr⟩
    exact ih c b (closed x hx c hc) hr

theorem wcl_aux_complete (g : GenericDAG K V) (src : K) :
    ∀ fuel fifo visited,
      (∀ x ∈ fifo, x ∈ visited) →
      (∀ y ∈ visited, y ∉ fifo → ∀ c ∈ outList g y, c ∈ visited) →
      (src ∈ visited → src ∈ fifo) →
      bfsMeasure g fifo visited ≤ fuel →
      (∃ x ∈ visited, ReachStar g x src) →
      wouldCreateLoopAux g src fuel fifo visited = true := by
  intro fuel
  induction fuel with
  | zero =>
    intro fifo visited _ hproc hsrc hfuel hex
    have hfifo : fifo = [] := by
      have := Nat.le_zero.mp hfuel
      unfold bfsMeasure at this
      exact List.length_eq_zero.mp (Nat.eq_zero_of_add_eq_zero_left this)
    subst hfifo
    obtain ⟨x, hx, n, hr⟩ := hex
    have hclosed : ∀ y ∈ visited, ∀ c ∈ outList g y, c ∈ visited :=
      fun y hy => hproc y hy (List.not_mem_nil y)
    have : src ∈ visited := visited_closed_reach g visited hclosed n x src hx hr
    exact absurd (hsrc this) (List.not_mem_nil src)
  | succ fuel ih =>
    intro fifo visited hsub hproc hsrc hfuel hex
    match fifo with
    | [] =>
      obtain ⟨x, hx, n, hr⟩ := hex
      have hclosed : ∀ y ∈ visited, ∀ c ∈ outList g y, c ∈ visited :=
        fun y hy => hproc y hy (List.not_mem_nil y)
      have : src ∈ visited := visited_closed_reach g visited hclosed n x src hx hr
      exact absurd (hsrc this) (List.not_mem_nil src)
    | top :: rest =>
      rw [wouldCreateLoopAux]
      by_cases htop : top = src
      · rw [if_pos htop]
      · rw [if_neg htop]
        obtain ⟨new, he, hnew, hcov, hnd⟩ := bfsEnqueue_exists (outList g top) rest visited
        rw [he]
        have htopv : top ∈ visited := hsub top (List.mem_cons_self _ _)
        refine ih (rest ++ new) (visited ++ new) ?_ ?_ ?_ ?_ ?_
        · intro x hx
          rcases List.mem_append.mp hx with hx' | hx'
          · exact List.mem_append.mpr (Or.inl (hsub x (List.mem_cons_of_mem _ hx')))
          · exact List.mem_append.mpr (Or.inr hx')
        · intro y hy hyf
          rcases List.mem_append.mp hy with hy' | hy'
          · by_cases hyt : y = top
            · subst hyt
              intro c hc
              rcases hcov c hc with h | h
              · exact List.mem_append.mpr (Or.inl h)
              · exact List.mem_append.mpr (Or.inr h)
            · have hynf : y ∉ top :: rest := by
                intro hmem
                rcases List.mem_cons.mp hmem with h | h
                · exact hyt h
                · exact hyf (List.mem_append.mpr (Or.inl h))
              intro c hc
              exact List.mem_append.mpr (Or.inl (hproc y hy' hynf c hc))
          · exact absurd (List.mem_append.mpr (Or.inr hy')) hyf
        · intro hsv
          rcases List.mem_append.mp hsv with h | h
          · have := hsrc h
            rcases List.mem_cons.mp this with h' | h'
            · exact absurd h'.symm htop
            · exact List.mem_append.mpr (Or.inl h')
          · exact List.mem_append.mpr (Or.inr h)
        · -- the measure drops by exactly one
          have hTsub : new.toFinset ⊆ (adjTargets g).toFinset \ visited.toFinset := by
            intro x hx
            rw [List.mem_toFinset] at hx
            rw [Finset.mem_sdiff, List.mem_toFinset, List.mem_toFinset]
            exact ⟨mem_adjTargets ((hnew x hx).1), (hnew x hx).2⟩
          have hsplit : (adjTargets g).toFinset \ (visited ++ new).toFinset =
              ((adjTargets g).toFinset \ visited.toFinset) \ new.toFinset := by
            ext x
            simp only [Finset.mem_sdiff, List.toFinset_append, Finset.mem_union]
            tauto
          have hcard : (((adjTargets g).toFinset \ visited.toFinset) \ new.toFinset).card =
              ((adjTargets g).toFinset \ visited.toFinset).card - new.toFinset.card :=
            Finset.card_sdiff hTsub
          have hlen : new.toFinset.card = new.length := List.toFinset_card_of_nodup hnd
          have hle : new.toFinset.card ≤ ((adjTargets g).toFinset \ visited.toFinset).card :=
            Finset.card_le_card hTsub
          have hm : bfsMeasure g (rest ++ new) (visited ++ new) + 1 =
              bfsMeasure g (top :: rest) visited := by
            unfold bfsMeasure
            rw [hsplit, hcard, List.length_append, List.length_cons, hlen] at *
            omega
          have := hfuel
          unfold bfsMeasure at this hm ⊢
          omega
        · obtain ⟨x, hx, hr⟩ := hex
          exact ⟨x, List.mem_append.mpr (Or.inl hx), hr⟩

/-- `wouldCreateLoop fuel g src dst` decides reachability of `src`
from `dst` along outbound edges, for any fuel at least the number of
distinct edge targets of the graph. -/
theorem wouldCreateLoop_iff_reachPlus (g : GenericDAG K V) (src dst : K) (fuel : Nat)
    (hfuel : (adjTargets g).toFinset.card ≤ fuel) :
    wouldCreateLoop fuel g src dst = true ↔ ReachPlus g dst src := by
  obtain ⟨new, he, hnew, hcov, hnd⟩ := bfsEnqueue_exists (outList g dst) [] []
  unfold wouldCreateLoop
  rw [he]
  simp only [List.nil_append]
  constructor
  · intro h
    obtain ⟨x, hx, hr⟩ := wcl_aux_sound g src fuel new new h
    exact (reachPlus_of_step ((hnew x hx).1)).trans_star hr
  · intro h
    obtain ⟨c, hc, hr⟩ := reachPlus_iff_step_reachStar.mp h
    have hcnew : c ∈ new := by
      rcases hcov c hc with h' | h'
      · exact absurd h' (List.not_mem_nil c)
      · exact h'
    refine wcl_aux_complete g src fuel new new (fun x hx => hx) ?_ (fun h => h) ?_
      ⟨c, hcnew, hr⟩
    · intro y hy hyn; exact absurd hy hyn
    · have hTsub : new.toFinset ⊆ (adjTargets g).toFinset := by
        intro x hx
        rw [List.mem_toFinset] at hx
        rw [List.mem_toFinset]
        exact mem_adjTargets ((hnew x hx).1)
      have hlen : new.toFinset.card = new.length := List.toFinset_card_of_nodup hnd
      have hcard : ((adjTargets g).toFinset \ new.toFinset).card =
          (adjTargets g).toFinset.card - new.toFinset.card := Finset.card_sdiff hTsub
      have hle : new.toFinset.card ≤ (adjTargets g).toFinset.card :=
        Finset.card_le_card hTsub
      unfold bfsMeasure
      omega

/-! ## Claim C1 -/

/-- C1: for live, distinct ids `srcID`, `dstID` with no existing edge,
`AddEdge` returns the loop error exactly when the source key is
reachable from the destination key along outbound edges (the BFS loop
check), the graph is unchanged when the loop error is returned, and on
the chain 1→2→3→4→5 the call `AddEdge("5","1")` returns the loop error
with the graph unchanged. -/
theorem C1_addEdge_loop_iff (hash : V → K) (fuel : Nat) (g : GenericDAG K V)
    (srcID dstID : String) (vs vd : V)
    (hsne : srcID ≠ "") (hdne : dstID ≠ "")
    (hsrc : lookupA g.vertexValues srcID = some vs)
    (hdst : lookupA g.vertexValues dstID = some vd)
    (hne : srcID ≠ dstID)
    (hnoedge : isEdge g (hash vs) (hash vd) = false)
    (hfuel : (adjTargets g).toFinset.card ≤ fuel) :
    ((AddEdge hash fuel g srcID dstID).2 = some (.EdgeLoopError srcID dstID) ↔
      ReachPlus g (hash vd) (hash vs)) ∧
    ((AddEdge hash fuel g srcID dstID).2 = some (.EdgeLoopError srcID dstID) →
      (AddEdge hash fuel g srcID dstID).1 = g) ∧
    AddEdge idHash 6 chain5 "5" "1" = (chain5, some (.EdgeLoopError "5" "1")) := by
  have hs1 : saneID g srcID = none := by simp [saneID, hsne, hsrc]
  have hs2 : saneID g dstID = none := by simp [saneID, hdne, hdst]
  refine ⟨?_, ?_, by decide⟩
  · unfold AddEdge
    rw [hs1, hs2]
    simp only [hsrc, hdst, Option.getD_some, if_neg hne, hnoedge]
    cases hwcl : wouldCreateLoop fuel g (hash vs) (hash vd) with
    | true =>
      simp only [if_pos rfl]
      constructor
      · intro _
        exact (wouldCreateLoop_iff_reachPlus g (hash vs) (hash vd) fuel hfuel).mp hwcl
      · intro _; rfl
    | false =>
      simp only [Bool.false_eq_true, if_false]
      constructor
      · intro h; simp at h
      · intro h
        exact absurd
          ((wouldCreateLoop_iff_reachPlus g (hash vs) (hash vd) fuel hfuel).mpr h)
          (by simp [hwcl])
  · intro h
    exact addEdge_error_unchanged hash fuel g srcID dstID (by rw [h]; rfl)

/-- Witness for C1 on the chain 1→2→3→4→5 with the rejected edge 5→1. -/
theorem C1_addEdge_loop_iff_witness :
    (((AddEdge idHash 6 chain5 "5" "1").2 =
        some (DagError.EdgeLoopError "5" "1")) ↔ ReachPlus chain5 "1" "5") ∧
    (((AddEdge idHash 6 chain5 "5" "1").2 =
        some (DagError.EdgeLoopError "5" "1")) →
      (AddEdge idHash 6 chain5 "5" "1").1 = chain5) ∧
    AddEdge idHash 6 chain5 "5" "1" = (chain5, some (.EdgeLoopError "5" "1")) :=
  C1_addEdge_loop_iff idHash 6 chain5 "5" "1" "5" "1" (by decide) (by decide)
    (by decide) (by decide) (by decide) (by decide) (by decide)

/-! ## Adjacency symmetry (claim C2): helper lemmas -/

/-- The mutations leave the vertex indices and adjacency maps of an
intermediate call unchanged when that call only touches the caches. -/
def SameGraphCore (g g' : GenericDAG K V) : Prop :=
  g'.vertices = g.vertices ∧ g'.vertexValues = g.vertexValues ∧
  g'.inboundEdge = g.inboundEdge ∧ g'.outboundEdge = g.outboundEdge

theorem sameGraphCore_refl (g : GenericDAG K V) : SameGraphCore g g :=
  ⟨rfl, rfl, rfl, rfl⟩

theorem sameGraphCore_trans {g1 g2 g3 : GenericDAG K V}
    (h1 : SameGraphCore g1 g2) (h2 : SameGraphCore g2 g3) : SameGraphCore g1 g3 :=
  ⟨h2.1.trans h1.1, h2.2.1.trans h1.2.1, h2.2.2.1.trans h1.2.2.1,
    h2.2.2.2.trans h1.2.2.2⟩

theorem relLoop_preserves {recurse : GenericDAG K V → K → List K × GenericDAG K V}
    (P : GenericDAG K V → GenericDAG K V → Prop)
    (hrefl : ∀ g, P g g) (htrans : ∀ g1 g2 g3, P g1 g2 → P g2 g3 → P g1 g3)
    (hrec : ∀ g c, P g (recurse g c).2) :
    ∀ (cs : List K) (p : List K × GenericDAG K V), P p.2 (relLoop recurse cs p).2 := by
  intro cs
  induction cs with
  | nil => intro p; exact hrefl p.2
  | cons c rest ih =>
    intro p
    rw [relLoop]
    exact htrans p.2 (recurse p.2 c).2 _ (hrec p.2 c)
      (ih (addK c (List.foldl (fun a d => addK d a) p.1 (recurse p.2 c).1),
        (recurse p.2 c).2))

theorem getDescendants_core (fuel : Nat) :
    ∀ (g : GenericDAG K V) (k : K), SameGraphCore g (getDescendants fuel g k).2 := by
  induction fuel with
  | zero => intro g k; exact sameGraphCore_refl g
  | succ fuel ih =>
    intro g k
    rw [getDescendants]
    cases lookupA g.descendantsCache k with
    | some cache => exact sameGraphCore_refl g
    | none =>
      have h := relLoop_preserves
        SameGraphCore sameGraphCore_refl (fun _ _ _ => sameGraphCore_trans)
        (fun g' c => ih g' c) (outList g k) ([], g)
      exact sameGraphCore_trans h ⟨rfl, rfl, rfl, rfl⟩

theorem getAncestors_core (fuel : Nat) :
    ∀ (g : GenericDAG K V) (k : K), SameGraphCore g (getAncestors fuel g k).2 := by
  induction fuel with
  | zero => intro g k; exact sameGraphCore_refl g
  | succ fuel ih =>
    intro g k
    rw [getAncestors]
    cases lookupA g.ancestorsCache k with
    | some cache => exact sameGraphCore_refl g
    | none =>
      have h := relLoop_preserves
        SameGraphCore sameGraphCore_refl (fun _ _ _ => sameGraphCore_trans)
        (fun g' c => ih g' c) (inList g k) ([], g)
      exact sameGraphCore_trans h ⟨rfl, rfl, rfl, rfl⟩

theorem outList_of_core {g g' : GenericDAG K V} (h : SameGraphCore g g') (a : K) :
    outList g' a = outList g a := by unfold outList; rw [h.2.2.2]

theorem inList_of_core {g g' : GenericDAG K V} (h : SameGraphCore g g') (a : K) :
    inList g' a = inList g a := by unfold inList; rw [h.2.2.1]

/-- The symmetry invariant of the two adjacency maps. -/
def Symm (g : GenericDAG K V) : Prop :=
  ∀ a b : K, b ∈ outList g a ↔ a ∈ inList g b

theorem lookupA_updateIfPresent {K : Type} [DecidableEq K]
    (k : K) (f : List K → List K) (m : List (K × List K)) (a : K) :
    lookupA (updateIfPresent k f m) a =
      if k = a then (lookupA m a).map f else lookupA m a := by
  unfold updateIfPresent
  cases h : lookupA m k with
  | none =>
    by_cases hk : k = a
    · subst hk; rw [if_pos rfl, h]; rfl
    · rw [if_neg hk]
  | some s =>
    rw [lookupA_insertA]
    by_cases hk : k = a
    · subst hk; rw [if_pos rfl, if_pos rfl, h]; rfl
    · rw [if_neg hk, if_neg hk]

theorem getD_map_delK {K : Type} [DecidableEq K] (x : K) (o : Option (List K)) :
    (o.map (delK x)).getD [] = delK x (o.getD []) := by
  cases o <;> rfl

theorem delK_idem {K : Type} [DecidableEq K] (x : K) (s : List K) :
    delK x (delK x s) = delK x s := by
  unfold delK
  rw [List.filter_filter]
  congr 1
  funext a
  exact Bool.and_self _

theorem lookupA_fold_updateIfPresent {K : Type} [DecidableEq K]
    (x : K) (P : List K) :
    ∀ (m : List (K × List K)) (a : K),
      lookupA (P.foldl (fun m' p => updateIfPresent p (delK x) m') m) a =
        if a ∈ P then (lookupA m a).map (delK x) else lookupA m a := by
  induction P with
  | nil => intro m a; simp
  | cons p rest ih =>
    intro m a
    rw [List.foldl_cons, ih]
    by_cases hp : a ∈ rest
    · rw [if_pos hp, if_pos (List.mem_cons_of_mem _ hp)]
      rw [lookupA_updateIfPresent]
      by_cases hpa : p = a
      · rw [if_pos hpa]
        cases lookupA m a <;> simp [delK_idem]
      · rw [if_neg hpa]
    · rw [if_neg hp, lookupA_updateIfPresent]
      by_cases hpa : p = a
      · subst hpa
        rw [if_pos rfl, if_pos (List.mem_cons_self _ _)]
      · rw [if_neg hpa, if_neg (by
          intro hmem
          rcases List.mem_cons.mp hmem with h | h
          · exact hpa h.symm
          · exact hp h)]

theorem foldl_preserves {α σ : Type _} {P : σ → Prop} {f : σ → α → σ}
    (h : ∀ s a, P s → P (f s a)) :
    ∀ (l : List α) (s : σ), P s → P (l.foldl f s) := by
  intro l
  induction l with
  | nil => intro s hs; exact hs
  | cons x xs ih => intro s hs; exact ih _ (h s x hs)

theorem symm_insert_edge_pair (g : GenericDAG K V) (s d : K) (hg : Symm g) :
    Symm { g with outboundEdge := insertA s (addK d (outList g s)) g.outboundEdge,
                  inboundEdge := insertA d (addK s (inList g d)) g.inboundEdge } := by
  intro a b
  have hout : outList { g with
      outboundEdge := insertA s (addK d (outList g s)) g.outboundEdge,
      inboundEdge := insertA d (addK s (inList g d)) g.inboundEdge } a =
      if s = a then addK d (outList g s) else outList g a := by
    unfold outList
    dsimp only
    rw [lookupA_insertA]
    split_ifs <;> rfl
  have hin : inList { g with
      outboundEdge := insertA s (addK d (outList g s)) g.outboundEdge,
      inboundEdge := insertA d (addK s (inList g d)) g.inboundEdge } b =
      if d = b then addK s (inList g d) else inList g b := by
    unfold inList
    dsimp only
    rw [lookupA_insertA]
    split_ifs <;> rfl
  rw [hout, hin]
  by_cases hsa : s = a <;> by_cases hdb : d = b
  · subst hsa; subst hdb
    simp [mem_addK]
  · subst hsa
    rw [if_pos rfl, if_neg hdb, mem_addK]
    constructor
    · rintro (h | rfl)
      · exact (hg s b).mp h
      · exact absurd rfl hdb
    · intro h; exact Or.inl ((hg s b).mpr h)
  · subst hdb
    rw [if_neg hsa, if_pos rfl, mem_addK]
    constructor
    · intro h; exact Or.inl ((hg a d).mp h)
    · rintro (h | rfl)
      · exact (hg a d).mpr h
      · exact absurd rfl hsa
  · rw [if_neg hsa, if_neg hdb]
    exact hg a b

theorem symm_delete_edge_pair (g : GenericDAG K V) (s d : K) (hg : Symm g) :
    Symm { g with outboundEdge := updateIfPresent s (delK d) g.outboundEdge,
                  inboundEdge := updateIfPresent d (delK s) g.inboundEdge } := by
  intro a b
  have hout : outList { g with
      outboundEdge := updateIfPresent s (delK d) g.outboundEdge,
      inboundEdge := updateIfPresent d (delK s) g.inboundEdge } a =
      if s = a then delK d (outList g a) else outList g a := by
    unfold outList
    dsimp only
    rw [lookupA_updateIfPresent]
    split_ifs with h
    · subst h; exact getD_map_delK d _
    · rfl
  have hin : inList { g with
      outboundEdge := updateIfPresent s (delK d) g.outboundEdge,
      inboundEdge := updateIfPresent d (delK s) g.inboundEdge } b =
      if d = b then delK s (inList g b) else inList g b := by
    unfold inList
    dsimp only
    rw [lookupA_updateIfPresent]
    split_ifs with h
    · subst h; exact getD_map_delK s _
    · rfl
  rw [hout, hin]
  by_cases hsa : s = a <;> by_cases hdb : d = b
  · subst hsa; subst hdb
    simp [mem_delK]
  · subst hsa
    rw [if_pos rfl, if_neg hdb, mem_delK]
    constructor
    · rintro ⟨h, _⟩; exact (hg s b).mp h
    · intro h; exact ⟨(hg s b).mpr h, fun hbd => hdb hbd.symm⟩
  · subst hdb
    rw [if_neg hsa, if_pos rfl, mem_delK]
    constructor
    · intro h; exact ⟨(hg a d).mp h, fun has => hsa has.symm⟩
    · rintro ⟨h, _⟩; exact (hg a d).mpr h
  · rw [if_neg hsa, if_neg hdb]
    exact hg a b

theorem symm_of_core {g g' : GenericDAG K V} (h : SameGraphCore g g') (hg : Symm g) :
    Symm g' := by
  intro a b
  rw [outList_of_core h, inList_of_core h]
  exact hg a b

theorem symm_addVertexByID (hash : V → K) (g : GenericDAG K V) (i : String) (v : V)
    (hg : Symm g) : Symm (addVertexByID hash g i v).1 := by
  unfold addVertexByID
  by_cases h1 : (lookupA g.vertices (hash v)).isSome
  · simpa [h1] using hg
  · by_cases h2 : (lookupA g.vertexValues i).isSome
    · simpa [h1, h2] using hg
    · simp only [h1, h2, Bool.false_eq_true, if_false]
      intro a b
      exact hg a b

/-- Symmetry of the final state of a successful `AddEdge`: the cache
invalidation does not touch adjacency, and the two adjacency inserts
are a symmetric pair. -/
theorem symm_addEdge (hash : V → K) (fuel : Nat) (g : GenericDAG K V) (s d : String)
    (hg : Symm g) : Symm (AddEdge hash fuel g s d).1 := by
  unfold AddEdge
  cases h1 : saneID g s with
  | some e => exact hg
  | none =>
    cases h2 : saneID g d with
    | some e => exact hg
    | none =>
      by_cases h3 : s = d
      · rw [if_pos h3]; exact hg
      · rw [if_neg h3]
        dsimp only
        split_ifs with h4 h5
        · exact hg
        · exact hg
        · have hcore : SameGraphCore g
              ((getAncestors fuel
                (getDescendants fuel g (hash ((lookupA g.vertexValues d).getD default))).2
                (hash ((lookupA g.vertexValues s).getD default))).2) :=
            sameGraphCore_trans (getDescendants_core fuel g _) (getAncestors_core fuel _ _)
          have hg2 := symm_of_core hcore hg
          intro a b
          exact symm_insert_edge_pair _ _ _ hg2 a b

theorem symm_deleteEdge (hash : V → K) (fuel : Nat) (g : GenericDAG K V) (s d : String)
    (hg : Symm g) : Symm (DeleteEdge hash fuel g s d).1 := by
  unfold DeleteEdge
  cases h1 : saneID g s with
  | some e => exact hg
  | none =>
    cases h2 : saneID g d with
    | some e => exact hg
    | none =>
      by_cases h3 : s = d
      · rw [if_pos h3]; exact hg
      · rw [if_neg h3]
        dsimp only
        split_ifs with h4
        · have hcore : SameGraphCore g
              ((getAncestors fuel
                (getDescendants fuel g (hash ((lookupA g.vertexValues s).getD default))).2
                (hash ((lookupA g.vertexValues d).getD default))).2) :=
            sameGraphCore_trans (getDescendants_core fuel g _) (getAncestors_core fuel _ _)
          have hg2 := symm_of_core hcore hg
          intro a b
          exact symm_delete_edge_pair _ _ _ hg2 a b
        · exact hg

theorem symm_delete_vertex_general (g : GenericDAG K V) (vH : K) (C : List K)
    (hC1 : ∀ b, b ∈ C → b ∈ outList g vH)
    (hC2 : ∀ b, b ∈ outList g vH → b ≠ vH → b ∈ C)
    (hg : Symm g) :
    Symm { g with
      outboundEdge := eraseA vH ((inList g vH).foldl
        (fun m p => updateIfPresent p (delK vH) m) g.outboundEdge),
      inboundEdge := eraseA vH (C.foldl
        (fun m c => updateIfPresent c (delK vH) m) g.inboundEdge) } := by
  intro a b
  have hout : outList { g with
      outboundEdge := eraseA vH ((inList g vH).foldl
        (fun m p => updateIfPresent p (delK vH) m) g.outboundEdge),
      inboundEdge := eraseA vH (C.foldl
        (fun m c => updateIfPresent c (delK vH) m) g.inboundEdge) } a =
      if vH = a then [] else
        if a ∈ inList g vH then delK vH (outList g a) else outList g a := by
    unfold outList
    dsimp only
    rw [lookupA_eraseA]
    by_cases hva : vH = a
    · rw [if_pos hva, if_pos hva]; rfl
    · rw [if_neg hva, if_neg hva, lookupA_fold_updateIfPresent]
      split_ifs with hp
      · exact getD_map_delK _ _
      · rfl
  have hin : inList { g with
      outboundEdge := eraseA vH ((inList g vH).foldl
        (fun m p => updateIfPresent p (delK vH) m) g.outboundEdge),
      inboundEdge := eraseA vH (C.foldl
        (fun m c => updateIfPresent c (delK vH) m) g.inboundEdge) } b =
      if vH = b then [] else
        if b ∈ C then delK vH (inList g b) else inList g b := by
    unfold inList
    dsimp only
    rw [lookupA_eraseA]
    by_cases hvb : vH = b
    · rw [if_pos hvb, if_pos hvb]; rfl
    · rw [if_neg hvb, if_neg hvb, lookupA_fold_updateIfPresent]
      split_ifs with hp
      · exact getD_map_delK _ _
      · rfl
  rw [hout, hin]
  by_cases hva : vH = a <;> by_cases hvb : vH = b
  · rw [if_pos hva, if_pos hvb]; simp
  · rw [if_pos hva, if_neg hvb]
    subst hva
    simp only [List.not_mem_nil, false_iff]
    split_ifs with hbc
    · rw [mem_delK]
      rintro ⟨_, h⟩; exact h rfl
    · intro h
      have hbo : b ∈ outList g vH := (hg vH b).mpr h
      exact hbc (hC2 b hbo (fun hh => hvb hh.symm))
  · rw [if_neg hva, if_pos hvb]
    subst hvb
    simp only [List.not_mem_nil, iff_false]
    split_ifs with hap
    · rw [mem_delK]
      rintro ⟨_, h⟩; exact h rfl
    · intro h
      have hao : a ∈ inList g vH := (hg a vH).mp h
      exact hap hao
  · rw [if_neg hva, if_neg hvb]
    have hlhs : (b ∈ if a ∈ inList g vH then delK vH (outList g a) else outList g a)
        ↔ b ∈ outList g a := by
      split_ifs with hap
      · rw [mem_delK]
        exact ⟨fun h => h.1, fun h => ⟨h, fun hh => hvb hh.symm⟩⟩
      · exact Iff.rfl
    have hrhs : (a ∈ if b ∈ C then delK vH (inList g b) else inList g b)
        ↔ a ∈ inList g b := by
      split_ifs with hbc
      · rw [mem_delK]
        exact ⟨fun h => h.1, fun h => ⟨h, fun hh => hva hh.symm⟩⟩
      · exact Iff.rfl
    rw [hlhs, hrhs]
    exact hg a b

theorem symm_deleteVertex (hash : V → K) (fuel : Nat) (g : GenericDAG K V) (id : String)
    (hg : Symm g) : Symm (DeleteVertex hash fuel g id).1 := by
  unfold DeleteVertex
  cases hs : saneID g id with
  | some e => exact hg
  | none =>
    dsimp only
    have hcore : SameGraphCore g
        ((getAncestors fuel
          (getDescendants fuel g (hash ((lookupA g.vertexValues id).getD default))).2
          (hash ((lookupA g.vertexValues id).getD default))).2) :=
      sameGraphCore_trans (getDescendants_core fuel g _) (getAncestors_core fuel _ _)
    have hg2 := symm_of_core hcore hg
    set vH := hash ((lookupA g.vertexValues id).getD default) with hvH
    set g2 := (getAncestors fuel (getDescendants fuel g vH).2 vH).2 with hg2def
    have hCformula : outList { g2 with
        outboundEdge := (inList g2 vH).foldl
          (fun m p => updateIfPresent p (delK vH) m) g2.outboundEdge } vH =
        if vH ∈ inList g2 vH then delK vH (outList g2 vH) else outList g2 vH := by
      unfold outList
      dsimp only
      rw [lookupA_fold_updateIfPresent]
      split_ifs with hp
      · exact getD_map_delK _ _
      · rfl
    intro a b
    refine symm_delete_vertex_general g2 vH
      (outList { g2 with
        outboundEdge := (inList g2 vH).foldl
          (fun m p => updateIfPresent p (delK vH) m) g2.outboundEdge } vH)
      ?_ ?_ hg2 a b
    · intro c hc
      rw [hCformula] at hc
      by_cases hp : vH ∈ inList g2 vH
      · rw [if_pos hp] at hc; exact (mem_delK _ _ _ |>.mp hc).1
      · rw [if_neg hp] at hc; exact hc
    · intro c hc hcne
      rw [hCformula]
      by_cases hp : vH ∈ inList g2 vH
      · rw [if_pos hp, mem_delK]; exact ⟨hc, hcne⟩
      · rw [if_neg hp]; exact hc

theorem symm_flushCaches (g : GenericDAG K V) (hg : Symm g) : Symm (flushCaches g) := by
  intro a b
  exact hg a b

theorem symm_reduceTransitively (hash : V → K) (fuel : Nat) (g : GenericDAG K V)
    (hg : Symm g) : Symm (ReduceTransitively hash fuel g) := by
  unfold ReduceTransitively
  dsimp only
  have hg1 : Symm ((getRoots g).foldl
      (fun h rv => (getDescendants fuel h (hash rv.2)).2) g) := by
    refine foldl_preserves ?_ (getRoots g) g hg
    intro s rv hs
    exact symm_of_core (getDescendants_core fuel s (hash rv.2)) hs
  have hmain : Symm (g.vertices.foldl
      (fun (p : GenericDAG K V × Bool) kv =>
        let vHash := kv.1
        let gc := p.1
        let descendantsOfChildrenOfV := (outList gc vHash).foldl
          (fun acc c =>
            ((lookupA gc.descendantsCache c).getD []).foldl (fun a d => addK d a) acc)
          []
        (outList gc vHash).foldl
          (fun (q : GenericDAG K V × Bool) childOfV =>
            if childOfV ∈ descendantsOfChildrenOfV then
              ({ q.1 with
                  outboundEdge :=
                    updateIfPresent vHash (delK childOfV) q.1.outboundEdge,
                  inboundEdge :=
                    updateIfPresent childOfV (delK vHash) q.1.inboundEdge },
                true)
            else q)
          (gc, p.2))
      ((getRoots g).foldl (fun h rv => (getDescendants fuel h (hash rv.2)).2) g,
        false)).1 := by
    refine foldl_preserves (P := fun p : GenericDAG K V × Bool => Symm p.1)
      ?_ g.vertices _ hg1
    intro p kv hp
    dsimp only
    refine foldl_preserves (P := fun q : GenericDAG K V × Bool => Symm q.1)
      ?_ (outList p.1 kv.1) (p.1, p.2) hp
    intro q c hq
    split_ifs with hc
    · intro a b
      exact symm_delete_edge_pair q.1 kv.1 c hq a b
    · exact hq
  split_ifs with hchanged
  · intro a b
    exact hmain a b
  · exact hmain

/-! ## Claim C2 -/

theorem symm_applyMutOp (hash : V → K) (fuel : Nat) (g : GenericDAG K V)
    (op : MutOp V) (hg : Symm g) : Symm (applyMutOp hash fuel g op) := by
  cases op with
  | addVertex i v => exact symm_addVertexByID hash g i v hg
  | addVertexByID i v => exact symm_addVertexByID hash g i v hg
  | addEdge s d => exact symm_addEdge hash fuel g s d hg
  | deleteEdge s d => exact symm_deleteEdge hash fuel g s d hg
  | deleteVertex i => exact symm_deleteVertex hash fuel g i hg
  | reduceTransitively => exact symm_reduceTransitively hash fuel g hg

theorem symm_runMutOps (hash : V → K) (ops : List (MutOp V)) :
    ∀ g : GenericDAG K V, Symm g → Symm (runMutOps hash g ops) := by
  induction ops with
  | nil => intro g hg; exact hg
  | cons op rest ih =>
    intro g hg
    exact ih _ (symm_applyMutOp hash (opFuel g) g op hg)

theorem symm_new : Symm (NewGenericDAG K V) := by
  intro a b
  simp [outList, inList, NewGenericDAG]

/-- C2: after every finite sequence of mutations (`AddVertex`,
`AddVertexByID`, `AddEdge`, `DeleteEdge`, `DeleteVertex`,
`ReduceTransitively`) starting from a new graph, the adjacency maps
are symmetric: `b ∈ outboundEdge[a] ↔ a ∈ inboundEdge[b]`. -/
theorem C2_adjacency_symmetry (hash : V → K) (ops : List (MutOp V)) :
    ∀ a b : K, b ∈ outList (runMutOps hash (NewGenericDAG K V) ops) a ↔
      a ∈ inList (runMutOps hash (NewGenericDAG K V) ops) b :=
  symm_runMutOps hash ops (NewGenericDAG K V) symm_new

/-! ## Cache correctness (claim C3): invariants and transport lemmas -/

/-- Every populated descendants-cache entry is the set of keys
reachable from its key in one or more outbound steps. -/
def DescCacheOK (g : GenericDAG K V) : Prop :=
  ∀ k s, lookupA g.descendantsCache k = some s → ∀ x, x ∈ s ↔ ReachPlus g k x

/-- Every populated ancestors-cache entry is the set of keys from
which its key is reachable. -/
def AncCacheOK (g : GenericDAG K V) : Prop :=
  ∀ k s, lookupA g.ancestorsCache k = some s → ∀ x, x ∈ s ↔ ReachPlus g x k

/-- Both endpoints of every outbound edge are live keys. -/
def EdgesLive (g : GenericDAG K V) : Prop :=
  ∀ a b : K, b ∈ outList g a →
    (lookupA g.vertices a).isSome ∧ (lookupA g.vertices b).isSome

/-- The key→id index inverts the id→value index through the hash. -/
def HashIndex (hash : V → K) (g : GenericDAG K V) : Prop :=
  ∀ i v, lookupA g.vertexValues i = some v → lookupA g.vertices (hash v) = some i

/-- The outbound adjacency map has no duplicate row keys. -/
def OutKeysNodup (g : GenericDAG K V) : Prop :=
  (g.outboundEdge.map Prod.fst).Nodup

theorem reachN_of_core {g g' : GenericDAG K V} (h : SameGraphCore g g') :
    ∀ n a b, ReachN g' n a b ↔ ReachN g n a b := by
  intro n
  induction n with
  | zero => intro a b; exact Iff.rfl
  | succ n ih =>
    intro a b
    constructor
    · rintro ⟨c, hc, hr⟩
      exact ⟨c, (outList_of_core h a) ▸ hc, (ih c b).mp hr⟩
    · rintro ⟨c, hc, hr⟩
      exact ⟨c, (outList_of_core h a).symm ▸ hc, (ih c b).mpr hr⟩

theorem reachPlus_of_core {g g' : GenericDAG K V} (h : SameGraphCore g g') (a b : K) :
    ReachPlus g' a b ↔ ReachPlus g a b := by
  unfold ReachPlus
  constructor
  · rintro ⟨n, hn⟩; exact ⟨n, (reachN_of_core h _ a b).mp hn⟩
  · rintro ⟨n, hn⟩; exact ⟨n, (reachN_of_core h _ a b).mpr hn⟩

theorem lookupA_eq_none_iff {K β : Type} [DecidableEq K] (m : List (K × β)) (k : K) :
    lookupA m k = none ↔ k ∉ m.map Prod.fst := by
  induction m with
  | nil => simp
  | cons p rest ih =>
    obtain ⟨pk, pv⟩ := p
    rw [lookupA_cons, List.map_cons]
    by_cases hk : pk = k
    · subst hk; simp
    · rw [if_neg hk, ih]
      simp only [List.mem_cons, not_or]
      constructor
      · intro h; exact ⟨fun hh => hk hh.symm, h⟩
      · intro h; exact h.2

theorem lookupA_isSome_iff {K β : Type} [DecidableEq K] (m : List (K × β)) (k : K) :
    (lookupA m k).isSome ↔ k ∈ m.map Prod.fst := by
  constructor
  · intro hs
    cases h : lookupA m k with
    | none => rw [h] at hs; simp at hs
    | some v => exact List.mem_map.mpr ⟨(k, v), lookupA_mem h, rfl⟩
  · intro hm
    cases h : lookupA m k with
    | some v => simp
    | none => exact absurd hm ((lookupA_eq_none_iff m k).mp h)

theorem lookupA_of_nodup_mem {K β : Type} [DecidableEq K] {m : List (K × β)}
    (hnd : (m.map Prod.fst).Nodup) {k : K} {s : β} (hmem : (k, s) ∈ m) :
    lookupA m k = some s := by
  induction m with
  | nil => simp at hmem
  | cons p rest ih =>
    obtain ⟨pk, pv⟩ := p
    rw [List.map_cons, List.nodup_cons] at hnd
    rcases List.mem_cons.mp hmem with h | h
    · cases h
      rw [lookupA_cons, if_pos rfl]
    · rw [lookupA_cons]
      by_cases hk : pk = k
      · subst hk
        exact absurd (List.mem_map.mpr ⟨(pk, s), h, rfl⟩) hnd.1
      · rw [if_neg hk]
        exact ih hnd.2 h

theorem lookupA_fold_eraseA {K β : Type} [DecidableEq K] (l : List K) :
    ∀ (m : List (K × β)) (k : K),
      lookupA (l.foldl (fun m' a => eraseA a m') m) k =
        if k ∈ l then none else lookupA m k := by
  induction l with
  | nil => intro m k; simp
  | cons a rest ih =>
    intro m k
    rw [List.foldl_cons, ih]
    by_cases hk : k ∈ rest
    · rw [if_pos hk, if_pos (List.mem_cons_of_mem _ hk)]
    · rw [if_neg hk, lookupA_eraseA]
      by_cases hak : a = k
      · subst hak
        rw [if_pos rfl, if_pos (List.mem_cons_self _ _)]
      · rw [if_neg hak, if_neg (by
          intro hmem
          rcases List.mem_cons.mp hmem with h | h
          · exact hak h.symm
          · exact hk h)]

theorem mem_foldl_addK (l : List K) :
    ∀ (acc : List K) (x : K),
      x ∈ l.foldl (fun a d => addK d a) acc ↔ x ∈ acc ∨ x ∈ l := by
  induction l with
  | nil => intro acc x; simp
  | cons d rest ih =>
    intro acc x
    rw [List.foldl_cons, ih, mem_addK]
    constructor
    · rintro ((h | rfl) | h)
      · exact Or.inl h
      · exact Or.inr (List.mem_cons_self _ _)
      · exact Or.inr (List.mem_cons_of_mem _ h)
    · rintro (h | h)
      · exact Or.inl (Or.inl h)
      · rcases List.mem_cons.mp h with rfl | h'
        · exact Or.inl (Or.inr rfl)
        · exact Or.inr h'

theorem getDescendants_ancCache (fuel : Nat) :
    ∀ (g : GenericDAG K V) (k : K),
      (getDescendants fuel g k).2.ancestorsCache = g.ancestorsCache := by
  induction fuel with
  | zero => intro g k; rfl
  | succ fuel ih =>
    intro g k
    rw [getDescendants]
    cases lookupA g.descendantsCache k with
    | some cache => rfl
    | none =>
      have h := relLoop_preserves
        (fun g1 g2 => g2.ancestorsCache = g1.ancestorsCache)
        (fun _ => rfl) (fun _ _ _ h1 h2 => h2.trans h1)
        (fun g' c => ih g' c) (outList g k) ([], g)
      exact h

theorem getAncestors_descCache (fuel : Nat) :
    ∀ (g : GenericDAG K V) (k : K),
      (getAncestors fuel g k).2.descendantsCache = g.descendantsCache := by
  induction fuel with
  | zero => intro g k; rfl
  | succ fuel ih =>
    intro g k
    rw [getAncestors]
    cases lookupA g.ancestorsCache k with
    | some cache => rfl
    | none =>
      have h := relLoop_preserves
        (fun g1 g2 => g2.descendantsCache = g1.descendantsCache)
        (fun _ => rfl) (fun _ _ _ h1 h2 => h2.trans h1)
        (fun g' c => ih g' c) (inList g k) ([], g)
      exact h

/-! ## Paths, acyclicity and the recursion-depth bound -/

/-- `PathList g a l`: the list `l` is the successive vertices of a
walk starting (but not including) `a`. -/
def PathList (g : GenericDAG K V) : K → List K → Prop
  | _, [] => True
  | a, c :: rest => c ∈ outList g a ∧ PathList g c rest

theorem reachN_iff_pathList (g : GenericDAG K V) :
    ∀ (n : Nat) (a b : K),
      ReachN g n a b ↔ ∃ l, l.length = n ∧ PathList g a l ∧ l.getLastD a = b := by
  intro n
  induction n with
  | zero =>
    intro a b
    constructor
    · intro h; exact ⟨[], rfl, trivial, h⟩
    · rintro ⟨l, hlen, _, hlast⟩
      rw [List.length_eq_zero.mp hlen] at hlast
      exact hlast
  | succ n ih =>
    intro a b
    constructor
    · rintro ⟨c, hc, hr⟩
      obtain ⟨l, hlen, hpath, hlast⟩ := (ih c b).mp hr
      exact ⟨c :: l, by simp [hlen], ⟨hc, hpath⟩, by rw [List.getLastD_cons]; exact hlast⟩
    · rintro ⟨l, hlen, hpath, hlast⟩
      match l with
      | [] => simp at hlen
      | c :: l' =>
        obtain ⟨hc, hpath'⟩ := hpath
        rw [List.getLastD_cons] at hlast
        exact ⟨c, hc, (ih c b).mpr ⟨l', by simpa using hlen, hpath', hlast⟩⟩

theorem pathList_append (g : GenericDAG K V) :
    ∀ (l1 l2 : List K) (a : K),
      PathList g a (l1 ++ l2) ↔ PathList g a l1 ∧ PathList g (l1.getLastD a) l2 := by
  intro l1
  induction l1 with
  | nil => intro l2 a; simp [PathList]
  | cons c rest ih =>
    intro l2 a
    rw [List.cons_append]
    show (c ∈ outList g a ∧ PathList g c (rest ++ l2)) ↔ _
    rw [ih, List.getLastD_cons]
    show _ ↔ (c ∈ outList g a ∧ PathList g c rest) ∧ _
    tauto

theorem pathList_live {g : GenericDAG K V} (hlive : EdgesLive g) :
    ∀ (l : List K) (a : K), PathList g a l → ∀ x ∈ l, (lookupA g.vertices x).isSome := by
  intro l
  induction l with
  | nil => intro a _ x hx; simp at hx
  | cons c rest ih =>
    rintro a ⟨hc, hpath⟩ x hx
    rcases List.mem_cons.mp hx with rfl | hx'
    · exact (hlive a x hc).2
    · exact ih c hpath x hx'

theorem exists_dup_split {K : Type} [DecidableEq K] :
    ∀ {l : List K}, ¬ l.Nodup → ∃ (x : K) (l1 l2 l3 : List K),
      l = l1 ++ (x :: (l2 ++ (x :: l3))) := by
  intro l
  induction l with
  | nil => intro h; exact absurd List.nodup_nil h
  | cons c rest ih =>
    intro h
    rw [List.nodup_cons] at h
    push_neg at h
    by_cases hc : c ∈ rest
    · obtain ⟨r1, r2, hr⟩ := List.append_of_mem hc
      exact ⟨c, [], r1, r2, by rw [hr]; rfl⟩
    · obtain ⟨x, l1, l2, l3, hl⟩ := ih (h hc)
      exact ⟨x, c :: l1, l2, l3, by rw [hl]; rfl⟩

theorem reachPlus_of_dup_path {g : GenericDAG K V} {a x : K} {l1 l2 l3 : List K}
    (hpath : PathList g a (l1 ++ (x :: (l2 ++ (x :: l3))))) : ReachPlus g x x := by
  have h1 := (pathList_append g l1 (x :: (l2 ++ (x :: l3))) a).mp hpath
  obtain ⟨hx1, h2⟩ := h1.2
  have h3 := (pathList_append g l2 (x :: l3) x).mp h2
  obtain ⟨hx2, _⟩ := h3.2
  have hseg : PathList g x (l2 ++ [x]) :=
    (pathList_append g l2 [x] x).mpr ⟨h3.1, ⟨hx2, trivial⟩⟩
  have hreach : ReachN g (l2.length + 1) x x := by
    rw [reachN_iff_pathList]
    exact ⟨l2 ++ [x], by simp, hseg, by rw [List.getLastD_concat]⟩
  exact ⟨l2.length, hreach⟩

/-- Every path from any vertex of an acyclic graph with live edges has
fewer steps than one plus the number of vertices. -/
theorem heightLt_of_acyclic {g : GenericDAG K V} (hacy : Acyclic g)
    (hlive : EdgesLive g) (k : K) :
    ∀ (m : Nat) (b : K), ReachN g m k b → m < g.vertices.length + 1 := by
  intro m b hr
  obtain ⟨l, hlen, hpath, _⟩ := (reachN_iff_pathList g m k b).mp hr
  by_cases hnd : l.Nodup
  · have hsub : l.toFinset ⊆ (g.vertices.map Prod.fst).toFinset := by
      intro x hx
      rw [List.mem_toFinset] at hx
      rw [List.mem_toFinset, ← lookupA_isSome_iff]
      exact pathList_live hlive l k hpath x hx
    have h1 : l.toFinset.card = l.length := List.toFinset_card_of_nodup hnd
    have h2 : l.toFinset.card ≤ (g.vertices.map Prod.fst).toFinset.card :=
      Finset.card_le_card hsub
    have h3 : (g.vertices.map Prod.fst).toFinset.card ≤ (g.vertices.map Prod.fst).length :=
      List.toFinset_card_le _
    rw [List.length_map] at h3
    omega
  · obtain ⟨x, l1, l2, l3, hl⟩ := exists_dup_split hnd
    rw [hl] at hpath
    exact absurd (reachPlus_of_dup_path hpath) (hacy x)

/-! ## Correctness of the memoised reachability computations -/

theorem reachN_succ_iff_last (g : GenericDAG K V) :
    ∀ (n : Nat) (a b : K),
      ReachN g (n + 1) a b ↔ ∃ c, ReachN g n a c ∧ b ∈ outList g c := by
  intro n
  induction n with
  | zero =>
    intro a b
    constructor
    · rintro ⟨c, hc, rfl⟩
      exact ⟨a, rfl, hc⟩
    · rintro ⟨c, rfl, hb⟩
      exact ⟨b, hb, rfl⟩
  | succ n ih =>
    intro a b
    constructor
    · rintro ⟨c, hc, hr⟩
      obtain ⟨d, hd, hb⟩ := (ih c b).mp hr
      exact ⟨d, ⟨c, hc, hd⟩, hb⟩
    · rintro ⟨d, ⟨c, hc, hd⟩, hb⟩
      exact ⟨c, hc, (ih c b).mpr ⟨d, hd, hb⟩⟩

theorem reachPlus_iff_last (g : GenericDAG K V) (a b : K) :
    ReachPlus g a b ↔ ∃ p, ReachStar g a p ∧ b ∈ outList g p := by
  constructor
  · rintro ⟨n, hn⟩
    obtain ⟨c, hc, hb⟩ := (reachN_succ_iff_last g n a b).mp hn
    exact ⟨c, ⟨n, hc⟩, hb⟩
  · rintro ⟨p, ⟨n, hn⟩, hb⟩
    exact ⟨n, (reachN_succ_iff_last g n a b).mpr ⟨p, hn, hb⟩⟩

theorem acyclic_of_core {g g' : GenericDAG K V} (h : SameGraphCore g g')
    (hacy : Acyclic g) : Acyclic g' := by
  intro k hk
  exact hacy k ((reachPlus_of_core h k k).mp hk)

theorem relLoop_desc_spec (fuel : Nat)
    (ih : ∀ (g : GenericDAG K V) (k : K), Acyclic g → DescCacheOK g →
      (∀ m b, ReachN g m k b → m < fuel) →
      (∀ x, x ∈ (getDescendants fuel g k).1 ↔ ReachPlus g k x) ∧
      DescCacheOK (getDescendants fuel g k).2)
    (g0 : GenericDAG K V) (hacy : Acyclic g0) :
    ∀ (cs : List K) (acc : List K) (g' : GenericDAG K V),
      SameGraphCore g0 g' → DescCacheOK g' →
      (∀ c ∈ cs, ∀ m b, ReachN g0 m c b → m < fuel) →
      SameGraphCore g0 (relLoop (getDescendants fuel) cs (acc, g')).2 ∧
      DescCacheOK (relLoop (getDescendants fuel) cs (acc, g')).2 ∧
      (∀ x, x ∈ (relLoop (getDescendants fuel) cs (acc, g')).1 ↔
        x ∈ acc ∨ ∃ c ∈ cs, x = c ∨ ReachPlus g0 c x) := by
  intro cs
  induction cs with
  | nil =>
    intro acc g' hcore hok _
    exact ⟨hcore, hok, by simp [relLoop]⟩
  | cons c rest ihcs =>
    intro acc g' hcore hok hh
    have hacy' : Acyclic g' := acyclic_of_core hcore hacy
    have hh' : ∀ m b, ReachN g' m c b → m < fuel := by
      intro m b hr
      exact hh c (List.mem_cons_self _ _) m b ((reachN_of_core hcore m c b).mp hr)
    obtain ⟨hq1, hq2⟩ := ih g' c hacy' hok hh'
    have hcore2 : SameGraphCore g0 (getDescendants fuel g' c).2 :=
      sameGraphCore_trans hcore (getDescendants_core fuel g' c)
    rw [relLoop]
    obtain ⟨hc1, hc2, hc3⟩ := ihcs
      (addK c (List.foldl (fun a d => addK d a) acc (getDescendants fuel g' c).1))
      (getDescendants fuel g' c).2 hcore2 hq2
      (fun c' hc' => hh c' (List.mem_cons_of_mem _ hc'))
    refine ⟨hc1, hc2, ?_⟩
    intro x
    rw [hc3 x, mem_addK, mem_foldl_addK]
    have hq1' : x ∈ (getDescendants fuel g' c).1 ↔ ReachPlus g0 c x := by
      rw [hq1 x, reachPlus_of_core hcore]
    rw [hq1']
    constructor
    · rintro (((h | h) | rfl) | ⟨c', hc', h⟩)
      · exact Or.inl h
      · exact Or.inr ⟨c, List.mem_cons_self _ _, Or.inr h⟩
      · exact Or.inr ⟨x, List.mem_cons_self _ _, Or.inl rfl⟩
      · exact Or.inr ⟨c', List.mem_cons_of_mem _ hc', h⟩
    · rintro (h | ⟨c', hc', h⟩)
      · exact Or.inl (Or.inl (Or.inl h))
      · rcases List.mem_cons.mp hc' with rfl | hc''
        · rcases h with rfl | h
          · exact Or.inl (Or.inr rfl)
          · exact Or.inl (Or.inl (Or.inr h))
        · exact Or.inr ⟨c', hc'', h⟩

theorem getDescendants_spec :
    ∀ (fuel : Nat) (g : GenericDAG K V) (k : K),
      Acyclic g → DescCacheOK g →
      (∀ m b, ReachN g m k b → m < fuel) →
      (∀ x, x ∈ (getDescendants fuel g k).1 ↔ ReachPlus g k x) ∧
      DescCacheOK (getDescendants fuel g k).2 := by
  intro fuel
  induction fuel with
  | zero =>
    intro g k _ _ hh
    exact absurd (hh 0 k rfl) (by omega)
  | succ fuel ih =>
    intro g k hacy hok hh
    rw [getDescendants]
    cases hcache : lookupA g.descendantsCache k with
    | some s => exact ⟨hok k s hcache, hok⟩
    | none =>
      obtain ⟨hcore_r, hok_r, hmem⟩ := relLoop_desc_spec fuel ih g hacy
        (outList g k) [] g (sameGraphCore_refl g) hok
        (fun c hc m b hr => by
          have : ReachN g (m + 1) k b := ⟨c, hc, hr⟩
          have := hh (m + 1) b this
          omega)
      set r := relLoop (getDescendants fuel) (outList g k) ([], g) with hr
      have hfinalcore : SameGraphCore g
          { r.2 with descendantsCache := insertA k r.1 r.2.descendantsCache } :=
        sameGraphCore_trans hcore_r ⟨rfl, rfl, rfl, rfl⟩
      have hmem' : ∀ x, x ∈ r.1 ↔ ReachPlus g k x := by
        intro x
        rw [hmem x]
        simp only [List.not_mem_nil, false_or]
        rw [reachPlus_iff_step_reachStar]
        constructor
        · rintro ⟨c, hc, rfl | h⟩
          · exact ⟨x, hc, reachStar_refl g x⟩
          · exact ⟨c, hc, reachStar_iff_eq_or_plus.mpr (Or.inr h)⟩
        · rintro ⟨c, hc, hstar⟩
          rcases reachStar_iff_eq_or_plus.mp hstar with rfl | h
          · exact ⟨c, hc, Or.inl rfl⟩
          · exact ⟨c, hc, Or.inr h⟩
      constructor
      · exact hmem'
      · intro k' s' hlk x
        rw [lookupA_insertA] at hlk
        by_cases hkk : k = k'
        · rw [if_pos hkk] at hlk
          obtain rfl : r.1 = s' := by injection hlk
          subst hkk
          rw [hmem' x]
          exact (reachPlus_of_core hfinalcore k x).symm
        · rw [if_neg hkk] at hlk
          rw [hok_r k' s' hlk x]
          exact (reachPlus_of_core hcore_r k' x).trans
            (reachPlus_of_core hfinalcore k' x).symm

theorem relLoop_anc_spec (fuel : Nat)
    (ih : ∀ (g : GenericDAG K V) (k : K), Symm g → Acyclic g → AncCacheOK g →
      (∀ m b, ReachN g m b k → m < fuel) →
      (∀ x, x ∈ (getAncestors fuel g k).1 ↔ ReachPlus g x k) ∧
      AncCacheOK (getAncestors fuel g k).2)
    (g0 : GenericDAG K V) (hsymm0 : Symm g0) (hacy : Acyclic g0) :
    ∀ (cs : List K) (acc : List K) (g' : GenericDAG K V),
      SameGraphCore g0 g' → AncCacheOK g' →
      (∀ p ∈ cs, ∀ m b, ReachN g0 m b p → m < fuel) →
      SameGraphCore g0 (relLoop (getAncestors fuel) cs (acc, g')).2 ∧
      AncCacheOK (relLoop (getAncestors fuel) cs (acc, g')).2 ∧
      (∀ x, x ∈ (relLoop (getAncestors fuel) cs (acc, g')).1 ↔
        x ∈ acc ∨ ∃ p ∈ cs, x = p ∨ ReachPlus g0 x p) := by
  intro cs
  induction cs with
  | nil =>
    intro acc g' hcore hok _
    exact ⟨hcore, hok, by simp [relLoop]⟩
  | cons p rest ihcs =>
    intro acc g' hcore hok hh
    have hacy' : Acyclic g' := acyclic_of_core hcore hacy
    have hsymm' : Symm g' := symm_of_core hcore hsymm0
    have hh' : ∀ m b, ReachN g' m b p → m < fuel := by
      intro m b hr
      exact hh p (List.mem_cons_self _ _) m b ((reachN_of_core hcore m b p).mp hr)
    obtain ⟨hq1, hq2⟩ := ih g' p hsymm' hacy' hok hh'
    have hcore2 : SameGraphCore g0 (getAncestors fuel g' p).2 :=
      sameGraphCore_trans hcore (getAncestors_core fuel g' p)
    rw [relLoop]
    obtain ⟨hc1, hc2, hc3⟩ := ihcs
      (addK p (List.foldl (fun a d => addK d a) acc (getAncestors fuel g' p).1))
      (getAncestors fuel g' p).2 hcore2 hq2
      (fun p' hp' => hh p' (List.mem_cons_of_mem _ hp'))
    refine ⟨hc1, hc2, ?_⟩
    intro x
    rw [hc3 x, mem_addK, mem_foldl_addK]
    have hq1' : x ∈ (getAncestors fuel g' p).1 ↔ ReachPlus g0 x p := by
      rw [hq1 x, reachPlus_of_core hcore]
    rw [hq1']
    constructor
    · rintro (((h | h) | rfl) | ⟨p', hp', h⟩)
      · exact Or.inl h
      · exact Or.inr ⟨p, List.mem_cons_self _ _, Or.inr h⟩
      · exact Or.inr ⟨x, List.mem_cons_self _ _, Or.inl rfl⟩
      · exact Or.inr ⟨p', List.mem_cons_of_mem _ hp', h⟩
    · rintro (h | ⟨p', hp', h⟩)
      · exact Or.inl (Or.inl (Or.inl h))
      · rcases List.mem_cons.mp hp' with rfl | hp''
        · rcases h with rfl | h
          · exact Or.inl (Or.inr rfl)
          · exact Or.inl (Or.inl (Or.inr h))
        · exact Or.inr ⟨p', hp'', h⟩

theorem getAncestors_spec :
    ∀ (fuel : Nat) (g : GenericDAG K V) (k : K),
      Symm g → Acyclic g → AncCacheOK g →
      (∀ m b, ReachN g m b k → m < fuel) →
      (∀ x, x ∈ (getAncestors fuel g k).1 ↔ ReachPlus g x k) ∧
      AncCacheOK (getAncestors fuel g k).2 := by
  intro fuel
  induction fuel with
  | zero =>
    intro g k _ _ _ hh
    exact absurd (hh 0 k rfl) (by omega)
  | succ fuel ih =>
    intro g k hsymm hacy hok hh
    rw [getAncestors]
    cases hcache : lookupA g.ancestorsCache k with
    | some s => exact ⟨hok k s hcache, hok⟩
    | none =>
      obtain ⟨hcore_r, hok_r, hmem⟩ := relLoop_anc_spec fuel ih g hsymm hacy
        (inList g k) [] g (sameGraphCore_refl g) hok
        (fun p hp m b hr => by
          have hk : k ∈ outList g p := (hsymm p k).mpr hp
          have : ReachN g (m + 1) b k := (reachN_succ_iff_last g m b k).mpr ⟨p, hr, hk⟩
          have := hh (m + 1) b this
          omega)
      set r := relLoop (getAncestors fuel) (inList g k) ([], g) with hr
      have hfinalcore : SameGraphCore g
          { r.2 with ancestorsCache := insertA k r.1 r.2.ancestorsCache } :=
        sameGraphCore_trans hcore_r ⟨rfl, rfl, rfl, rfl⟩
      have hmem' : ∀ x, x ∈ r.1 ↔ ReachPlus g x k := by
        intro x
        rw [hmem x]
        simp only [List.not_mem_nil, false_or]
        rw [reachPlus_iff_last]
        constructor
        · rintro ⟨p, hp, rfl | h⟩
          · exact ⟨x, reachStar_refl g x, (hsymm x k).mpr hp⟩
          · exact ⟨p, reachStar_iff_eq_or_plus.mpr (Or.inr h), (hsymm p k).mpr hp⟩
        · rintro ⟨p, hstar, hk⟩
          have hp : p ∈ inList g k := (hsymm p k).mp hk
          rcases reachStar_iff_eq_or_plus.mp hstar with heq | h
          · subst heq
            exact ⟨x, hp, Or.inl rfl⟩
          · exact ⟨p, hp, Or.inr h⟩
      constructor
      · exact hmem'
      · intro k' s' hlk x
        rw [lookupA_insertA] at hlk
        by_cases hkk : k = k'
        · rw [if_pos hkk] at hlk
          obtain rfl : r.1 = s' := by injection hlk
          subst hkk
          rw [hmem' x]
          exact (reachPlus_of_core hfinalcore x k).symm
        · rw [if_neg hkk] at hlk
          rw [hok_r k' s' hlk x]
          exact (reachPlus_of_core hcore_r x k').trans
            (reachPlus_of_core hfinalcore x k').symm

/-! ## How each adjacency mutation transforms reachability -/

theorem reachN_mono {g g' : GenericDAG K V}
    (hsub : ∀ a c, c ∈ outList g' a → c ∈ outList g a) :
    ∀ n a b, ReachN g' n a b → ReachN g n a b := by
  intro n
  induction n with
  | zero => intro a b h; exact h
  | succ n ih =>
    rintro a b ⟨c, hc, hr⟩
    exact ⟨c, hsub a c hc, ih c b hr⟩

theorem reachN_mono_up {g g' : GenericDAG K V}
    (hsub : ∀ a c, c ∈ outList g a → c ∈ outList g' a) :
    ∀ n a b, ReachN g n a b → ReachN g' n a b := by
  intro n
  induction n with
  | zero => intro a b h; exact h
  | succ n ih =>
    rintro a b ⟨c, hc, hr⟩
    exact ⟨c, hsub a c hc, ih c b hr⟩

/-- Reachability after inserting the edge `src → dst`. -/
theorem reachStar_addEdge {g g' : GenericDAG K V} {src dst : K}
    (hout : ∀ a, outList g' a = if src = a then addK dst (outList g a) else outList g a) :
    ∀ a b, ReachStar g' a b ↔
      ReachStar g a b ∨ (ReachStar g a src ∧ ReachStar g dst b) := by
  have hsub : ∀ a c, c ∈ outList g a → c ∈ outList g' a := by
    intro a c hc
    rw [hout a]
    split_ifs with h
    · exact (mem_addK dst c _).mpr (Or.inl hc)
    · exact hc
  have hnew : dst ∈ outList g' src := by
    rw [hout src, if_pos rfl]
    exact (mem_addK dst dst _).mpr (Or.inr rfl)
  intro a b
  constructor
  · rintro ⟨n, hn⟩
    induction n generalizing a with
    | zero => exact Or.inl (hn ▸ reachStar_refl g a)
    | succ n ih =>
      obtain ⟨c, hc, hr⟩ := hn
      rcases ih c hr with hcb | ⟨hcs, hdb⟩
      · -- the tail stays in the old graph
        rw [hout a] at hc
        by_cases ha : src = a
        · rw [if_pos ha] at hc
          rcases (mem_addK dst c _).mp hc with hold | rfl
          · exact Or.inl (reachStar_trans (reachStar_iff_eq_or_plus.mpr
              (Or.inr (reachPlus_of_step hold))) hcb)
          · exact Or.inr ⟨ha ▸ reachStar_refl g a, hcb⟩
        · rw [if_neg ha] at hc
          exact Or.inl (reachStar_trans (reachStar_iff_eq_or_plus.mpr
            (Or.inr (reachPlus_of_step hc))) hcb)
      · -- the tail already used the new edge
        rw [hout a] at hc
        by_cases ha : src = a
        · rw [if_pos ha] at hc
          rcases (mem_addK dst c _).mp hc with hold | rfl
          · exact Or.inr ⟨reachStar_trans (reachStar_iff_eq_or_plus.mpr
              (Or.inr (reachPlus_of_step hold))) hcs, hdb⟩
          · exact Or.inr ⟨ha ▸ reachStar_refl g a, hdb⟩
        · rw [if_neg ha] at hc
          exact Or.inr ⟨reachStar_trans (reachStar_iff_eq_or_plus.mpr
            (Or.inr (reachPlus_of_step hc))) hcs, hdb⟩
  · rintro (⟨n, hn⟩ | ⟨has, hdb⟩)
    · exact ⟨n, reachN_mono_up hsub n a b hn⟩
    · obtain ⟨m, hm⟩ := has
      obtain ⟨n, hn⟩ := hdb
      have h1 : ReachN g' m a src := reachN_mono_up hsub m a src hm
      have h2 : ReachN g' n dst b := reachN_mono_up hsub n dst b hn
      have hmid : ReachN g' 1 src dst := ⟨dst, hnew, rfl⟩
      exact ⟨m + (1 + n), reachN_trans h1 (reachN_trans hmid h2)⟩

theorem reachPlus_addEdge {g g' : GenericDAG K V} {src dst : K}
    (hout : ∀ a, outList g' a = if src = a then addK dst (outList g a) else outList g a) :
    ∀ a b, ReachPlus g' a b ↔
      ReachPlus g a b ∨ (ReachStar g a src ∧ ReachStar g dst b) := by
  have hsub : ∀ a c, c ∈ outList g a → c ∈ outList g' a := by
    intro a c hc
    rw [hout a]
    split_ifs with h
    · exact (mem_addK dst c _).mpr (Or.inl hc)
    · exact hc
  have hnew : dst ∈ outList g' src := by
    rw [hout src, if_pos rfl]
    exact (mem_addK dst dst _).mpr (Or.inr rfl)
  intro a b
  constructor
  · intro h
    obtain ⟨c, hc, hstar⟩ := reachPlus_iff_step_reachStar.mp h
    rcases (reachStar_addEdge hout c b).mp hstar with hcb | ⟨hcs, hdb⟩
    · rw [hout a] at hc
      by_cases ha : src = a
      · rw [if_pos ha] at hc
        rcases (mem_addK dst c _).mp hc with hold | rfl
        · exact Or.inl ((reachPlus_of_step hold).trans_star hcb)
        · exact Or.inr ⟨ha ▸ reachStar_refl g a, hcb⟩
      · rw [if_neg ha] at hc
        exact Or.inl ((reachPlus_of_step hc).trans_star hcb)
    · rw [hout a] at hc
      by_cases ha : src = a
      · rw [if_pos ha] at hc
        rcases (mem_addK dst c _).mp hc with hold | rfl
        · exact Or.inr ⟨reachStar_iff_eq_or_plus.mpr
            (Or.inr ((reachPlus_of_step hold).trans_star hcs)), hdb⟩
        · exact Or.inr ⟨ha ▸ reachStar_refl g a, hdb⟩
      · rw [if_neg ha] at hc
        exact Or.inr ⟨reachStar_iff_eq_or_plus.mpr
          (Or.inr ((reachPlus_of_step hc).trans_star hcs)), hdb⟩
  · rintro (⟨n, hn⟩ | ⟨has, hdb⟩)
    · exact ⟨n, reachN_mono_up hsub (n + 1) a b hn⟩
    · have h1 : ReachStar g' a src := by
        obtain ⟨m, hm⟩ := has
        exact ⟨m, reachN_mono_up hsub m a src hm⟩
      have h2 : ReachStar g' dst b := by
        obtain ⟨n, hn⟩ := hdb
        exact ⟨n, reachN_mono_up hsub n dst b hn⟩
      exact h1.trans_plus ((reachPlus_of_step hnew).trans_star h2)

/-- A path that never revisits the deleted edge survives
`DeleteEdge`: version for sources that cannot reach `dst`. -/
theorem reachN_deleteEdge_not_star_dst {g g' : GenericDAG K V} {src dst : K}
    (hout : ∀ a, outList g' a = if src = a then delK dst (outList g a) else outList g a) :
    ∀ n a b, ReachN g n a b → ¬ ReachStar g a dst → ReachN g' n a b := by
  intro n
  induction n with
  | zero => intro a b h _; exact h
  | succ n ih =>
    rintro a b ⟨c, hc, hr⟩ hnd
    have hcne : c ≠ dst := by
      rintro rfl
      exact hnd (reachStar_iff_eq_or_plus.mpr (Or.inr (reachPlus_of_step hc)))
    have hc' : c ∈ outList g' a := by
      rw [hout a]
      split_ifs with ha
      · exact (mem_delK dst c _).mpr ⟨hc, hcne⟩
      · exact hc
    refine ⟨c, hc', ih c b hr ?_⟩
    intro hstar
    exact hnd (reachStar_trans (reachStar_iff_eq_or_plus.mpr
      (Or.inr (reachPlus_of_step hc))) hstar)

/-- Version for targets that `src` cannot reach. -/
theorem reachN_deleteEdge_not_star_src {g g' : GenericDAG K V} {src dst : K}
    (hout : ∀ a, outList g' a = if src = a then delK dst (outList g a) else outList g a) :
    ∀ n a b, ReachN g n a b → ¬ ReachStar g src b → ReachN g' n a b := by
  intro n
  induction n with
  | zero => intro a b h _; exact h
  | succ n ih =>
    rintro a b ⟨c, hc, hr⟩ hns
    by_cases hedge : src = a ∧ c = dst
    · exfalso
      obtain ⟨rfl, rfl⟩ := hedge
      exact hns (reachStar_iff_eq_or_plus.mpr (Or.inr ⟨n, ⟨c, hc, hr⟩⟩))
    · have hc' : c ∈ outList g' a := by
        rw [hout a]
        split_ifs with ha
        · exact (mem_delK dst c _).mpr ⟨hc, fun hcd => hedge ⟨ha, hcd⟩⟩
        · exact hc
      exact ⟨c, hc', ih c b hr hns⟩

/-- A path that never touches the deleted vertex survives
`DeleteVertex`: version for sources that cannot reach `vH`. -/
theorem reachN_deleteVertex_not_star_to {g g' : GenericDAG K V} {vH : K}
    (hout : ∀ a, outList g' a = if vH = a then [] else
      if a ∈ inList g vH then delK vH (outList g a) else outList g a) :
    ∀ n a b, ReachN g n a b → ¬ ReachStar g a vH → ReachN g' n a b := by
  intro n
  induction n with
  | zero => intro a b h _; exact h
  | succ n ih =>
    rintro a b ⟨c, hc, hr⟩ hna
    have hane : vH ≠ a := by
      rintro rfl
      exact hna (reachStar_refl g _)
    have hcne : c ≠ vH := by
      rintro rfl
      exact hna (reachStar_iff_eq_or_plus.mpr (Or.inr (reachPlus_of_step hc)))
    have hc' : c ∈ outList g' a := by
      rw [hout a, if_neg hane]
      split_ifs with hp
      · exact (mem_delK vH c _).mpr ⟨hc, hcne⟩
      · exact hc
    refine ⟨c, hc', ih c b hr ?_⟩
    intro hstar
    exact hna (reachStar_trans (reachStar_iff_eq_or_plus.mpr
      (Or.inr (reachPlus_of_step hc))) hstar)

/-- Version for targets that `vH` cannot reach. -/
theorem reachN_deleteVertex_not_star_from {g g' : GenericDAG K V} {vH : K}
    (hout : ∀ a, outList g' a = if vH = a then [] else
      if a ∈ inList g vH then delK vH (outList g a) else outList g a) :
    ∀ n a b, ReachN g n a b → ¬ ReachStar g vH b → ReachN g' n a b := by
  intro n
  induction n with
  | zero => intro a b h _; exact h
  | succ n ih =>
    rintro a b ⟨c, hc, hr⟩ hnv
    have hane : vH ≠ a := by
      rintro rfl
      exact hnv (reachStar_iff_eq_or_plus.mpr (Or.inr ⟨n, ⟨c, hc, hr⟩⟩))
    have hcne : c ≠ vH := by
      intro hceq
      subst hceq
      exact hnv ⟨n, hr⟩
    have hc' : c ∈ outList g' a := by
      rw [hout a, if_neg hane]
      split_ifs with hp
      · exact (mem_delK vH c _).mpr ⟨hc, hcne⟩
      · exact hc
    exact ⟨c, hc', ih c b hr hnv⟩

/-! ## The global invariant of reachable states -/

/-- The invariant every library state built by public operations
satisfies: adjacency symmetry, acyclicity, edge liveness, uniqueness of
adjacency rows, consistency of the two vertex indices, and correctness
of both reachability caches. -/
def INV (hash : V → K) (g : GenericDAG K V) : Prop :=
  Symm g ∧ Acyclic g ∧ EdgesLive g ∧ OutKeysNodup g ∧ HashIndex hash g ∧
  DescCacheOK g ∧ AncCacheOK g

theorem reachN_of_outEq {g g' : GenericDAG K V} (h : ∀ a, outList g' a = outList g a) :
    ∀ n a b, ReachN g' n a b ↔ ReachN g n a b := by
  intro n
  induction n with
  | zero => intro a b; exact Iff.rfl
  | succ n ih =>
    intro a b
    constructor
    · rintro ⟨c, hc, hr⟩; exact ⟨c, h a ▸ hc, (ih c b).mp hr⟩
    · rintro ⟨c, hc, hr⟩; exact ⟨c, (h a).symm ▸ hc, (ih c b).mpr hr⟩

theorem reachPlus_of_outEq {g g' : GenericDAG K V}
    (h : ∀ a, outList g' a = outList g a) (a b : K) :
    ReachPlus g' a b ↔ ReachPlus g a b := by
  unfold ReachPlus
  constructor
  · rintro ⟨n, hn⟩; exact ⟨n, (reachN_of_outEq h _ a b).mp hn⟩
  · rintro ⟨n, hn⟩; exact ⟨n, (reachN_of_outEq h _ a b).mpr hn⟩

theorem reachStar_of_outEq {g g' : GenericDAG K V}
    (h : ∀ a, outList g' a = outList g a) (a b : K) :
    ReachStar g' a b ↔ ReachStar g a b := by
  unfold ReachStar
  constructor
  · rintro ⟨n, hn⟩; exact ⟨n, (reachN_of_outEq h _ a b).mp hn⟩
  · rintro ⟨n, hn⟩; exact ⟨n, (reachN_of_outEq h _ a b).mpr hn⟩

theorem mem_insertA {K β : Type} [DecidableEq K] {m : List (K × β)} {key : K}
    {val : β} {q : K × β} (h : q ∈ insertA key val m) : q = (key, val) ∨ q ∈ m := by
  induction m with
  | nil => simpa [insertA] using h
  | cons p rest ih =>
    obtain ⟨pk, pv⟩ := p
    unfold insertA at h
    by_cases hk : pk = key
    · rw [if_pos hk] at h
      rcases List.mem_cons.mp h with h' | h'
      · exact Or.inl h'
      · exact Or.inr (List.mem_cons_of_mem _ h')
    · rw [if_neg hk] at h
      rcases List.mem_cons.mp h with h' | h'
      · exact Or.inr (h' ▸ List.mem_cons_self _ _)
      · rcases ih h' with h'' | h''
        · exact Or.inl h''
        · exact Or.inr (List.mem_cons_of_mem _ h'')

theorem insertA_keys_nodup {K β : Type} [DecidableEq K] (key : K) (val : β) :
    ∀ (m : List (K × β)), (m.map Prod.fst).Nodup →
      ((insertA key val m).map Prod.fst).Nodup := by
  intro m
  induction m with
  | nil => intro _; simp [insertA]
  | cons p rest ih =>
    obtain ⟨pk, pv⟩ := p
    intro hnd
    rw [List.map_cons, List.nodup_cons] at hnd
    unfold insertA
    by_cases hk : pk = key
    · rw [if_pos hk, List.map_cons, List.nodup_cons]
      exact ⟨hk ▸ hnd.1, hnd.2⟩
    · rw [if_neg hk, List.map_cons, List.nodup_cons]
      refine ⟨?_, ih hnd.2⟩
      intro hmem
      obtain ⟨q, hq, hqk⟩ := List.mem_map.mp hmem
      rcases mem_insertA hq with rfl | hq'
      · exact hk hqk.symm
      · exact hnd.1 (List.mem_map.mpr ⟨q, hq', hqk⟩)

theorem eraseA_keys_nodup {K β : Type} [DecidableEq K] (key : K) (m : List (K × β))
    (hnd : (m.map Prod.fst).Nodup) : ((eraseA key m).map Prod.fst).Nodup := by
  unfold eraseA
  exact (List.Sublist.map Prod.fst (List.filter_sublist m)).nodup hnd

theorem updateIfPresent_keys_nodup {K : Type} [DecidableEq K] (k : K)
    (f : List K → List K) (m : List (K × List K))
    (hnd : (m.map Prod.fst).Nodup) :
    ((updateIfPresent k f m).map Prod.fst).Nodup := by
  unfold updateIfPresent
  cases lookupA m k with
  | none => exact hnd
  | some s => exact insertA_keys_nodup k (f s) m hnd

/-- With unique rows, every member of `adjTargets` sits in the
`outList` of some key. -/
theorem adjTargets_live {g : GenericDAG K V} (hnd : OutKeysNodup g)
    (hlive : EdgesLive g) {x : K} (hx : x ∈ adjTargets g) :
    (lookupA g.vertices x).isSome := by
  unfold adjTargets at hx
  obtain ⟨s, hs, hxs⟩ := List.mem_join.mp hx
  obtain ⟨⟨k, s'⟩, hks, rfl⟩ := List.mem_map.mp hs
  have hl : lookupA g.outboundEdge k = some s' := lookupA_of_nodup_mem hnd hks
  have : x ∈ outList g k := by
    unfold outList
    rw [hl]
    exact hxs
  exact (hlive k x this).2

theorem card_adjTargets_le {g : GenericDAG K V} (hnd : OutKeysNodup g)
    (hlive : EdgesLive g) :
    (adjTargets g).toFinset.card ≤ g.vertices.length := by
  have hsub : (adjTargets g).toFinset ⊆ (g.vertices.map Prod.fst).toFinset := by
    intro x hx
    rw [List.mem_toFinset] at hx
    rw [List.mem_toFinset, ← lookupA_isSome_iff]
    exact adjTargets_live hnd hlive hx
  have h1 := Finset.card_le_card hsub
  have h2 := List.toFinset_card_le (g.vertices.map Prod.fst)
  rw [List.length_map] at h2
  omega

theorem isSome_insertA {K β : Type} [DecidableEq K] (k : K) (v : β)
    (m : List (K × β)) (a : K) (h : (lookupA m a).isSome) :
    (lookupA (insertA k v m) a).isSome := by
  rw [lookupA_insertA]
  split_ifs with hk
  · rfl
  · exact h

theorem descCacheOK_transport {g g' : GenericDAG K V}
    (hout : ∀ a, outList g' a = outList g a)
    (hcache : g'.descendantsCache = g.descendantsCache)
    (hok : DescCacheOK g) : DescCacheOK g' := by
  intro k s hl x
  rw [hcache] at hl
  rw [hok k s hl x]
  exact (reachPlus_of_outEq hout k x).symm

theorem ancCacheOK_transport {g g' : GenericDAG K V}
    (hout : ∀ a, outList g' a = outList g a)
    (hcache : g'.ancestorsCache = g.ancestorsCache)
    (hok : AncCacheOK g) : AncCacheOK g' := by
  intro k s hl x
  rw [hcache] at hl
  rw [hok k s hl x]
  exact (reachPlus_of_outEq hout x k).symm

theorem inv_addVertexByID (hash : V → K) (g : GenericDAG K V) (i : String) (v : V)
    (hinv : INV hash g) : INV hash (addVertexByID hash g i v).1 := by
  obtain ⟨hsymm, hacy, hlive, hnd, hidx, hdok, haok⟩ := hinv
  unfold addVertexByID
  by_cases h1 : (lookupA g.vertices (hash v)).isSome
  · simpa [h1] using ⟨hsymm, hacy, hlive, hnd, hidx, hdok, haok⟩
  · by_cases h2 : (lookupA g.vertexValues i).isSome
    · simpa [h1, h2] using ⟨hsymm, hacy, hlive, hnd, hidx, hdok, haok⟩
    · simp only [h1, h2, Bool.false_eq_true, if_false]
      set g' : GenericDAG K V :=
        { g with vertices := insertA (hash v) i g.vertices,
                 vertexValues := insertA i v g.vertexValues } with hg'
      have houtEq : ∀ a, outList g' a = outList g a := fun a => rfl
      refine ⟨fun a b => hsymm a b, ?_, ?_, hnd, ?_, ?_, ?_⟩
      · intro k hk
        exact hacy k ((reachPlus_of_outEq houtEq k k).mp hk)
      · intro a b hb
        have := hlive a b hb
        exact ⟨isSome_insertA _ _ _ _ this.1, isSome_insertA _ _ _ _ this.2⟩
      · intro i' v' hl
        show lookupA (insertA (hash v) i g.vertices) (hash v') = some i'
        have hl' : lookupA (insertA i v g.vertexValues) i' = some v' := hl
        rw [lookupA_insertA] at hl'
        by_cases hi : i = i'
        · rw [if_pos hi] at hl'
          obtain rfl : v = v' := by injection hl'
          rw [lookupA_insertA, if_pos rfl]
          exact congrArg some hi
        · rw [if_neg hi] at hl'
          have hold := hidx i' v' hl'
          rw [lookupA_insertA]
          by_cases hh : hash v = hash v'
          · exfalso
            rw [hh] at h1
            exact h1 (hold ▸ rfl)
          · rw [if_neg hh]
            exact hold
      · exact descCacheOK_transport houtEq rfl hdok
      · exact ancCacheOK_transport houtEq rfl haok

theorem inv_getDescendants_state (hash : V → K) (g : GenericDAG K V) (k : K)
    (hinv : INV hash g) : INV hash (getDescendants (opFuel g) g k).2 := by
  obtain ⟨hsymm, hacy, hlive, hnd, hidx, hdok, haok⟩ := hinv
  have hh : ∀ m b, ReachN g m k b → m < opFuel g := by
    intro m b hr
    exact heightLt_of_acyclic hacy hlive k m b hr
  obtain ⟨_, hdok'⟩ := getDescendants_spec (opFuel g) g k hacy hdok hh
  have hcore := getDescendants_core (opFuel g) g k
  have houtEq : ∀ a, outList (getDescendants (opFuel g) g k).2 a = outList g a :=
    outList_of_core hcore
  refine ⟨symm_of_core hcore hsymm, acyclic_of_core hcore hacy, ?_, ?_, ?_, hdok', ?_⟩
  · intro a b hb
    rw [houtEq a] at hb
    have := hlive a b hb
    rw [hcore.1]
    exact this
  · show ((getDescendants (opFuel g) g k).2.outboundEdge.map Prod.fst).Nodup
    rw [hcore.2.2.2]
    exact hnd
  · intro i' v' hl
    rw [hcore.2.1] at hl
    rw [hcore.1]
    exact hidx i' v' hl
  · exact ancCacheOK_transport houtEq (getDescendants_ancCache (opFuel g) g k) haok

theorem inv_getAncestors_state (hash : V → K) (g : GenericDAG K V) (k : K)
    (hinv : INV hash g) : INV hash (getAncestors (opFuel g) g k).2 := by
  obtain ⟨hsymm, hacy, hlive, hnd, hidx, hdok, haok⟩ := hinv
  have hh : ∀ m b, ReachN g m b k → m < opFuel g := by
    intro m b hr
    exact heightLt_of_acyclic hacy hlive b m k hr
  obtain ⟨_, haok'⟩ := getAncestors_spec (opFuel g) g k hsymm hacy haok hh
  have hcore := getAncestors_core (opFuel g) g k
  have houtEq : ∀ a, outList (getAncestors (opFuel g) g k).2 a = outList g a :=
    outList_of_core hcore
  refine ⟨symm_of_core hcore hsymm, acyclic_of_core hcore hacy, ?_, ?_, ?_, ?_, haok'⟩
  · intro a b hb
    rw [houtEq a] at hb
    have := hlive a b hb
    rw [hcore.1]
    exact this
  · show ((getAncestors (opFuel g) g k).2.outboundEdge.map Prod.fst).Nodup
    rw [hcore.2.2.2]
    exact hnd
  · intro i' v' hl
    rw [hcore.2.1] at hl
    rw [hcore.1]
    exact hidx i' v' hl
  · exact descCacheOK_transport houtEq (getAncestors_descCache (opFuel g) g k) hdok

theorem inv_flushCaches (hash : V → K) (g : GenericDAG K V) (hinv : INV hash g) :
    INV hash (flushCaches g) := by
  obtain ⟨hsymm, hacy, hlive, hnd, hidx, _, _⟩ := hinv
  refine ⟨fun a b => hsymm a b, ?_, hlive, hnd, hidx, ?_, ?_⟩
  · intro k hk
    have he : ∀ x, outList (flushCaches g) x = outList g x := fun x => rfl
    exact hacy k ((reachPlus_of_outEq he k k).mp hk)
  · intro k s hl
    simp [flushCaches] at hl
  · intro k s hl
    simp [flushCaches] at hl

theorem saneID_none_lookup {g : GenericDAG K V} {i : String}
    (h : saneID g i = none) :
    lookupA g.vertexValues i = some ((lookupA g.vertexValues i).getD default) := by
  unfold saneID at h
  split_ifs at h
  cases hl : lookupA g.vertexValues i with
  | none => rw [hl] at h; exact absurd h (by simp)
  | some v => rfl

theorem inv_addEdge (hash : V → K) (g : GenericDAG K V) (s d : String)
    (hinv : INV hash g) : INV hash (AddEdge hash (opFuel g) g s d).1 := by
  obtain ⟨hsymm, hacy, hlive, hnd, hidx, hdok, haok⟩ := hinv
  unfold AddEdge
  cases h1 : saneID g s with
  | some e => exact ⟨hsymm, hacy, hlive, hnd, hidx, hdok, haok⟩
  | none =>
  cases h2 : saneID g d with
  | some e => exact ⟨hsymm, hacy, hlive, hnd, hidx, hdok, haok⟩
  | none =>
  by_cases h3 : s = d
  · rw [if_pos h3]
    exact ⟨hsymm, hacy, hlive, hnd, hidx, hdok, haok⟩
  · rw [if_neg h3]
    dsimp only
    split_ifs with h4 h5
    · exact ⟨hsymm, hacy, hlive, hnd, hidx, hdok, haok⟩
    · exact ⟨hsymm, hacy, hlive, hnd, hidx, hdok, haok⟩
    · -- success branch
      set vs := (lookupA g.vertexValues s).getD default with hvs
      set vd := (lookupA g.vertexValues d).getD default with hvd
      set sH := hash vs with hsH
      set dH := hash vd with hdH
      have hls : lookupA g.vertexValues s = some vs := saneID_none_lookup h1
      have hld : lookupA g.vertexValues d = some vd := saneID_none_lookup h2
      have hvsi : lookupA g.vertices sH = some s := hidx s vs hls
      have hvdi : lookupA g.vertices dH = some d := hidx d vd hld
      have hSDne : sH ≠ dH := by
        intro he
        rw [he, hvdi] at hvsi
        exact h3 (by injection hvsi with h; exact h.symm)
      have hfuelw : (adjTargets g).toFinset.card ≤ opFuel g := by
        have := card_adjTargets_le hnd hlive
        unfold opFuel
        omega
      have hnoloop : ¬ ReachPlus g dH sH := by
        intro hplus
        exact h5 ((wouldCreateLoop_iff_reachPlus g sH dH (opFuel g) hfuelw).mpr hplus)
      have hnostar : ¬ ReachStar g dH sH := by
        rw [reachStar_iff_eq_or_plus]
        rintro (heq | hplus)
        · exact hSDne heq.symm
        · exact hnoloop hplus
      -- the two pre-mutation captures
      have hhd : ∀ m b, ReachN g m dH b → m < opFuel g :=
        fun m b hr => heightLt_of_acyclic hacy hlive dH m b hr
      obtain ⟨hdp1, _⟩ := getDescendants_spec (opFuel g) g dH hacy hdok hhd
      have hinv2 : INV hash (getDescendants (opFuel g) g dH).2 :=
        inv_getDescendants_state hash g dH ⟨hsymm, hacy, hlive, hnd, hidx, hdok, haok⟩
      have hcore1 : SameGraphCore g (getDescendants (opFuel g) g dH).2 :=
        getDescendants_core (opFuel g) g dH
      have hfuel_eq : opFuel (getDescendants (opFuel g) g dH).2 = opFuel g := by
        show (getDescendants (opFuel g) g dH).2.vertices.length + 1 = g.vertices.length + 1
        rw [hcore1.1]
      obtain ⟨hsymm2, hacy2, hlive2, hnd2, hidx2, hdok2, haok2⟩ := hinv2
      have hha : ∀ m b, ReachN (getDescendants (opFuel g) g dH).2 m b sH → m < opFuel g := by
        intro m b hr
        have := heightLt_of_acyclic hacy2 hlive2 b m sH hr
        rw [hcore1.1] at this
        exact this
      obtain ⟨hap1, _⟩ := getAncestors_spec (opFuel g)
        (getDescendants (opFuel g) g dH).2 sH hsymm2 hacy2 haok2 hha
      have hinv3 : INV hash (getAncestors (opFuel g) (getDescendants (opFuel g) g dH).2 sH).2 := by
        have := inv_getAncestors_state hash (getDescendants (opFuel g) g dH).2 sH
          ⟨hsymm2, hacy2, hlive2, hnd2, hidx2, hdok2, haok2⟩
        rw [hfuel_eq] at this
        exact this
      set g2 := (getAncestors (opFuel g) (getDescendants (opFuel g) g dH).2 sH).2 with hg2
      have hcore2 : SameGraphCore g g2 :=
        sameGraphCore_trans hcore1 (getAncestors_core (opFuel g) _ sH)
      obtain ⟨hsymm3, hacy3, hlive3, hnd3, hidx3, hdok3, haok3⟩ := hinv3
      have hdp1' : ∀ x, x ∈ (getDescendants (opFuel g) g dH).1 ↔ ReachPlus g dH x := hdp1
      have hap1' : ∀ x,
          x ∈ (getAncestors (opFuel g) (getDescendants (opFuel g) g dH).2 sH).1 ↔
            ReachPlus g x sH := by
        intro x
        rw [hap1 x]
        exact reachPlus_of_core hcore1 x sH
      -- the final state and its adjacency formulas
      set F : GenericDAG K V :=
        { g2 with
          outboundEdge := insertA sH (addK dH (outList g2 sH)) g2.outboundEdge,
          inboundEdge := insertA dH (addK sH (inList g2 dH)) g2.inboundEdge,
          ancestorsCache := eraseA dH
            ((getDescendants (opFuel g) g dH).1.foldl (fun m x => eraseA x m)
              g2.ancestorsCache),
          descendantsCache := eraseA sH
            ((getAncestors (opFuel g) (getDescendants (opFuel g) g dH).2 sH).1.foldl
              (fun m x => eraseA x m) g2.descendantsCache) } with hF
      have hout4 : ∀ a, outList F a =
          if sH = a then addK dH (outList g a) else outList g a := by
        intro a
        show (lookupA (insertA sH (addK dH (outList g2 sH)) g2.outboundEdge) a).getD [] = _
        rw [lookupA_insertA]
        split_ifs with ha
        · rw [Option.getD_some, outList_of_core hcore2]
          subst ha
          rfl
        · exact outList_of_core hcore2 a
      have hin4 : ∀ b, inList F b =
          if dH = b then addK sH (inList g b) else inList g b := by
        intro b
        show (lookupA (insertA dH (addK sH (inList g2 dH)) g2.inboundEdge) b).getD [] = _
        rw [lookupA_insertA]
        split_ifs with hb
        · rw [Option.getD_some, inList_of_core hcore2]
          subst hb
          rfl
        · exact inList_of_core hcore2 b
      show INV hash F
      refine ⟨?_, ?_, ?_, ?_, ?_, ?_, ?_⟩
      · -- Symm
        intro a b
        have := symm_insert_edge_pair g2 sH dH hsymm3 a b
        rw [hout4 a, hin4 b]
        have hout' : outList { g2 with
            outboundEdge := insertA sH (addK dH (outList g2 sH)) g2.outboundEdge,
            inboundEdge := insertA dH (addK sH (inList g2 dH)) g2.inboundEdge } a =
            if sH = a then addK dH (outList g2 a) else outList g2 a := by
          show (lookupA (insertA sH (addK dH (outList g2 sH)) g2.outboundEdge) a).getD [] = _
          rw [lookupA_insertA]
          split_ifs with ha
          · subst ha; rfl
          · rfl
        have hin' : inList { g2 with
            outboundEdge := insertA sH (addK dH (outList g2 sH)) g2.outboundEdge,
            inboundEdge := insertA dH (addK sH (inList g2 dH)) g2.inboundEdge } b =
            if dH = b then addK sH (inList g2 b) else inList g2 b := by
          show (lookupA (insertA dH (addK sH (inList g2 dH)) g2.inboundEdge) b).getD [] = _
          rw [lookupA_insertA]
          split_ifs with hb
          · subst hb; rfl
          · rfl
        rw [hout', hin', outList_of_core hcore2, inList_of_core hcore2] at this
        exact this
      · -- Acyclic
        intro k hk
        rcases (reachPlus_addEdge hout4 k k).mp hk with h | ⟨hks, hdk⟩
        · exact hacy k h
        · exact hnostar (reachStar_trans hdk hks)
      · -- EdgesLive
        intro a b hb
        rw [hout4 a] at hb
        have hvF : F.vertices = g.vertices := hcore2.1
        rw [hvF]
        split_ifs at hb with ha
        · rcases (mem_addK dH b _).mp hb with hold | rfl
          · exact hlive a b hold
          · subst ha
            exact ⟨hvsi ▸ rfl, hvdi ▸ rfl⟩
        · exact hlive a b hb
      · -- OutKeysNodup
        show ((insertA sH (addK dH (outList g2 sH)) g2.outboundEdge).map Prod.fst).Nodup
        exact insertA_keys_nodup _ _ _ hnd3
      · -- HashIndex
        intro i' v' hl
        have h1' : lookupA g.vertexValues i' = some v' := by
          rw [← hcore2.2.1]; exact hl
        have := hidx i' v' h1'
        show lookupA F.vertices (hash v') = some i'
        rw [hcore2.1]
        exact this
      · -- DescCacheOK
        intro k s' hl x
        have hl' : lookupA F.descendantsCache k = some s' := hl
        rw [show F.descendantsCache = eraseA sH
            ((getAncestors (opFuel g) (getDescendants (opFuel g) g dH).2 sH).1.foldl
              (fun m x => eraseA x m) g2.descendantsCache) from rfl] at hl'
        rw [lookupA_eraseA] at hl'
        split_ifs at hl' with hks
        have hl'' := hl'
        rw [lookupA_fold_eraseA] at hl''
        split_ifs at hl'' with hkap
        have hold := hdok3 k s' hl'' x
        have hnks : ¬ ReachStar g k sH := by
          rw [reachStar_iff_eq_or_plus]
          rintro (heq | hplus)
          · exact hks heq.symm
          · exact hkap ((hap1' k).mpr hplus)
        rw [hold]
        rw [reachPlus_of_core hcore2 k x]
        constructor
        · intro h
          exact (reachPlus_addEdge hout4 k x).mpr (Or.inl h)
        · intro h
          rcases (reachPlus_addEdge hout4 k x).mp h with h' | ⟨hk', _⟩
          · exact h'
          · exact absurd hk' hnks
      · -- AncCacheOK
        intro k s' hl x
        have hl' : lookupA F.ancestorsCache k = some s' := hl
        rw [show F.ancestorsCache = eraseA dH
            ((getDescendants (opFuel g) g dH).1.foldl (fun m x => eraseA x m)
              g2.ancestorsCache) from rfl] at hl'
        rw [lookupA_eraseA] at hl'
        split_ifs at hl' with hkd
        have hl'' := hl'
        rw [lookupA_fold_eraseA] at hl''
        split_ifs at hl'' with hkdp
        have hold := haok3 k s' hl'' x
        have hndk : ¬ ReachStar g dH k := by
          rw [reachStar_iff_eq_or_plus]
          rintro (heq | hplus)
          · exact hkd heq
          · exact hkdp ((hdp1' k).mpr hplus)
        rw [hold]
        rw [reachPlus_of_core hcore2 x k]
        constructor
        · intro h
          exact (reachPlus_addEdge hout4 x k).mpr (Or.inl h)
        · intro h
          rcases (reachPlus_addEdge hout4 x k).mp h with h' | ⟨_, hk'⟩
          · exact h'
          · exact absurd hk' hndk

theorem inv_deleteEdge (hash : V → K) (g : GenericDAG K V) (s d : String)
    (hinv : INV hash g) : INV hash (DeleteEdge hash (opFuel g) g s d).1 := by
  obtain ⟨hsymm, hacy, hlive, hnd, hidx, hdok, haok⟩ := hinv
  unfold DeleteEdge
  cases h1 : saneID g s with
  | some e => exact ⟨hsymm, hacy, hlive, hnd, hidx, hdok, haok⟩
  | none =>
  cases h2 : saneID g d with
  | some e => exact ⟨hsymm, hacy, hlive, hnd, hidx, hdok, haok⟩
  | none =>
  by_cases h3 : s = d
  · rw [if_pos h3]
    exact ⟨hsymm, hacy, hlive, hnd, hidx, hdok, haok⟩
  · rw [if_neg h3]
    dsimp only
    split_ifs with h4
    · -- success branch
      set vs := (lookupA g.vertexValues s).getD default with hvs
      set vd := (lookupA g.vertexValues d).getD default with hvd
      set sH := hash vs with hsH
      set dH := hash vd with hdH
      -- the two pre-mutation captures
      have hhd : ∀ m b, ReachN g m sH b → m < opFuel g :=
        fun m b hr => heightLt_of_acyclic hacy hlive sH m b hr
      obtain ⟨hdp1, _⟩ := getDescendants_spec (opFuel g) g sH hacy hdok hhd
      have hinv2 : INV hash (getDescendants (opFuel g) g sH).2 :=
        inv_getDescendants_state hash g sH ⟨hsymm, hacy, hlive, hnd, hidx, hdok, haok⟩
      have hcore1 : SameGraphCore g (getDescendants (opFuel g) g sH).2 :=
        getDescendants_core (opFuel g) g sH
      obtain ⟨hsymm2, hacy2, hlive2, hnd2, hidx2, hdok2, haok2⟩ := hinv2
      have hha : ∀ m b, ReachN (getDescendants (opFuel g) g sH).2 m b dH → m < opFuel g := by
        intro m b hr
        have := heightLt_of_acyclic hacy2 hlive2 b m dH hr
        rw [hcore1.1] at this
        exact this
      obtain ⟨hap1, _⟩ := getAncestors_spec (opFuel g)
        (getDescendants (opFuel g) g sH).2 dH hsymm2 hacy2 haok2 hha
      have hinv3 : INV hash (getAncestors (opFuel g) (getDescendants (opFuel g) g sH).2 dH).2 := by
        have := inv_getAncestors_state hash (getDescendants (opFuel g) g sH).2 dH
          ⟨hsymm2, hacy2, hlive2, hnd2, hidx2, hdok2, haok2⟩
        have hfe : opFuel (getDescendants (opFuel g) g sH).2 = opFuel g := by
          show (getDescendants (opFuel g) g sH).2.vertices.length + 1 = g.vertices.length + 1
          rw [hcore1.1]
        rw [hfe] at this
        exact this
      set g2 := (getAncestors (opFuel g) (getDescendants (opFuel g) g sH).2 dH).2 with hg2
      have hcore2 : SameGraphCore g g2 :=
        sameGraphCore_trans hcore1 (getAncestors_core (opFuel g) _ dH)
      obtain ⟨hsymm3, hacy3, hlive3, hnd3, hidx3, hdok3, haok3⟩ := hinv3
      have hdp1' : ∀ x, x ∈ (getDescendants (opFuel g) g sH).1 ↔ ReachPlus g sH x := hdp1
      have hap1' : ∀ x,
          x ∈ (getAncestors (opFuel g) (getDescendants (opFuel g) g sH).2 dH).1 ↔
            ReachPlus g x dH := by
        intro x
        rw [hap1 x]
        exact reachPlus_of_core hcore1 x dH
      set F : GenericDAG K V :=
        { g2 with
          outboundEdge := updateIfPresent sH (delK dH) g2.outboundEdge,
          inboundEdge := updateIfPresent dH (delK sH) g2.inboundEdge,
          ancestorsCache := eraseA sH
            ((getDescendants (opFuel g) g sH).1.foldl (fun m x => eraseA x m)
              g2.ancestorsCache),
          descendantsCache := eraseA dH
            ((getAncestors (opFuel g) (getDescendants (opFuel g) g sH).2 dH).1.foldl
              (fun m x => eraseA x m) g2.descendantsCache) } with hF
      have hout4 : ∀ a, outList F a =
          if sH = a then delK dH (outList g a) else outList g a := by
        intro a
        show (lookupA (updateIfPresent sH (delK dH) g2.outboundEdge) a).getD [] = _
        rw [lookupA_updateIfPresent]
        split_ifs with ha
        · subst ha
          rw [getD_map_delK]
          exact congrArg (delK dH) (outList_of_core hcore2 sH)
        · exact outList_of_core hcore2 a
      have hsub : ∀ a c, c ∈ outList F a → c ∈ outList g a := by
        intro a c hc
        rw [hout4 a] at hc
        split_ifs at hc with ha
        · exact ((mem_delK dH c _).mp hc).1
        · exact hc
      show INV hash F
      refine ⟨?_, ?_, ?_, ?_, ?_, ?_, ?_⟩
      · -- Symm
        intro a b
        exact symm_delete_edge_pair g2 sH dH hsymm3 a b
      · -- Acyclic
        intro k hk
        obtain ⟨n, hn⟩ := hk
        exact hacy k ⟨n, reachN_mono hsub (n + 1) k k hn⟩
      · -- EdgesLive
        intro a b hb
        have hvF : F.vertices = g.vertices := hcore2.1
        rw [hvF]
        exact hlive a b (hsub a b hb)
      · -- OutKeysNodup
        show ((updateIfPresent sH (delK dH) g2.outboundEdge).map Prod.fst).Nodup
        exact updateIfPresent_keys_nodup _ _ _ hnd3
      · -- HashIndex
        intro i' v' hl
        have h1' : lookupA g.vertexValues i' = some v' := by
          rw [← hcore2.2.1]; exact hl
        have := hidx i' v' h1'
        show lookupA F.vertices (hash v') = some i'
        rw [hcore2.1]
        exact this
      · -- DescCacheOK
        intro k s' hl x
        have hl' : lookupA F.descendantsCache k = some s' := hl
        rw [show F.descendantsCache = eraseA dH
            ((getAncestors (opFuel g) (getDescendants (opFuel g) g sH).2 dH).1.foldl
              (fun m x => eraseA x m) g2.descendantsCache) from rfl] at hl'
        rw [lookupA_eraseA] at hl'
        split_ifs at hl' with hkd
        have hl'' := hl'
        rw [lookupA_fold_eraseA] at hl''
        split_ifs at hl'' with hkap
        have hold := hdok3 k s' hl'' x
        have hnkd : ¬ ReachStar g k dH := by
          rw [reachStar_iff_eq_or_plus]
          rintro (heq | hplus)
          · exact hkd heq.symm
          · exact hkap ((hap1' k).mpr hplus)
        rw [hold, reachPlus_of_core hcore2 k x]
        constructor
        · rintro ⟨n, hn⟩
          exact ⟨n, reachN_deleteEdge_not_star_dst hout4 (n + 1) k x hn hnkd⟩
        · rintro ⟨n, hn⟩
          exact ⟨n, reachN_mono hsub (n + 1) k x hn⟩
      · -- AncCacheOK
        intro k s' hl x
        have hl' : lookupA F.ancestorsCache k = some s' := hl
        rw [show F.ancestorsCache = eraseA sH
            ((getDescendants (opFuel g) g sH).1.foldl (fun m x => eraseA x m)
              g2.ancestorsCache) from rfl] at hl'
        rw [lookupA_eraseA] at hl'
        split_ifs at hl' with hks
        have hl'' := hl'
        rw [lookupA_fold_eraseA] at hl''
        split_ifs at hl'' with hkdp
        have hold := haok3 k s' hl'' x
        have hnsk : ¬ ReachStar g sH k := by
          rw [reachStar_iff_eq_or_plus]
          rintro (heq | hplus)
          · exact hks heq
          · exact hkdp ((hdp1' k).mpr hplus)
        rw [hold, reachPlus_of_core hcore2 x k]
        constructor
        · rintro ⟨n, hn⟩
          exact ⟨n, reachN_deleteEdge_not_star_src hout4 (n + 1) x k hn hnsk⟩
        · rintro ⟨n, hn⟩
          exact ⟨n, reachN_mono hsub (n + 1) x k hn⟩
    · exact ⟨hsymm, hacy, hlive, hnd, hidx, hdok, haok⟩

theorem fold_updateIfPresent_keys_nodup {K : Type} [DecidableEq K] (x : K) (P : List K) :
    ∀ (m : List (K × List K)), (m.map Prod.fst).Nodup →
      ((P.foldl (fun m' p => updateIfPresent p (delK x) m') m).map Prod.fst).Nodup := by
  induction P with
  | nil => intro m h; exact h
  | cons p rest ih => intro m h; exact ih _ (updateIfPresent_keys_nodup p _ m h)

theorem inv_deleteVertex (hash : V → K) (g : GenericDAG K V) (i : String)
    (hinv : INV hash g) : INV hash (DeleteVertex hash (opFuel g) g i).1 := by
  obtain ⟨hsymm, hacy, hlive, hnd, hidx, hdok, haok⟩ := hinv
  unfold DeleteVertex
  cases h1 : saneID g i with
  | some e => exact ⟨hsymm, hacy, hlive, hnd, hidx, hdok, haok⟩
  | none =>
    dsimp only
    set v := (lookupA g.vertexValues i).getD default with hv
    set vH := hash v with hvH
    have hlv : lookupA g.vertexValues i = some v := saneID_none_lookup h1
    have hvvi : lookupA g.vertices vH = some i := hidx i v hlv
    -- the two pre-mutation captures
    have hhd : ∀ m b, ReachN g m vH b → m < opFuel g :=
      fun m b hr => heightLt_of_acyclic hacy hlive vH m b hr
    obtain ⟨hdp1, _⟩ := getDescendants_spec (opFuel g) g vH hacy hdok hhd
    have hinv2 : INV hash (getDescendants (opFuel g) g vH).2 :=
      inv_getDescendants_state hash g vH ⟨hsymm, hacy, hlive, hnd, hidx, hdok, haok⟩
    have hcore1 : SameGraphCore g (getDescendants (opFuel g) g vH).2 :=
      getDescendants_core (opFuel g) g vH
    obtain ⟨hsymm2, hacy2, hlive2, hnd2, hidx2, hdok2, haok2⟩ := hinv2
    have hha : ∀ m b, ReachN (getDescendants (opFuel g) g vH).2 m b vH → m < opFuel g := by
      intro m b hr
      have := heightLt_of_acyclic hacy2 hlive2 b m vH hr
      rw [hcore1.1] at this
      exact this
    obtain ⟨hap1, _⟩ := getAncestors_spec (opFuel g)
      (getDescendants (opFuel g) g vH).2 vH hsymm2 hacy2 haok2 hha
    have hinv3 : INV hash (getAncestors (opFuel g) (getDescendants (opFuel g) g vH).2 vH).2 := by
      have := inv_getAncestors_state hash (getDescendants (opFuel g) g vH).2 vH
        ⟨hsymm2, hacy2, hlive2, hnd2, hidx2, hdok2, haok2⟩
      have hfe : opFuel (getDescendants (opFuel g) g vH).2 = opFuel g := by
        show (getDescendants (opFuel g) g vH).2.vertices.length + 1 = g.vertices.length + 1
        rw [hcore1.1]
      rw [hfe] at this
      exact this
    set g2 := (getAncestors (opFuel g) (getDescendants (opFuel g) g vH).2 vH).2 with hg2
    have hcore2 : SameGraphCore g g2 :=
      sameGraphCore_trans hcore1 (getAncestors_core (opFuel g) _ vH)
    obtain ⟨hsymm3, hacy3, hlive3, hnd3, hidx3, hdok3, haok3⟩ := hinv3
    have hdp1' : ∀ x, x ∈ (getDescendants (opFuel g) g vH).1 ↔ ReachPlus g vH x := hdp1
    have hap1' : ∀ x,
        x ∈ (getAncestors (opFuel g) (getDescendants (opFuel g) g vH).2 vH).1 ↔
          ReachPlus g x vH := by
      intro x
      rw [hap1 x]
      exact reachPlus_of_core hcore1 x vH
    -- no self-loop on a live vertex of an acyclic graph
    have hnself : vH ∉ inList g2 vH := by
      intro hmem
      have : vH ∈ outList g2 vH := (hsymm3 vH vH).mpr hmem
      exact hacy3 vH ⟨0, vH, this, rfl⟩
    -- the list of children used by the inbound sweep
    have hCformula : outList { g2 with
        outboundEdge := (inList g2 vH).foldl
          (fun m p => updateIfPresent p (delK vH) m) g2.outboundEdge } vH =
        outList g2 vH := by
      unfold outList
      dsimp only
      rw [lookupA_fold_updateIfPresent, if_neg hnself]
    set F : GenericDAG K V :=
      { g2 with
        outboundEdge := eraseA vH ((inList g2 vH).foldl
          (fun m p => updateIfPresent p (delK vH) m) g2.outboundEdge),
        inboundEdge := eraseA vH ((outList { g2 with
            outboundEdge := (inList g2 vH).foldl
              (fun m p => updateIfPresent p (delK vH) m) g2.outboundEdge } vH).foldl
          (fun m c => updateIfPresent c (delK vH) m) g2.inboundEdge),
        ancestorsCache := eraseA vH
          ((getDescendants (opFuel g) g vH).1.foldl (fun m x => eraseA x m)
            g2.ancestorsCache),
        descendantsCache := eraseA vH
          ((getAncestors (opFuel g) (getDescendants (opFuel g) g vH).2 vH).1.foldl
            (fun m x => eraseA x m) g2.descendantsCache),
        vertices := eraseA vH g2.vertices,
        vertexValues := eraseA i g2.vertexValues } with hF
    have hout4 : ∀ a, outList F a = if vH = a then [] else
        if a ∈ inList g vH then delK vH (outList g a) else outList g a := by
      intro a
      show (lookupA (eraseA vH ((inList g2 vH).foldl
        (fun m p => updateIfPresent p (delK vH) m) g2.outboundEdge)) a).getD [] = _
      rw [lookupA_eraseA]
      by_cases hva : vH = a
      · rw [if_pos hva, if_pos hva]; rfl
      · rw [if_neg hva, if_neg hva, lookupA_fold_updateIfPresent,
          inList_of_core hcore2 vH]
        split_ifs with hp
        · rw [getD_map_delK]
          exact congrArg (delK vH) (outList_of_core hcore2 a)
        · exact outList_of_core hcore2 a
    have hsub : ∀ a c, c ∈ outList F a → c ∈ outList g a := by
      intro a c hc
      rw [hout4 a] at hc
      split_ifs at hc with hva hp
      · exact absurd hc (List.not_mem_nil c)
      · exact ((mem_delK vH c _).mp hc).1
      · exact hc
    show INV hash F
    refine ⟨?_, ?_, ?_, ?_, ?_, ?_, ?_⟩
    · -- Symm
      intro a b
      refine symm_delete_vertex_general g2 vH
        (outList { g2 with
          outboundEdge := (inList g2 vH).foldl
            (fun m p => updateIfPresent p (delK vH) m) g2.outboundEdge } vH)
        ?_ ?_ hsymm3 a b
      · intro c hc
        rw [hCformula] at hc
        exact hc
      · intro c hc _
        rw [hCformula]
        exact hc
    · -- Acyclic
      intro k hk
      obtain ⟨n, hn⟩ := hk
      exact hacy k ⟨n, reachN_mono hsub (n + 1) k k hn⟩
    · -- EdgesLive
      intro a b hb
      have hb' := hb
      rw [hout4 a] at hb'
      have hvF : F.vertices = eraseA vH g2.vertices := rfl
      split_ifs at hb' with hva hp
      · exact absurd hb' (List.not_mem_nil b)
      · obtain ⟨hbo, hbne⟩ := (mem_delK vH b _).mp hb'
        obtain ⟨ha1, hb1⟩ := hlive a b hbo
        rw [hvF]
        constructor
        · rw [lookupA_eraseA, if_neg hva, hcore2.1]
          exact ha1
        · rw [lookupA_eraseA, if_neg (fun hh => hbne hh.symm), hcore2.1]
          exact hb1
      · have hbne : b ≠ vH := by
          rintro rfl
          exact hp ((hsymm a vH).mp hb')
        obtain ⟨ha1, hb1⟩ := hlive a b hb'
        rw [hvF]
        constructor
        · rw [lookupA_eraseA, if_neg hva, hcore2.1]
          exact ha1
        · rw [lookupA_eraseA, if_neg (fun hh => hbne hh.symm), hcore2.1]
          exact hb1
    · -- OutKeysNodup
      show ((eraseA vH ((inList g2 vH).foldl
        (fun m p => updateIfPresent p (delK vH) m) g2.outboundEdge)).map Prod.fst).Nodup
      exact eraseA_keys_nodup _ _ (fold_updateIfPresent_keys_nodup vH _ _ hnd3)
    · -- HashIndex
      intro i' v' hl
      have hl' : lookupA (eraseA i g2.vertexValues) i' = some v' := hl
      rw [lookupA_eraseA] at hl'
      split_ifs at hl' with hii
      have hg' : lookupA g.vertexValues i' = some v' := by
        rw [← hcore2.2.1]; exact hl'
      have hidxv := hidx i' v' hg'
      show lookupA (eraseA vH g2.vertices) (hash v') = some i'
      rw [lookupA_eraseA]
      split_ifs with hveq
      · exfalso
        rw [← hveq, hvvi] at hidxv
        exact hii (Option.some.inj hidxv)
      · rw [hcore2.1]
        exact hidxv
    · -- DescCacheOK
      intro k s' hl x
      have hl' : lookupA F.descendantsCache k = some s' := hl
      rw [show F.descendantsCache = eraseA vH
          ((getAncestors (opFuel g) (getDescendants (opFuel g) g vH).2 vH).1.foldl
            (fun m x => eraseA x m) g2.descendantsCache) from rfl] at hl'
      rw [lookupA_eraseA] at hl'
      split_ifs at hl' with hkv
      have hl'' := hl'
      rw [lookupA_fold_eraseA] at hl''
      split_ifs at hl'' with hkap
      have hold := hdok3 k s' hl'' x
      have hnkv : ¬ ReachStar g k vH := by
        rw [reachStar_iff_eq_or_plus]
        rintro (heq | hplus)
        · exact hkv heq.symm
        · exact hkap ((hap1' k).mpr hplus)
      rw [hold, reachPlus_of_core hcore2 k x]
      constructor
      · rintro ⟨n, hn⟩
        exact ⟨n, reachN_deleteVertex_not_star_to hout4 (n + 1) k x hn hnkv⟩
      · rintro ⟨n, hn⟩
        exact ⟨n, reachN_mono hsub (n + 1) k x hn⟩
    · -- AncCacheOK
      intro k s' hl x
      have hl' : lookupA F.ancestorsCache k = some s' := hl
      rw [show F.ancestorsCache = eraseA vH
          ((getDescendants (opFuel g) g vH).1.foldl (fun m x => eraseA x m)
            g2.ancestorsCache) from rfl] at hl'
      rw [lookupA_eraseA] at hl'
      split_ifs at hl' with hkv
      have hl'' := hl'
      rw [lookupA_fold_eraseA] at hl''
      split_ifs at hl'' with hkdp
      have hold := haok3 k s' hl'' x
      have hnvk : ¬ ReachStar g vH k := by
        rw [reachStar_iff_eq_or_plus]
        rintro (heq | hplus)
        · exact hkv heq
        · exact hkdp ((hdp1' k).mpr hplus)
      rw [hold, reachPlus_of_core hcore2 x k]
      constructor
      · rintro ⟨n, hn⟩
        exact ⟨n, reachN_deleteVertex_not_star_from hout4 (n + 1) x k hn hnvk⟩
      · rintro ⟨n, hn⟩
        exact ⟨n, reachN_mono hsub (n + 1) x k hn⟩

theorem inv_reduceTransitively (hash : V → K) (g : GenericDAG K V)
    (hinv : INV hash g) : INV hash (ReduceTransitively hash (opFuel g) g) := by
  unfold ReduceTransitively
  dsimp only
  set g1 := (getRoots g).foldl
    (fun h rv => (getDescendants (opFuel g) h (hash rv.2)).2) g with hg1def
  have hinv1 : INV hash g1 ∧ SameGraphCore g g1 := by
    rw [hg1def]
    refine foldl_preserves
      (P := fun s : GenericDAG K V => INV hash s ∧ SameGraphCore g s)
      ?_ (getRoots g) g ⟨hinv, sameGraphCore_refl g⟩
    intro s rv hs
    obtain ⟨hi, hc⟩ := hs
    refine ⟨?_, sameGraphCore_trans hc (getDescendants_core (opFuel g) s (hash rv.2))⟩
    have hfe : opFuel s = opFuel g := by
      show s.vertices.length + 1 = g.vertices.length + 1
      rw [hc.1]
    have := inv_getDescendants_state hash s (hash rv.2) hi
    rw [hfe] at this
    exact this
  obtain ⟨⟨hsymm1, hacy1, hlive1, hnd1, hidx1, hdok1, haok1⟩, hcore1⟩ := hinv1
  set r := g.vertices.foldl
    (fun (p : GenericDAG K V × Bool) kv =>
      let vHash := kv.1
      let gc := p.1
      let descendantsOfChildrenOfV := (outList gc vHash).foldl
        (fun acc c =>
          ((lookupA gc.descendantsCache c).getD []).foldl (fun a d => addK d a) acc)
        []
      (outList gc vHash).foldl
        (fun (q : GenericDAG K V × Bool) childOfV =>
          if childOfV ∈ descendantsOfChildrenOfV then
            ({ q.1 with
                outboundEdge :=
                  updateIfPresent vHash (delK childOfV) q.1.outboundEdge,
                inboundEdge :=
                  updateIfPresent childOfV (delK vHash) q.1.inboundEdge },
              true)
          else q)
        (gc, p.2))
    (g1, false) with hrdef
  have hmain : Symm r.1 ∧ (∀ a c, c ∈ outList r.1 a → c ∈ outList g1 a) ∧
      OutKeysNodup r.1 ∧ r.1.vertices = g1.vertices ∧
      r.1.vertexValues = g1.vertexValues ∧
      r.1.descendantsCache = g1.descendantsCache ∧
      r.1.ancestorsCache = g1.ancestorsCache ∧
      (r.2 = false → r.1 = g1) := by
    rw [hrdef]
    refine foldl_preserves
      (P := fun p : GenericDAG K V × Bool =>
        Symm p.1 ∧ (∀ a c, c ∈ outList p.1 a → c ∈ outList g1 a) ∧
        OutKeysNodup p.1 ∧ p.1.vertices = g1.vertices ∧
        p.1.vertexValues = g1.vertexValues ∧
        p.1.descendantsCache = g1.descendantsCache ∧
        p.1.ancestorsCache = g1.ancestorsCache ∧
        (p.2 = false → p.1 = g1))
      ?_ g.vertices (g1, false)
      ⟨hsymm1, fun a c hc => hc, hnd1, rfl, rfl, rfl, rfl, fun _ => rfl⟩
    intro p kv hp
    dsimp only
    refine foldl_preserves
      (P := fun q : GenericDAG K V × Bool =>
        Symm q.1 ∧ (∀ a c, c ∈ outList q.1 a → c ∈ outList g1 a) ∧
        OutKeysNodup q.1 ∧ q.1.vertices = g1.vertices ∧
        q.1.vertexValues = g1.vertexValues ∧
        q.1.descendantsCache = g1.descendantsCache ∧
        q.1.ancestorsCache = g1.ancestorsCache ∧
        (q.2 = false → q.1 = g1))
      ?_ (outList p.1 kv.1) (p.1, p.2) hp
    intro q c hq
    obtain ⟨hqs, hqsub, hqnd, hqv, hqvv, hqdc, hqac, hqf⟩ := hq
    split_ifs with hc
    · refine ⟨?_, ?_, ?_, hqv, hqvv, hqdc, hqac, ?_⟩
      · intro a b
        exact symm_delete_edge_pair q.1 kv.1 c hqs a b
      · intro a c' hc'
        have hform : outList { q.1 with
            outboundEdge := updateIfPresent kv.1 (delK c) q.1.outboundEdge,
            inboundEdge := updateIfPresent c (delK kv.1) q.1.inboundEdge } a =
            if kv.1 = a then delK c (outList q.1 a) else outList q.1 a := by
          show (lookupA (updateIfPresent kv.1 (delK c) q.1.outboundEdge) a).getD [] = _
          rw [lookupA_updateIfPresent]
          split_ifs with ha
          · exact getD_map_delK c _
          · rfl
        rw [hform] at hc'
        split_ifs at hc' with ha
        · exact hqsub a c' ((mem_delK c c' _).mp hc').1
        · exact hqsub a c' hc'
      · show ((updateIfPresent kv.1 (delK c) q.1.outboundEdge).map Prod.fst).Nodup
        exact updateIfPresent_keys_nodup _ _ _ hqnd
      · intro h
        simp at h
    · exact ⟨hqs, hqsub, hqnd, hqv, hqvv, hqdc, hqac, hqf⟩
  obtain ⟨hrs, hrsub, hrnd, hrv, hrvv, hrdc, hrac, hrf⟩ := hmain
  split_ifs with hchanged
  · -- caches were flushed
    show INV hash (flushCaches r.1)
    have hsub' : ∀ a c, c ∈ outList (flushCaches r.1) a → c ∈ outList g1 a :=
      fun a c hc => hrsub a c hc
    refine ⟨?_, ?_, ?_, ?_, ?_, ?_, ?_⟩
    · intro a b
      exact hrs a b
    · rintro k ⟨n, hn⟩
      exact hacy1 k ⟨n, reachN_mono hsub' (n + 1) k k hn⟩
    · intro a b hb
      have := hlive1 a b (hsub' a b hb)
      show (lookupA (flushCaches r.1).vertices a).isSome = true ∧
        (lookupA (flushCaches r.1).vertices b).isSome = true
      rw [show (flushCaches r.1).vertices = g1.vertices from hrv]
      exact this
    · exact hrnd
    · intro i' v' hl
      have hl' : lookupA g1.vertexValues i' = some v' := by
        rw [← hrvv]; exact hl
      have := hidx1 i' v' hl'
      show lookupA (flushCaches r.1).vertices (hash v') = some i'
      rw [show (flushCaches r.1).vertices = g1.vertices from hrv]
      exact this
    · intro k s' hl
      simp [flushCaches] at hl
    · intro k s' hl
      simp [flushCaches] at hl
  · -- nothing changed: the state is exactly the cache-populated graph
    show INV hash r.1
    have hfalse := hrf (Bool.not_eq_true _ ▸ hchanged)
    rw [hfalse]
    exact ⟨hsymm1, hacy1, hlive1, hnd1, hidx1, hdok1, haok1⟩

theorem inv_new (hash : V → K) : INV hash (NewGenericDAG K V) := by
  refine ⟨symm_new, ?_, ?_, ?_, ?_, ?_, ?_⟩
  · rintro k ⟨n, c, hc, _⟩
    simp [outList, NewGenericDAG] at hc
  · intro a b hb
    simp [outList, NewGenericDAG] at hb
  · exact List.nodup_nil
  · intro i v hl
    simp [NewGenericDAG] at hl
  · intro k s hl
    simp [NewGenericDAG] at hl
  · intro k s hl
    simp [NewGenericDAG] at hl

theorem inv_applyMutOp (hash : V → K) (g : GenericDAG K V) (op : MutOp V)
    (hinv : INV hash g) : INV hash (applyMutOp hash (opFuel g) g op) := by
  cases op with
  | addVertex i v => exact inv_addVertexByID hash g i v hinv
  | addVertexByID i v => exact inv_addVertexByID hash g i v hinv
  | addEdge s d => exact inv_addEdge hash g s d hinv
  | deleteEdge s d => exact inv_deleteEdge hash g s d hinv
  | deleteVertex i => exact inv_deleteVertex hash g i hinv
  | reduceTransitively => exact inv_reduceTransitively hash g hinv

/-- One public operation touching the graph state: a mutation, or one
of the cache-populating reads (`GetDescendants`, `GetAncestors`,
`GetOrderedDescendants` and the walkers share the same state effect
through `getDescendants`/`getAncestors`), or `FlushCaches`. -/
inductive PubOp (V : Type) where
  | mutation (op : MutOp V)
  | getDescendantsOf (id : String)
  | getAncestorsOf (id : String)
  | flushAll
  deriving DecidableEq

/-- State effect of one public operation (`GetDescendants` and
`GetAncestors` check `saneID` and then run the memoised recursion on
the vertex's key; typed_dag.go). -/
def applyPubOp (hash : V → K) (g : GenericDAG K V) : PubOp V → GenericDAG K V
  | .mutation op => applyMutOp hash (opFuel g) g op
  | .getDescendantsOf i =>
    match saneID g i with
    | some _ => g
    | none =>
      (getDescendants (opFuel g) g (hash ((lookupA g.vertexValues i).getD default))).2
  | .getAncestorsOf i =>
    match saneID g i with
    | some _ => g
    | none =>
      (getAncestors (opFuel g) g (hash ((lookupA g.vertexValues i).getD default))).2
  | .flushAll => flushCaches g

/-- Run a list of public operations from a state. -/
def runPubOps (hash : V → K) (g : GenericDAG K V) : List (PubOp V) → GenericDAG K V
  | [] => g
  | op :: rest => runPubOps hash (applyPubOp hash g op) rest

theorem inv_applyPubOp (hash : V → K) (g : GenericDAG K V) (op : PubOp V)
    (hinv : INV hash g) : INV hash (applyPubOp hash g op) := by
  cases op with
  | mutation op => exact inv_applyMutOp hash g op hinv
  | getDescendantsOf i =>
    show INV hash (match saneID g i with
      | some _ => g
      | none =>
        (getDescendants (opFuel g) g (hash ((lookupA g.vertexValues i).getD default))).2)
    cases saneID g i with
    | some e => exact hinv
    | none => exact inv_getDescendants_state hash g _ hinv
  | getAncestorsOf i =>
    show INV hash (match saneID g i with
      | some _ => g
      | none =>
        (getAncestors (opFuel g) g (hash ((lookupA g.vertexValues i).getD default))).2)
    cases saneID g i with
    | some e => exact hinv
    | none => exact inv_getAncestors_state hash g _ hinv
  | flushAll => exact inv_flushCaches hash g hinv

theorem inv_runPubOps (hash : V → K) (ops : List (PubOp V)) :
    ∀ g : GenericDAG K V, INV hash g → INV hash (runPubOps hash g ops) := by
  induction ops with
  | nil => intro g hg; exact hg
  | cons op rest ih =>
    intro g hg
    exact ih _ (inv_applyPubOp hash g op hg)

/-- C3: in every state reachable from a new graph by any sequence of
public operations, every populated descendants-cache entry `k` equals
the set of keys reachable from `k` in one or more outbound steps
(excluding `k` itself), and every populated ancestors-cache entry `k`
equals the set of keys from which `k` is so reachable: the cache
invalidation of `AddEdge`, `DeleteEdge` and `DeleteVertex` removes
every entry made stale. -/
theorem C3_cache_correct (hash : V → K) (ops : List (PubOp V)) :
    (∀ k s, lookupA (runPubOps hash (NewGenericDAG K V) ops).descendantsCache k = some s →
      (∀ x, x ∈ s ↔ ReachPlus (runPubOps hash (NewGenericDAG K V) ops) k x) ∧ k ∉ s) ∧
    (∀ k s, lookupA (runPubOps hash (NewGenericDAG K V) ops).ancestorsCache k = some s →
      (∀ x, x ∈ s ↔ ReachPlus (runPubOps hash (NewGenericDAG K V) ops) x k) ∧ k ∉ s) := by
  obtain ⟨hsymm, hacy, hlive, hnd, hidx, hdok, haok⟩ :=
    inv_runPubOps hash ops (NewGenericDAG K V) (inv_new hash)
  constructor
  · intro k s hl
    refine ⟨hdok k s hl, fun hk => hacy k ((hdok k s hl k).mp hk)⟩
  · intro k s hl
    refine ⟨haok k s hl, fun hk => hacy k ((haok k s hl k).mp hk)⟩

/-- A concrete run that populates the descendants cache: two vertices,
one edge a→b, then `GetDescendants("a")`. -/
def C3ops : List (PubOp String) :=
  [.mutation (.addVertexByID "a" "a"), .mutation (.addVertexByID "b" "b"),
   .mutation (.addEdge "a" "b"), .getDescendantsOf "a"]

theorem C3_cache_correct_witness :
    lookupA (runPubOps idHash (NewGenericDAG String String) C3ops).descendantsCache "a" =
      some ["b"] ∧
    ((∀ x, x ∈ ["b"] ↔
        ReachPlus (runPubOps idHash (NewGenericDAG String String) C3ops) "a" x) ∧
      "a" ∉ ["b"]) :=
  ⟨by decide, (C3_cache_correct idHash C3ops).1 "a" ["b"] (by decide)⟩

theorem inv_runMutOps (hash : V → K) (ops : List (MutOp V)) :
    ∀ g : GenericDAG K V, INV hash g → INV hash (runMutOps hash g ops) := by
  induction ops with
  | nil => intro g hg; exact hg
  | cons op rest ih =>
    intro g hg
    exact ih _ (inv_applyMutOp hash g op hg)

theorem mem_descChildren (children : List K) (cache : List (K × List K)) :
    ∀ (acc : List K) (x : K),
      x ∈ children.foldl
        (fun acc c => ((lookupA cache c).getD []).foldl (fun a d => addK d a) acc) acc ↔
      x ∈ acc ∨ ∃ c ∈ children, x ∈ (lookupA cache c).getD [] := by
  induction children with
  | nil => intro acc x; simp
  | cons c rest ih =>
    intro acc x
    rw [List.foldl_cons, ih, mem_foldl_addK]
    constructor
    · rintro ((h | h) | ⟨c', hc', h⟩)
      · exact Or.inl h
      · exact Or.inr ⟨c, List.mem_cons_self _ _, h⟩
      · exact Or.inr ⟨c', List.mem_cons_of_mem _ hc', h⟩
    · rintro (h | ⟨c', hc', h⟩)
      · exact Or.inl (Or.inl h)
      · rcases List.mem_cons.mp hc' with rfl | h'
        · exact Or.inl (Or.inr h)
        · exact Or.inr ⟨c', h', h⟩

theorem reach_max_first_edges {g1 gr : GenericDAG K V}
    (hdel : ∀ u u', u' ∈ outList g1 u → u' ∉ outList gr u →
      ∃ c, c ∈ outList g1 u ∧ ReachPlus g1 c u') :
    ∀ m a b, ReachN g1 m a b → (∀ k, ReachN g1 k a b → k ≤ m) → ReachStar gr a b := by
  intro m
  induction m with
  | zero =>
    intro a b h _
    exact h ▸ reachStar_refl gr a
  | succ m ih =>
    rintro a b ⟨c, hc, hr⟩ hmax
    have hmax' : ∀ k, ReachN g1 k c b → k ≤ m := by
      intro k hk
      have := hmax (k + 1) ⟨c, hc, hk⟩
      omega
    have hstar := ih c b hr hmax'
    by_cases he : c ∈ outList gr a
    · obtain ⟨n, hn⟩ := hstar
      exact ⟨n + 1, c, he, hn⟩
    · exfalso
      obtain ⟨c', hc', j, hj⟩ := hdel a c hc he
      have h1 : ReachN g1 1 a c' := ⟨c', hc', rfl⟩
      have h3 : ReachN g1 (1 + (j + 1) + m) a b := reachN_trans (reachN_trans h1 hj) hr
      have := hmax (1 + (j + 1) + m) h3
      omega

theorem reach_preserved_of_bypass {g1 gr : GenericDAG K V}
    (hacy : Acyclic g1) (hlive : EdgesLive g1)
    (hdel : ∀ u u', u' ∈ outList g1 u → u' ∉ outList gr u →
      ∃ c, c ∈ outList g1 u ∧ ReachPlus g1 c u') :
    ∀ a b, ReachStar g1 a b → ReachStar gr a b := by
  intro a b hab
  by_cases heq : a = b
  · exact heq ▸ reachStar_refl gr a
  · obtain ⟨n, hn⟩ := hab
    have hb : ∀ k, ReachN g1 k a b → k ≤ g1.vertices.length := by
      intro k hk
      have := heightLt_of_acyclic hacy hlive a k b hk
      omega
    have hn0 : 0 < n := by
      cases n with
      | zero => exact absurd hn heq
      | succ n => exact Nat.succ_pos n
    have hPm : ReachN g1
        (Nat.findGreatest (fun k => ReachN g1 k a b) g1.vertices.length) a b :=
      Nat.findGreatest_spec (P := fun k => ReachN g1 k a b) (hb n hn) hn
    have hmax : ∀ k, ReachN g1 k a b →
        k ≤ Nat.findGreatest (fun k => ReachN g1 k a b) g1.vertices.length := by
      intro k hk
      by_contra hgt
      exact Nat.findGreatest_is_greatest (P := fun k => ReachN g1 k a b)
        (Nat.lt_of_not_le hgt) (hb k hk) hk
    exact reach_max_first_edges hdel _ a b hPm hmax

theorem reduceTransitively_reach (hash : V → K) (g : GenericDAG K V)
    (hinv : INV hash g) :
    ∀ a b, ReachStar (ReduceTransitively hash (opFuel g) g) a b ↔ ReachStar g a b := by
  obtain ⟨hsymm, hacy, hlive, hnd, hidx, hdok, haok⟩ := hinv
  unfold ReduceTransitively
  dsimp only
  set g1 := (getRoots g).foldl
    (fun h rv => (getDescendants (opFuel g) h (hash rv.2)).2) g with hg1def
  have hinv1 : INV hash g1 ∧ SameGraphCore g g1 := by
    rw [hg1def]
    refine foldl_preserves
      (P := fun s : GenericDAG K V => INV hash s ∧ SameGraphCore g s)
      ?_ (getRoots g) g ⟨⟨hsymm, hacy, hlive, hnd, hidx, hdok, haok⟩, sameGraphCore_refl g⟩
    intro s rv hs
    obtain ⟨hi, hc⟩ := hs
    refine ⟨?_, sameGraphCore_trans hc (getDescendants_core (opFuel g) s (hash rv.2))⟩
    have hfe : opFuel s = opFuel g := by
      show s.vertices.length + 1 = g.vertices.length + 1
      rw [hc.1]
    have := inv_getDescendants_state hash s (hash rv.2) hi
    rw [hfe] at this
    exact this
  obtain ⟨⟨hsymm1, hacy1, hlive1, hnd1, hidx1, hdok1, haok1⟩, hcore1⟩ := hinv1
  set r := g.vertices.foldl
    (fun (p : GenericDAG K V × Bool) kv =>
      let vHash := kv.1
      let gc := p.1
      let descendantsOfChildrenOfV := (outList gc vHash).foldl
        (fun acc c =>
          ((lookupA gc.descendantsCache c).getD []).foldl (fun a d => addK d a) acc)
        []
      (outList gc vHash).foldl
        (fun (q : GenericDAG K V × Bool) childOfV =>
          if childOfV ∈ descendantsOfChildrenOfV then
            ({ q.1 with
                outboundEdge :=
                  updateIfPresent vHash (delK childOfV) q.1.outboundEdge,
                inboundEdge :=
                  updateIfPresent childOfV (delK vHash) q.1.inboundEdge },
              true)
          else q)
        (gc, p.2))
    (g1, false) with hrdef
  have hmain : (∀ a c, c ∈ outList r.1 a → c ∈ outList g1 a) ∧
      r.1.descendantsCache = g1.descendantsCache ∧
      (∀ u u', u' ∈ outList g1 u → u' ∉ outList r.1 u →
        ∃ c, c ∈ outList g1 u ∧ ReachPlus g1 c u') := by
    rw [hrdef]
    refine foldl_preserves
      (P := fun p : GenericDAG K V × Bool =>
        (∀ a c, c ∈ outList p.1 a → c ∈ outList g1 a) ∧
        p.1.descendantsCache = g1.descendantsCache ∧
        (∀ u u', u' ∈ outList g1 u → u' ∉ outList p.1 u →
          ∃ c, c ∈ outList g1 u ∧ ReachPlus g1 c u'))
      ?_ g.vertices (g1, false)
      ⟨fun a c hc => hc, rfl, fun u u' h1 h2 => absurd h1 h2⟩
    intro p kv hp
    dsimp only
    refine foldl_preserves
      (P := fun q : GenericDAG K V × Bool =>
        (∀ a c, c ∈ outList q.1 a → c ∈ outList g1 a) ∧
        q.1.descendantsCache = g1.descendantsCache ∧
        (∀ u u', u' ∈ outList g1 u → u' ∉ outList q.1 u →
          ∃ c, c ∈ outList g1 u ∧ ReachPlus g1 c u'))
      ?_ (outList p.1 kv.1) (p.1, p.2) hp
    intro q c hq
    obtain ⟨hqsub, hqdc, hqdel⟩ := hq
    split_ifs with hc
    · have hform : ∀ a, outList { q.1 with
          outboundEdge := updateIfPresent kv.1 (delK c) q.1.outboundEdge,
          inboundEdge := updateIfPresent c (delK kv.1) q.1.inboundEdge } a =
          if kv.1 = a then delK c (outList q.1 a) else outList q.1 a := by
        intro a
        show (lookupA (updateIfPresent kv.1 (delK c) q.1.outboundEdge) a).getD [] = _
        rw [lookupA_updateIfPresent]
        split_ifs with ha
        · exact getD_map_delK c _
        · rfl
      refine ⟨?_, hqdc, ?_⟩
      · intro a c' hc'
        rw [hform a] at hc'
        split_ifs at hc' with ha
        · exact hqsub a c' ((mem_delK c c' _).mp hc').1
        · exact hqsub a c' hc'
      · intro u u' hu1 hu2
        rw [hform u] at hu2
        split_ifs at hu2 with hu
        · by_cases hmem : u' ∈ outList q.1 u
          · have huc : u' = c := by
              by_contra hne
              exact hu2 ((mem_delK c u' _).mpr ⟨hmem, hne⟩)
            subst huc
            obtain ⟨c0, hc0, hcache⟩ :=
              ((mem_descChildren (outList p.1 kv.1) p.1.descendantsCache [] u').mp hc).resolve_left
                (List.not_mem_nil u')
            refine ⟨c0, ?_, ?_⟩
            · rw [← hu]
              exact hp.1 kv.1 c0 hc0
            · rw [hp.2.1] at hcache
              cases hlc : lookupA g1.descendantsCache c0 with
              | none =>
                rw [hlc] at hcache
                exact absurd hcache (List.not_mem_nil u')
              | some s =>
                rw [hlc] at hcache
                exact (hdok1 c0 s hlc u').mp hcache
          · exact hqdel u u' hu1 hmem
        · exact hqdel u u' hu1 hu2
    · exact ⟨hqsub, hqdc, hqdel⟩
  obtain ⟨hrsub, hrdc, hrdel⟩ := hmain
  have hkey : ∀ a b, ReachStar r.1 a b ↔ ReachStar g a b := by
    intro a b
    have hg1g : ReachStar g1 a b ↔ ReachStar g a b := by
      constructor
      · rintro ⟨n, hn⟩; exact ⟨n, (reachN_of_core hcore1 n a b).mp hn⟩
      · rintro ⟨n, hn⟩; exact ⟨n, (reachN_of_core hcore1 n a b).mpr hn⟩
    rw [← hg1g]
    constructor
    · rintro ⟨n, hn⟩
      exact ⟨n, reachN_mono hrsub n a b hn⟩
    · exact reach_preserved_of_bypass hacy1 hlive1 hrdel a b
  split_ifs with hchanged
  · intro a b
    show ReachStar (flushCaches r.1) a b ↔ ReachStar g a b
    rw [← hkey a b]
    have he : ∀ x, outList (flushCaches r.1) x = outList r.1 x := fun x => rfl
    exact reachStar_of_outEq he a b
  · intro a b
    show ReachStar r.1 a b ↔ ReachStar g a b
    exact hkey a b

/-- C7: on a graph satisfying the library's invariants,
`ReduceTransitively` preserves reachability — every vertex's descendant
set (keys reachable in one or more steps) is unchanged; and on the
concrete triangle with vertices 1,2,3 and edges 1→2, 2→3, 1→3 the call
removes exactly the edge 1→3, leaving size 2, with descendants(1)
still {2,3}. -/
theorem C7_reduce_preserves_reachability (hash : V → K) (g : GenericDAG K V)
    (hinv : INV hash g) :
    (∀ v x, ReachPlus (ReduceTransitively hash (opFuel g) g) v x ↔ ReachPlus g v x) ∧
    getSize (ReduceTransitively idHash (opFuel triangle3) triangle3) = 2 ∧
    isEdge (ReduceTransitively idHash (opFuel triangle3) triangle3) "1" "3" = false ∧
    isEdge (ReduceTransitively idHash (opFuel triangle3) triangle3) "1" "2" = true ∧
    isEdge (ReduceTransitively idHash (opFuel triangle3) triangle3) "2" "3" = true ∧
    (getDescendants (opFuel (ReduceTransitively idHash (opFuel triangle3) triangle3))
      (ReduceTransitively idHash (opFuel triangle3) triangle3) "1").1 = ["3", "2"] := by
  refine ⟨?_, by decide, by decide, by decide, by decide, by decide⟩
  have key := reduceTransitively_reach hash g hinv
  obtain ⟨_, hacy', _, _, _, _, _⟩ := inv_reduceTransitively hash g hinv
  obtain ⟨_, hacy, _, _, _, _, _⟩ := hinv
  intro v x
  by_cases hvx : v = x
  · subst hvx
    exact iff_of_false (hacy' v) (hacy v)
  · constructor
    · rintro ⟨n, hn⟩
      have hs : ReachStar g v x := (key v x).mp ⟨n + 1, hn⟩
      rcases reachStar_iff_eq_or_plus.mp hs with heq | hp
      · exact absurd heq hvx
      · exact hp
    · rintro ⟨n, hn⟩
      have hs : ReachStar (ReduceTransitively hash (opFuel g) g) v x :=
        (key v x).mpr ⟨n + 1, hn⟩
      rcases reachStar_iff_eq_or_plus.mp hs with heq | hp
      · exact absurd heq hvx
      · exact hp

theorem C7_reduce_preserves_reachability_witness :
    INV idHash triangle3 ∧
    ((∀ v x, ReachPlus (ReduceTransitively idHash (opFuel triangle3) triangle3) v x ↔
        ReachPlus triangle3 v x) ∧
      getSize (ReduceTransitively idHash (opFuel triangle3) triangle3) = 2 ∧
      isEdge (ReduceTransitively idHash (opFuel triangle3) triangle3) "1" "3" = false ∧
      isEdge (ReduceTransitively idHash (opFuel triangle3) triangle3) "1" "2" = true ∧
      isEdge (ReduceTransitively idHash (opFuel triangle3) triangle3) "2" "3" = true ∧
      (getDescendants (opFuel (ReduceTransitively idHash (opFuel triangle3) triangle3))
        (ReduceTransitively idHash (opFuel triangle3) triangle3) "1").1 = ["3", "2"]) :=
  ⟨inv_runMutOps idHash
      [.addVertexByID "1" "1", .addVertexByID "2" "2", .addVertexByID "3" "3",
       .addEdge "1" "2", .addEdge "2" "3", .addEdge "1" "3"]
      (NewGenericDAG String String) (inv_new idHash),
    C7_reduce_preserves_reachability idHash triangle3
      (inv_runMutOps idHash
        [.addVertexByID "1" "1", .addVertexByID "2" "2", .addVertexByID "3" "3",
         .addEdge "1" "2", .addEdge "2" "3", .addEdge "1" "3"]
        (NewGenericDAG String String) (inv_new idHash))⟩

/-! ## Ordered walks (claims C5, C10): the id-level view of the graph -/

/-- The ids of the graph's vertices, read off the key index. -/
def idsOf (g : GenericDAG K V) : List String := g.vertices.map Prod.snd

/-- The key under which a live id's value is hashed. -/
def keyOf (hash : V → K) (g : GenericDAG K V) (id : String) : K :=
  hash ((lookupA g.vertexValues id).getD default)

/-- The child ids `getChildren` reports (typed_dag.go). -/
def childIds (hash : V → K) (g : GenericDAG K V) (id : String) : List String :=
  (getChildren hash g id).1.map Prod.fst

/-- The parent ids `GetParents` reports (typed_dag.go). -/
def parentIds (hash : V → K) (g : GenericDAG K V) (id : String) : List String :=
  (GetParents hash g id).1.map Prod.fst

/-- The root ids (`getRoots`, typed_dag.go). -/
def rootIds (g : GenericDAG K V) : List String := (getRoots g).map Prod.fst

/-- Id-index coherence of a well-formed graph: the id index inverts the
key index through the hash, neither index has duplicate keys, no two
keys carry the same id, and no id is empty. -/
def IdsOK (hash : V → K) (g : GenericDAG K V) : Prop :=
  (∀ kv ∈ g.vertices, ∃ v, lookupA g.vertexValues kv.2 = some v ∧ hash v = kv.1) ∧
  (g.vertices.map Prod.fst).Nodup ∧
  (g.vertices.map Prod.snd).Nodup ∧
  (∀ kv ∈ g.vertices, kv.2 ≠ "")

theorem mem_idsOf {g : GenericDAG K V} {id : String} :
    id ∈ idsOf g ↔ ∃ k, (k, id) ∈ g.vertices := by
  unfold idsOf
  rw [List.mem_map]
  constructor
  · rintro ⟨⟨k, i⟩, hk, rfl⟩; exact ⟨k, hk⟩
  · rintro ⟨k, hk⟩; exact ⟨(k, id), hk, rfl⟩

theorem live_id {hash : V → K} {g : GenericDAG K V} (hio : IdsOK hash g)
    (hidx : HashIndex hash g) {k : K} {id : String} (h : (k, id) ∈ g.vertices) :
    ∃ v, lookupA g.vertexValues id = some v ∧ hash v = k ∧
      lookupA g.vertices k = some id ∧ id ≠ "" := by
  obtain ⟨v, hv, hk⟩ := hio.1 (k, id) h
  have := hidx id v hv
  rw [hk] at this
  exact ⟨v, hv, hk, this, hio.2.2.2 (k, id) h⟩

theorem saneID_none_of_lookup {g : GenericDAG K V} {id : String} {v : V}
    (hne : id ≠ "") (hv : lookupA g.vertexValues id = some v) :
    saneID g id = none := by
  unfold saneID
  rw [if_neg hne, hv]

theorem keyOf_eq {hash : V → K} {g : GenericDAG K V} {id : String} {v : V}
    (hv : lookupA g.vertexValues id = some v) : keyOf hash g id = hash v := by
  unfold keyOf
  rw [hv]
  rfl

theorem childIds_char {hash : V → K} {g : GenericDAG K V} (hio : IdsOK hash g)
    (hidx : HashIndex hash g) (hlive : EdgesLive g) {id b : String}
    (hid : id ∈ idsOf g) :
    b ∈ childIds hash g id ↔
      b ∈ idsOf g ∧ keyOf hash g b ∈ outList g (keyOf hash g id) := by
  obtain ⟨k, hk⟩ := mem_idsOf.mp hid
  obtain ⟨v, hv, hkv, hvk, hne⟩ := live_id hio hidx hk
  have hkey : keyOf hash g id = k := by rw [keyOf_eq hv, hkv]
  have hsane : saneID g id = none := saneID_none_of_lookup hne hv
  have hch : childIds hash g id =
      (outList g k).map (fun cv => (lookupA g.vertices cv).getD "") := by
    unfold childIds getChildren
    rw [hsane]
    dsimp only
    rw [List.map_map, hv, Option.getD_some, hkv]
    rfl
  rw [hch, hkey]
  constructor
  · rw [List.mem_map]
    rintro ⟨cv, hcv, rfl⟩
    have hsome := (hlive k cv hcv).2
    cases hlc : lookupA g.vertices cv with
    | none => rw [hlc] at hsome; exact absurd hsome (by simp)
    | some cid =>
      have hmem := lookupA_mem hlc
      obtain ⟨v', hv', hk'⟩ := hio.1 (cv, cid) hmem
      have hkc : keyOf hash g cid = cv := by rw [keyOf_eq hv', hk']
      constructor
      · exact mem_idsOf.mpr ⟨cv, hmem⟩
      · show keyOf hash g cid ∈ outList g k
        rw [hkc]
        exact hcv
  · rintro ⟨hbids, hbk⟩
    obtain ⟨kb, hkb⟩ := mem_idsOf.mp hbids
    obtain ⟨vb, hvb, hkvb, hvkb, _⟩ := live_id hio hidx hkb
    have hkeyb : keyOf hash g b = kb := by rw [keyOf_eq hvb, hkvb]
    rw [List.mem_map]
    refine ⟨kb, ?_, ?_⟩
    · rw [← hkeyb]; exact hbk
    · show (lookupA g.vertices kb).getD "" = b
      rw [hvkb]
      rfl

theorem parentIds_char {hash : V → K} {g : GenericDAG K V} (hio : IdsOK hash g)
    (hidx : HashIndex hash g) (hsymm : Symm g) (hlive : EdgesLive g) {id a : String}
    (hid : id ∈ idsOf g) :
    a ∈ parentIds hash g id ↔
      a ∈ idsOf g ∧ keyOf hash g id ∈ outList g (keyOf hash g a) := by
  obtain ⟨k, hk⟩ := mem_idsOf.mp hid
  obtain ⟨v, hv, hkv, hvk, hne⟩ := live_id hio hidx hk
  have hkey : keyOf hash g id = k := by rw [keyOf_eq hv, hkv]
  have hsane : saneID g id = none := saneID_none_of_lookup hne hv
  have hpa : parentIds hash g id =
      (inList g k).map (fun pv => (lookupA g.vertices pv).getD "") := by
    unfold parentIds GetParents
    rw [hsane]
    dsimp only
    rw [List.map_map, hv, Option.getD_some, hkv]
    rfl
  rw [hpa, hkey]
  constructor
  · rw [List.mem_map]
    rintro ⟨pv, hpv, rfl⟩
    have hout : k ∈ outList g pv := (hsymm pv k).mpr hpv
    have hsome := (hlive pv k hout).1
    cases hlc : lookupA g.vertices pv with
    | none => rw [hlc] at hsome; exact absurd hsome (by simp)
    | some pid =>
      have hmem := lookupA_mem hlc
      obtain ⟨v', hv', hk'⟩ := hio.1 (pv, pid) hmem
      have hkp : keyOf hash g pid = pv := by rw [keyOf_eq hv', hk']
      constructor
      · exact mem_idsOf.mpr ⟨pv, hmem⟩
      · show k ∈ outList g (keyOf hash g pid)
        rw [hkp]
        exact hout
  · rintro ⟨haids, hak⟩
    obtain ⟨ka, hka⟩ := mem_idsOf.mp haids
    obtain ⟨va, hva, hkva, hvka, _⟩ := live_id hio hidx hka
    have hkeya : keyOf hash g a = ka := by rw [keyOf_eq hva, hkva]
    rw [List.mem_map]
    refine ⟨ka, ?_, ?_⟩
    · rw [hkeya] at hak
      exact (hsymm ka k).mp hak
    · show (lookupA g.vertices ka).getD "" = a
      rw [hvka]
      rfl

theorem child_parent_duality {hash : V → K} {g : GenericDAG K V} (hio : IdsOK hash g)
    (hidx : HashIndex hash g) (hsymm : Symm g) (hlive : EdgesLive g) {a b : String}
    (ha : a ∈ idsOf g) (hb : b ∈ idsOf g) :
    b ∈ childIds hash g a ↔ a ∈ parentIds hash g b := by
  rw [childIds_char hio hidx hlive ha, parentIds_char hio hidx hsymm hlive hb]
  constructor
  · rintro ⟨_, h⟩; exact ⟨ha, h⟩
  · rintro ⟨_, h⟩; exact ⟨hb, h⟩

theorem childIds_live {hash : V → K} {g : GenericDAG K V} (hio : IdsOK hash g)
    (hidx : HashIndex hash g) (hlive : EdgesLive g) {id b : String}
    (hid : id ∈ idsOf g) (h : b ∈ childIds hash g id) : b ∈ idsOf g :=
  ((childIds_char hio hidx hlive hid).mp h).1

theorem parentIds_live {hash : V → K} {g : GenericDAG K V} (hio : IdsOK hash g)
    (hidx : HashIndex hash g) (hsymm : Symm g) (hlive : EdgesLive g) {id a : String}
    (hid : id ∈ idsOf g) (h : a ∈ parentIds hash g id) : a ∈ idsOf g :=
  ((parentIds_char hio hidx hsymm hlive hid).mp h).1

theorem childIds_dead {hash : V → K} {g : GenericDAG K V} {id : String}
    (h : saneID g id ≠ none) : childIds hash g id = [] := by
  unfold childIds getChildren
  cases hs : saneID g id with
  | some e => rfl
  | none => exact absurd hs h

/-- Id-level path avoiding a visited set: `IPathVis hash g vis u l v`
says the chain `u :: l` steps along child edges from `u` to `v` (so
`v = u` when `l = []`), with every vertex of `l` outside `vis`. -/
def IPathVis (hash : V → K) (g : GenericDAG K V) (vis : List String) :
    String → List String → String → Prop
  | u, [], v => u = v
  | u, c :: l, v => c ∈ childIds hash g u ∧ c ∉ vis ∧ IPathVis hash g vis c l v

theorem ipathVis_append {hash : V → K} {g : GenericDAG K V} {vis : List String} :
    ∀ {l : List String} {u p b : String}, IPathVis hash g vis u l p →
      b ∈ childIds hash g p → b ∉ vis → IPathVis hash g vis u (l ++ [b]) b := by
  intro l
  induction l with
  | nil =>
    intro u p b h hb hnb
    cases h
    exact ⟨hb, hnb, rfl⟩
  | cons c l0 ih =>
    intro u p b h hb hnb
    obtain ⟨hc, hcv, hrest⟩ := h
    exact ⟨hc, hcv, ih hrest hb hnb⟩

theorem ipathVis_mono {hash : V → K} {g : GenericDAG K V} {vis : List String}
    {id : String} :
    ∀ {l : List String} {u v : String}, IPathVis hash g vis u l v → id ∉ l →
      IPathVis hash g (id :: vis) u l v := by
  intro l
  induction l with
  | nil => intro u v h _; exact h
  | cons c l0 ih =>
    intro u v h hni
    obtain ⟨hc, hcv, hrest⟩ := h
    refine ⟨hc, ?_, ih hrest (fun hh => hni (List.mem_cons_of_mem _ hh))⟩
    intro hmem
    rcases List.mem_cons.mp hmem with rfl | hmem'
    · exact hni (List.mem_cons_self _ _)
    · exact hcv hmem'

theorem ipathVis_split {hash : V → K} {g : GenericDAG K V} {vis : List String}
    {id : String} :
    ∀ {l : List String} {u v : String}, IPathVis hash g vis u l v →
      id ∈ u :: l → id ≠ v →
      ∃ c l', c ∈ childIds hash g id ∧ c ∉ vis ∧
        IPathVis hash g vis c l' v ∧ id ∉ c :: l' := by
  intro l
  induction l with
  | nil =>
    intro u v h hm hne
    cases h
    rcases List.mem_cons.mp hm with rfl | hm'
    · exact absurd rfl hne
    · exact absurd hm' (List.not_mem_nil id)
  | cons c l0 ih =>
    intro u v h hm hne
    obtain ⟨hc, hcv, hrest⟩ := h
    by_cases hin : id ∈ c :: l0
    · exact ih hrest hin hne
    · have hidu : id = u := by
        rcases List.mem_cons.mp hm with h' | h'
        · exact h'
        · exact absurd h' hin
      subst hidu
      exact ⟨c, l0, hc, hcv, hrest, hin⟩

theorem ipathVis_reachN {hash : V → K} {g : GenericDAG K V} (hio : IdsOK hash g)
    (hidx : HashIndex hash g) (hlive : EdgesLive g) {vis : List String} :
    ∀ {l : List String} {u v : String}, u ∈ idsOf g → IPathVis hash g vis u l v →
      ReachN g l.length (keyOf hash g u) (keyOf hash g v) := by
  intro l
  induction l with
  | nil =>
    intro u v _ h
    cases h
    rfl
  | cons c l0 ih =>
    intro u v hu h
    obtain ⟨hc, _, hrest⟩ := h
    obtain ⟨hcids, hck⟩ := (childIds_char hio hidx hlive hu).mp hc
    exact ⟨keyOf hash g c, hck, ih hcids hrest⟩

/-- The longest-incoming-path height of a vertex id (bounded by the
vertex count, which bounds all paths in an acyclic graph; path sources
range over the live keys, which suffices and keeps it decidable). -/
def hgt (hash : V → K) (g : GenericDAG K V) (id : String) : Nat :=
  Nat.findGreatest
    (fun n => ∃ kk ∈ g.vertices.map Prod.fst, ReachN g n kk (keyOf hash g id))
    g.vertices.length

theorem hgt_parent_lt {hash : V → K} {g : GenericDAG K V} (hio : IdsOK hash g)
    (hidx : HashIndex hash g) (hsymm : Symm g) (hlive : EdgesLive g) (hacy : Acyclic g)
    {id p : String} (hid : id ∈ idsOf g) (hp : p ∈ parentIds hash g id) :
    hgt hash g p < hgt hash g id := by
  obtain ⟨hpids, hpk⟩ := (parentIds_char hio hidx hsymm hlive hid).mp hp
  obtain ⟨kp, hkp⟩ := mem_idsOf.mp hpids
  obtain ⟨vp, hvp, hkvp, _, _⟩ := live_id hio hidx hkp
  have hkeyp : keyOf hash g p = kp := by rw [keyOf_eq hvp, hkvp]
  have hP0 : ∃ kk ∈ g.vertices.map Prod.fst, ReachN g 0 kk (keyOf hash g p) :=
    ⟨keyOf hash g p, by rw [hkeyp]; exact List.mem_map_of_mem Prod.fst hkp, rfl⟩
  obtain ⟨kk, hkkm, hpath⟩ :=
    Nat.findGreatest_spec
      (P := fun n => ∃ kk ∈ g.vertices.map Prod.fst, ReachN g n kk (keyOf hash g p))
      (Nat.zero_le _) hP0
  have hext : ReachN g (hgt hash g p + 1) kk (keyOf hash g id) :=
    reachN_trans hpath ⟨keyOf hash g id, hpk, rfl⟩
  have hbound : hgt hash g p + 1 ≤ g.vertices.length := by
    have := heightLt_of_acyclic hacy hlive kk (hgt hash g p + 1) (keyOf hash g id) hext
    omega
  have h2 : hgt hash g p + 1 ≤ hgt hash g id := Nat.le_findGreatest
    (P := fun n => ∃ kk ∈ g.vertices.map Prod.fst, ReachN g n kk (keyOf hash g id))
    hbound ⟨kk, hkkm, hext⟩
  omega

theorem mem_rootIds {g : GenericDAG K V} {id : String} :
    id ∈ rootIds g ↔ ∃ kv ∈ g.vertices, inList g kv.1 = [] ∧ kv.2 = id := by
  unfold rootIds getRoots
  rw [List.mem_map]
  constructor
  · rintro ⟨⟨i, val⟩, hmem, rfl⟩
    rw [List.mem_filterMap] at hmem
    obtain ⟨kv, hkv, hif⟩ := hmem
    by_cases hin : inList g kv.1 = []
    · rw [if_pos hin] at hif
      injection hif with h
      exact ⟨kv, hkv, hin, by rw [← h]⟩
    · rw [if_neg hin] at hif
      exact absurd hif (by simp)
  · rintro ⟨kv, hkv, hin, rfl⟩
    refine ⟨(kv.2, (lookupA g.vertexValues kv.2).getD default), ?_, rfl⟩
    rw [List.mem_filterMap]
    exact ⟨kv, hkv, by rw [if_pos hin]⟩

theorem rootIds_live {g : GenericDAG K V} {id : String} (h : id ∈ rootIds g) :
    id ∈ idsOf g := by
  obtain ⟨kv, hkv, _, rfl⟩ := mem_rootIds.mp h
  exact mem_idsOf.mpr ⟨kv.1, hkv⟩

theorem parentIds_nil_iff {hash : V → K} {g : GenericDAG K V} (hio : IdsOK hash g)
    (hidx : HashIndex hash g) {id : String} (hid : id ∈ idsOf g) :
    parentIds hash g id = [] ↔ inList g (keyOf hash g id) = [] := by
  obtain ⟨k, hk⟩ := mem_idsOf.mp hid
  obtain ⟨v, hv, hkv, hvk, hne⟩ := live_id hio hidx hk
  have hkey : keyOf hash g id = k := by rw [keyOf_eq hv, hkv]
  have hsane : saneID g id = none := saneID_none_of_lookup hne hv
  have hpa : parentIds hash g id =
      (inList g k).map (fun pv => (lookupA g.vertices pv).getD "") := by
    unfold parentIds GetParents
    rw [hsane]
    dsimp only
    rw [List.map_map, hv, Option.getD_some, hkv]
    rfl
  rw [hpa, hkey, List.map_eq_nil_iff]

theorem exists_root_ipath {hash : V → K} {g : GenericDAG K V} (hio : IdsOK hash g)
    (hidx : HashIndex hash g) (hsymm : Symm g) (hlive : EdgesLive g) (hacy : Acyclic g) :
    ∀ (N : Nat) (id : String), id ∈ idsOf g → hgt hash g id ≤ N →
      ∃ r ∈ rootIds g, ∃ l, IPathVis hash g [] r l id := by
  intro N
  induction N with
  | zero =>
    intro id hid hN
    cases hpar : parentIds hash g id with
    | nil =>
      obtain ⟨k, hk⟩ := mem_idsOf.mp hid
      obtain ⟨v, hv, hkv, hvk, hne⟩ := live_id hio hidx hk
      have hkey : keyOf hash g id = k := by rw [keyOf_eq hv, hkv]
      have hin : inList g k = [] := by
        rw [← hkey]
        exact (parentIds_nil_iff hio hidx hid).mp hpar
      exact ⟨id, mem_rootIds.mpr ⟨(k, id), hk, hin, rfl⟩, [], rfl⟩
    | cons p rest =>
      have hp : p ∈ parentIds hash g id := by rw [hpar]; exact List.mem_cons_self _ _
      have := hgt_parent_lt hio hidx hsymm hlive hacy hid hp
      omega
  | succ N ih =>
    intro id hid hN
    cases hpar : parentIds hash g id with
    | nil =>
      obtain ⟨k, hk⟩ := mem_idsOf.mp hid
      obtain ⟨v, hv, hkv, hvk, hne⟩ := live_id hio hidx hk
      have hkey : keyOf hash g id = k := by rw [keyOf_eq hv, hkv]
      have hin : inList g k = [] := by
        rw [← hkey]
        exact (parentIds_nil_iff hio hidx hid).mp hpar
      exact ⟨id, mem_rootIds.mpr ⟨(k, id), hk, hin, rfl⟩, [], rfl⟩
    | cons p rest =>
      have hp : p ∈ parentIds hash g id := by rw [hpar]; exact List.mem_cons_self _ _
      have hlt := hgt_parent_lt hio hidx hsymm hlive hacy hid hp
      have hpids := parentIds_live hio hidx hsymm hlive hid hp
      obtain ⟨r, hr, l, hl⟩ := ih p hpids (by omega)
      refine ⟨r, hr, l ++ [id], ipathVis_append hl ?_ (List.not_mem_nil id)⟩
      exact (child_parent_duality hio hidx hsymm hlive hpids hid).mpr hp

/-- Byte-wise comparison of two id strings as character lists: the
lexicographic order `sort.Strings` of the legacy walker uses. -/
def strListLeB : List Char → List Char → Bool
  | [], _ => true
  | _ :: _, [] => false
  | a :: as, b :: bs =>
    if a.val.toNat < b.val.toNat then true
    else if b.val.toNat < a.val.toNat then false
    else strListLeB as bs

/-- The id order of `sort.Strings`, executable in the kernel. -/
def strLeB (a b : String) : Bool := strListLeB a.data b.data

theorem strListLeB_total : ∀ x y : List Char,
    strListLeB x y = true ∨ strListLeB y x = true := by
  intro x
  induction x with
  | nil => intro y; left; rfl
  | cons a as ih =>
    intro y
    cases y with
    | nil => right; rfl
    | cons b bs =>
      simp only [strListLeB]
      rcases ih bs with h | h <;>
        split_ifs <;>
          first
          | (left; rfl)
          | (right; rfl)
          | (left; exact h)
          | (right; exact h)
          | omega

theorem strListLeB_trans : ∀ x y z : List Char,
    strListLeB x y = true → strListLeB y z = true → strListLeB x z = true := by
  intro x
  induction x with
  | nil => intro y z _ _; rfl
  | cons a as ih =>
    intro y z h1 h2
    cases y with
    | nil => exact absurd h1 (by simp [strListLeB])
    | cons b bs =>
      cases z with
      | nil => exact absurd h2 (by simp [strListLeB])
      | cons c cs =>
        simp only [strListLeB] at h1 h2 ⊢
        split_ifs at h1 h2 ⊢ <;>
          first
          | rfl
          | exact ih bs cs h1 h2
          | exact absurd h1 Bool.false_ne_true
          | exact absurd h2 Bool.false_ne_true
          | (exfalso; omega)

theorem strListLeB_antisymm : ∀ x y : List Char,
    strListLeB x y = true → strListLeB y x = true → x = y := by
  intro x
  induction x with
  | nil =>
    intro y h1 h2
    cases y with
    | nil => rfl
    | cons b bs => exact absurd h2 (by simp [strListLeB])
  | cons a as ih =>
    intro y h1 h2
    cases y with
    | nil => exact absurd h1 (by simp [strListLeB])
    | cons b bs =>
      simp only [strListLeB] at h1 h2
      split_ifs at h1 h2 <;>
        first
        | exact absurd h1 Bool.false_ne_true
        | exact absurd h2 Bool.false_ne_true
        | (exfalso; omega)
        | (have hab : a = b := Char.ext (UInt32.ext (by omega))
           rw [hab, ih bs h1 h2])

instance : IsTotal String (fun a b => strLeB a b = true) :=
  ⟨fun a b => strListLeB_total a.data b.data⟩

instance : IsTrans String (fun a b => strLeB a b = true) :=
  ⟨fun a b c => strListLeB_trans a.data b.data c.data⟩

instance : IsAntisymm String (fun a b => strLeB a b = true) :=
  ⟨fun a b h1 h2 => String.ext (strListLeB_antisymm a.data b.data h1 h2)⟩

/-- Sorted ids (`vertexIDs` of the legacy walker sorts with
`sort.Strings`). -/
def sortIds (l : List String) : List String :=
  l.insertionSort (fun a b => strLeB a b = true)

theorem sortIds_perm (l : List String) : (sortIds l).Perm l :=
  List.perm_insertionSort _ l

/-- The FIFO loop shared by `OrderedWalk` (src/unnamed/part_001) and
`GenericOrderedWalk` (generic_visitor.go): pop the front id; skip it if
visited; re-enqueue it at the back when some parent is unvisited;
otherwise mark it visited, record the visit and enqueue the
walker-specific child list `chl` of the now-visited vertex. `fuel`
bounds the iterations of the source's unbounded loop; `none` means the
fuel ran out before the queue emptied. -/
def orderedWalkAux (hash : V → K) (g : GenericDAG K V)
    (chl : List String → String → List String) :
    Nat → List String → List String → List String → Option (List String)
  | 0, q, _, out => if q = [] then some out.reverse else none
  | _ + 1, [], _, out => some out.reverse
  | fuel + 1, id :: rest, vis, out =>
    if id ∈ vis then orderedWalkAux hash g chl fuel rest vis out
    else if (parentIds hash g id).any (fun p => decide (p ∉ vis)) then
      orderedWalkAux hash g chl fuel (rest ++ [id]) vis out
    else
      orderedWalkAux hash g chl fuel (rest ++ chl (id :: vis) id) (id :: vis) (id :: out)

/-- Total child-list length over all vertices: what the visits can ever
enqueue. -/
def sumChildren (hash : V → K) (g : GenericDAG K V) : Nat :=
  ((idsOf g).map (fun v => (childIds hash g v).length)).sum

/-- Upper bound on the queue length throughout a walk. -/
def walkQBound (hash : V → K) (g : GenericDAG K V) : Nat :=
  (rootIds g).length + sumChildren hash g

/-- Fuel sufficient for the walk to drain its queue, proved below. -/
def walkFuel (hash : V → K) (g : GenericDAG K V) : Nat :=
  ((idsOf g).length + 1) * (walkQBound hash g + 1) + 1

/-- `GenericOrderedWalk` (generic_visitor.go): seed the FIFO with the
root ids in Go's unspecified map-iteration order (the parameter `ord`),
then run the loop, enqueueing on each visit the vertex's unvisited
children, again in map order. The returned value is the visit sequence;
the visitor also receives each vertex's value. -/
def GenericOrderedWalk (hash : V → K) (g : GenericDAG K V)
    (ord : List String → List String) : Option (List String) :=
  orderedWalkAux hash g
    (fun vis id => (ord (childIds hash g id)).filter (fun c => decide (c ∉ vis)))
    (walkFuel hash g) (ord (rootIds g)) [] []

/-- Modelled from the spec: the legacy `OrderedWalk` of
src/unnamed/part_001 — seed the FIFO with the root ids sorted by id and
enqueue on each visit all the children sorted by id; its graph
accessors (`getRoots`, `GetParents`, `getChildren` of the legacy dag.go
absent from src/) are modelled by the generic embedding's accessors,
which the spec describes as behaving identically. -/
def OrderedWalk (hash : V → K) (g : GenericDAG K V) : Option (List String) :=
  orderedWalkAux hash g (fun _ id => sortIds (childIds hash g id))
    (walkFuel hash g) (sortIds (rootIds g)) [] []

/-- A queue element is ready when it is unvisited and all its parents
are visited. -/
def readyB (hash : V → K) (g : GenericDAG K V) (vis : List String) (u : String) : Bool :=
  decide (u ∉ vis) && (parentIds hash g u).all (fun p => decide (p ∈ vis))

/-- The recorded visit order respects parenthood: each entry's parents
all appear later in the (reversed) record. -/
def OrdOut (hash : V → K) (g : GenericDAG K V) : List String → Prop
  | [] => True
  | x :: rest => (∀ p ∈ parentIds hash g x, p ∈ rest) ∧ OrdOut hash g rest

theorem findIdx_append_left {α : Type} (p : α → Bool) (l1 l2 : List α)
    (h : ∃ x ∈ l1, p x = true) : List.findIdx p (l1 ++ l2) = List.findIdx p l1 := by
  induction l1 with
  | nil =>
    obtain ⟨x, hx, _⟩ := h
    exact absurd hx (List.not_mem_nil x)
  | cons a l ih =>
    rw [List.cons_append, List.findIdx_cons, List.findIdx_cons]
    cases hpa : p a with
    | true => rfl
    | false =>
      obtain ⟨x, hx, hpx⟩ := h
      rcases List.mem_cons.mp hx with rfl | hx'
      · rw [hpa] at hpx; exact absurd hpx (by simp)
      · rw [ih ⟨x, hx', hpx⟩]

theorem sum_map_one {α : Type} (l : List α) : (l.map (fun _ => 1)).sum = l.length := by
  induction l with
  | nil => rfl
  | cons a l ih => simp [ih, Nat.add_comm]

theorem sum_filter_erase {vis : List String} {l : List String} (f : String → Nat) :
    ∀ (hnd : l.Nodup) {id : String}, id ∈ l → id ∉ vis →
      ((l.filter (fun v => decide (v ∉ id :: vis))).map f).sum + f id =
        ((l.filter (fun v => decide (v ∉ vis))).map f).sum := by
  induction l with
  | nil => intro _ id h; exact absurd h (List.not_mem_nil id)
  | cons x xs ih =>
    intro hnd id hmem hvis
    rcases List.mem_cons.mp hmem with rfl | hmem'
    · have hxnotin : id ∉ xs := (List.nodup_cons.mp hnd).1
      have hfilt : xs.filter (fun v => decide (v ∉ id :: vis)) =
          xs.filter (fun v => decide (v ∉ vis)) := by
        apply List.filter_congr
        intro v hv
        have hvne : v ≠ id := fun hh => hxnotin (hh ▸ hv)
        simp only [decide_eq_decide]
        constructor
        · intro h hmem2
          exact h (List.mem_cons_of_mem _ hmem2)
        · intro h hmem2
          rcases List.mem_cons.mp hmem2 with hh | hh
          · exact hvne hh
          · exact h hh
      rw [List.filter_cons, List.filter_cons,
        decide_eq_false (not_not_intro (List.mem_cons_self id vis)),
        decide_eq_true hvis]
      show (List.map f (List.filter (fun v => decide (v ∉ id :: vis)) xs)).sum + f id =
        (List.map f (id :: List.filter (fun v => decide (v ∉ vis)) xs)).sum
      rw [hfilt, List.map_cons, List.sum_cons]
      omega
    · have hnd2 := (List.nodup_cons.mp hnd).2
      have hidne : x ≠ id := by
        rintro rfl
        exact (List.nodup_cons.mp hnd).1 hmem'
      have hsame : (x ∉ (id :: vis)) ↔ (x ∉ vis) := by
        constructor
        · intro h hmem2
          exact h (List.mem_cons_of_mem _ hmem2)
        · intro h hmem2
          rcases List.mem_cons.mp hmem2 with hh | hh
          · exact hidne hh
          · exact h hh
      by_cases hxv : x ∉ vis
      · rw [List.filter_cons, List.filter_cons,
          decide_eq_true (hsame.mpr hxv), decide_eq_true hxv]
        show (List.map f (x :: List.filter (fun v => decide (v ∉ id :: vis)) xs)).sum + f id =
          (List.map f (x :: List.filter (fun v => decide (v ∉ vis)) xs)).sum
        rw [List.map_cons, List.sum_cons, List.map_cons, List.sum_cons,
          Nat.add_assoc, ih hnd2 hmem' hvis]
      · rw [List.filter_cons, List.filter_cons,
          decide_eq_false (fun h => hxv (hsame.mp h)), decide_eq_false hxv]
        show (List.map f (List.filter (fun v => decide (v ∉ id :: vis)) xs)).sum + f id =
          (List.map f (List.filter (fun v => decide (v ∉ vis)) xs)).sum
        exact ih hnd2 hmem' hvis

theorem hgt_le_of_ipath {hash : V → K} {g : GenericDAG K V} (hio : IdsOK hash g)
    (hidx : HashIndex hash g) (hlive : EdgesLive g) (hacy : Acyclic g)
    {vis : List String} {l : List String} {u v : String}
    (hu : u ∈ idsOf g) (hpath : IPathVis hash g vis u l v) :
    hgt hash g u ≤ hgt hash g v := by
  have hkey := ipathVis_reachN hio hidx hlive hu hpath
  obtain ⟨ku, hku⟩ := mem_idsOf.mp hu
  obtain ⟨vu, hvu, hkvu, _, _⟩ := live_id hio hidx hku
  have hkeyu : keyOf hash g u = ku := by rw [keyOf_eq hvu, hkvu]
  have hP0 : ∃ kk ∈ g.vertices.map Prod.fst, ReachN g 0 kk (keyOf hash g u) :=
    ⟨keyOf hash g u, by rw [hkeyu]; exact List.mem_map_of_mem Prod.fst hku, rfl⟩
  obtain ⟨kk, hkkm, hpathk⟩ :=
    Nat.findGreatest_spec
      (P := fun n => ∃ kk ∈ g.vertices.map Prod.fst, ReachN g n kk (keyOf hash g u))
      (Nat.zero_le _) hP0
  have hext : ReachN g (hgt hash g u + l.length) kk (keyOf hash g v) :=
    reachN_trans hpathk hkey
  have hbound : hgt hash g u + l.length ≤ g.vertices.length := by
    have := heightLt_of_acyclic hacy hlive kk (hgt hash g u + l.length)
      (keyOf hash g v) hext
    omega
  have h2 : hgt hash g u + l.length ≤ hgt hash g v := Nat.le_findGreatest
    (P := fun n => ∃ kk ∈ g.vertices.map Prod.fst, ReachN g n kk (keyOf hash g v))
    hbound ⟨kk, hkkm, hext⟩
  omega

theorem ready_exists {hash : V → K} {g : GenericDAG K V} (hio : IdsOK hash g)
    (hidx : HashIndex hash g) (hsymm : Symm g) (hlive : EdgesLive g) (hacy : Acyclic g)
    {vis q : List String} (hq1 : ∀ u ∈ q, u ∈ idsOf g)
    (hW7 : ∀ v ∈ idsOf g, v ∉ vis → ∃ u ∈ q, u ∉ vis ∧ ∃ l, IPathVis hash g vis u l v) :
    ∀ (N : Nat) (u : String), u ∈ q → u ∉ vis → hgt hash g u ≤ N →
      ∃ m ∈ q, m ∉ vis ∧ ∀ p ∈ parentIds hash g m, p ∈ vis := by
  intro N
  induction N with
  | zero =>
    intro u hu huv hN
    by_cases hall : ∀ p ∈ parentIds hash g u, p ∈ vis
    · exact ⟨u, hu, huv, hall⟩
    · exfalso
      push_neg at hall
      obtain ⟨p, hp, hpv⟩ := hall
      have := hgt_parent_lt hio hidx hsymm hlive hacy (hq1 u hu) hp
      omega
  | succ N ih =>
    intro u hu huv hN
    by_cases hall : ∀ p ∈ parentIds hash g u, p ∈ vis
    · exact ⟨u, hu, huv, hall⟩
    · push_neg at hall
      obtain ⟨p, hp, hpv⟩ := hall
      have hpids := parentIds_live hio hidx hsymm hlive (hq1 u hu) hp
      obtain ⟨u', hu'q, hu'v, l, hpath⟩ := hW7 p hpids hpv
      have h1 := hgt_le_of_ipath hio hidx hlive hacy (hq1 u' hu'q) hpath
      have h2 := hgt_parent_lt hio hidx hsymm hlive hacy (hq1 u hu) hp
      exact ih u' hu'q hu'v (by omega)

theorem walk_master {hash : V → K} {g : GenericDAG K V} (hio : IdsOK hash g)
    (hidx : HashIndex hash g) (hsymm : Symm g) (hlive : EdgesLive g) (hacy : Acyclic g)
    (chl : List String → String → List String)
    (hc1 : ∀ vis id c, c ∈ chl vis id → c ∈ childIds hash g id)
    (hc2 : ∀ vis id c, c ∈ childIds hash g id → c ∉ vis → c ∈ chl vis id)
    (hc3 : ∀ vis id, (chl vis id).length ≤ (childIds hash g id).length) :
    ∀ (fuel : Nat) (q vis out : List String),
      (∀ u ∈ q, u ∈ idsOf g) →
      (∀ x ∈ vis, x ∈ idsOf g) →
      (∀ x, x ∈ out ↔ x ∈ vis) →
      out.Nodup →
      OrdOut hash g out →
      (∀ v ∈ idsOf g, v ∉ vis → ∃ u ∈ q, u ∉ vis ∧ ∃ l, IPathVis hash g vis u l v) →
      q.length + (((idsOf g).filter (fun v => decide (v ∉ vis))).map
        (fun v => (childIds hash g v).length)).sum ≤ walkQBound hash g →
      ((idsOf g).filter (fun v => decide (v ∉ vis))).length * (walkQBound hash g + 1) +
        List.findIdx (readyB hash g vis) q < fuel →
      ∃ s, orderedWalkAux hash g chl fuel q vis out = some s ∧
        s.Nodup ∧ (∀ x, x ∈ s ↔ x ∈ idsOf g) ∧ OrdOut hash g s.reverse := by
  intro fuel
  induction fuel with
  | zero =>
    intro q vis out _ _ _ _ _ _ _ hfuel
    exact absurd hfuel (Nat.not_lt_zero _)
  | succ fuel ih =>
    intro q vis out hW1 hW2 hW4 hW5 hW6 hW7 hW8 hfuel
    cases q with
    | nil =>
      refine ⟨out.reverse, rfl, List.nodup_reverse.mpr hW5, ?_, ?_⟩
      · intro x
        rw [List.mem_reverse, hW4 x]
        constructor
        · intro h
          exact hW2 x h
        · intro h
          by_contra hx
          obtain ⟨u, hu, _⟩ := hW7 x h hx
          exact absurd hu (List.not_mem_nil u)
      · rw [List.reverse_reverse]
        exact hW6
    | cons id rest =>
      by_cases hidv : id ∈ vis
      · -- skip a visited front
        have hstep : orderedWalkAux hash g chl (fuel + 1) (id :: rest) vis out =
            if id ∈ vis then orderedWalkAux hash g chl fuel rest vis out
            else if ((parentIds hash g id).any fun p => decide (p ∉ vis)) = true then
              orderedWalkAux hash g chl fuel (rest ++ [id]) vis out
            else orderedWalkAux hash g chl fuel (rest ++ chl (id :: vis) id)
              (id :: vis) (id :: out) := rfl
        have hred : orderedWalkAux hash g chl (fuel + 1) (id :: rest) vis out =
            orderedWalkAux hash g chl fuel rest vis out := by
          rw [hstep, if_pos hidv]
        rw [hred]
        have hrb : readyB hash g vis id = false := by
          unfold readyB
          rw [decide_eq_false (not_not_intro hidv)]
          rfl
        have hidxstep : List.findIdx (readyB hash g vis) (id :: rest) =
            List.findIdx (readyB hash g vis) rest + 1 := by
          rw [List.findIdx_cons, hrb]
          rfl
        refine ih rest vis out (fun u hu => hW1 u (List.mem_cons_of_mem _ hu))
          hW2 hW4 hW5 hW6 ?_ ?_ ?_
        · intro v hv hvv
          obtain ⟨u, hu, huv, hl⟩ := hW7 v hv hvv
          rcases List.mem_cons.mp hu with rfl | hu'
          · exact absurd hidv huv
          · exact ⟨u, hu', huv, hl⟩
        · have h1 := hW8
          rw [List.length_cons] at h1
          omega
        · rw [hidxstep] at hfuel
          omega
      · by_cases hup : (parentIds hash g id).any (fun p => decide (p ∉ vis)) = true
        · -- re-enqueue: some parent is unvisited
          have hstep : orderedWalkAux hash g chl (fuel + 1) (id :: rest) vis out =
              if id ∈ vis then orderedWalkAux hash g chl fuel rest vis out
              else if ((parentIds hash g id).any fun p => decide (p ∉ vis)) = true then
                orderedWalkAux hash g chl fuel (rest ++ [id]) vis out
              else orderedWalkAux hash g chl fuel (rest ++ chl (id :: vis) id)
                (id :: vis) (id :: out) := rfl
          have hred : orderedWalkAux hash g chl (fuel + 1) (id :: rest) vis out =
              orderedWalkAux hash g chl fuel (rest ++ [id]) vis out := by
            rw [hstep, if_neg hidv, if_pos hup]
          rw [hred]
          have hrb : readyB hash g vis id = false := by
            unfold readyB
            obtain ⟨p, hp, hpd⟩ := List.any_eq_true.mp hup
            have hpv : p ∉ vis := of_decide_eq_true hpd
            have : (parentIds hash g id).all (fun p => decide (p ∈ vis)) = false := by
              rw [Bool.eq_false_iff]
              intro hall
              exact hpv (of_decide_eq_true (List.all_eq_true.mp hall p hp))
            rw [this, Bool.and_false]
          -- a ready element exists and is not the front
          obtain ⟨m, hmq, hmv, hmall⟩ :=
            ready_exists hio hidx hsymm hlive hacy hW1 hW7 (hgt hash g id) id
              (List.mem_cons_self _ _) hidv (Nat.le_refl _)
          have hmrb : readyB hash g vis m = true := by
            unfold readyB
            rw [Bool.and_eq_true]
            exact ⟨decide_eq_true hmv,
              List.all_eq_true.mpr (fun p hp => decide_eq_true (hmall p hp))⟩
          have hmrest : m ∈ rest := by
            rcases List.mem_cons.mp hmq with rfl | h
            · rw [hmrb] at hrb; exact absurd hrb (by simp)
            · exact h
          have hidxold : List.findIdx (readyB hash g vis) (id :: rest) =
              List.findIdx (readyB hash g vis) rest + 1 := by
            rw [List.findIdx_cons, hrb]
            rfl
          have hidxnew : List.findIdx (readyB hash g vis) (rest ++ [id]) =
              List.findIdx (readyB hash g vis) rest :=
            findIdx_append_left _ rest [id] ⟨m, hmrest, hmrb⟩
          refine ih (rest ++ [id]) vis out ?_ hW2 hW4 hW5 hW6 ?_ ?_ ?_
          · intro u hu
            rcases List.mem_append.mp hu with h | h
            · exact hW1 u (List.mem_cons_of_mem _ h)
            · rcases List.mem_singleton.mp h with rfl
              exact hW1 u (List.mem_cons_self _ _)
          · intro v hv hvv
            obtain ⟨u, hu, huv, hl⟩ := hW7 v hv hvv
            rcases List.mem_cons.mp hu with rfl | hu'
            · exact ⟨u, List.mem_append_right _ (List.mem_singleton_self u), huv, hl⟩
            · exact ⟨u, List.mem_append_left _ hu', huv, hl⟩
          · have h1 : (rest ++ [id]).length = (id :: rest).length := by simp
            rw [h1]
            exact hW8
          · rw [hidxnew]
            rw [hidxold] at hfuel
            omega
        · -- visit: all parents are visited
          have hstep : orderedWalkAux hash g chl (fuel + 1) (id :: rest) vis out =
              if id ∈ vis then orderedWalkAux hash g chl fuel rest vis out
              else if ((parentIds hash g id).any fun p => decide (p ∉ vis)) = true then
                orderedWalkAux hash g chl fuel (rest ++ [id]) vis out
              else orderedWalkAux hash g chl fuel (rest ++ chl (id :: vis) id)
                (id :: vis) (id :: out) := rfl
          have hred : orderedWalkAux hash g chl (fuel + 1) (id :: rest) vis out =
              orderedWalkAux hash g chl fuel (rest ++ chl (id :: vis) id)
                (id :: vis) (id :: out) := by
            rw [hstep, if_neg hidv, if_neg hup]
          rw [hred]
          have hall : ∀ p ∈ parentIds hash g id, p ∈ vis := by
            intro p hp
            by_contra hpv
            exact hup (List.any_eq_true.mpr ⟨p, hp, decide_eq_true hpv⟩)
          have hidids : id ∈ idsOf g := hW1 id (List.mem_cons_self _ _)
          have hidout : id ∉ out := fun h => hidv ((hW4 id).mp h)
          -- the unvisited count strictly drops
          have hcount :
              (((idsOf g).filter (fun v => decide (v ∉ id :: vis))).map
                (fun _ => 1)).sum + 1 =
              (((idsOf g).filter (fun v => decide (v ∉ vis))).map (fun _ => 1)).sum :=
            sum_filter_erase (fun _ => 1) hio.2.2.1 hidids hidv
          rw [sum_map_one, sum_map_one] at hcount
          -- the enqueue budget absorbs the new children
          have hbudget :
              (((idsOf g).filter (fun v => decide (v ∉ id :: vis))).map
                (fun v => (childIds hash g v).length)).sum +
                (childIds hash g id).length =
              (((idsOf g).filter (fun v => decide (v ∉ vis))).map
                (fun v => (childIds hash g v).length)).sum :=
            sum_filter_erase (fun v => (childIds hash g v).length) hio.2.2.1 hidids hidv
          have hW8' : (rest ++ chl (id :: vis) id).length +
              (((idsOf g).filter (fun v => decide (v ∉ id :: vis))).map
                (fun v => (childIds hash g v).length)).sum ≤ walkQBound hash g := by
            have hc := hc3 (id :: vis) id
            have h1 := hW8
            rw [List.length_cons] at h1
            rw [List.length_append]
            omega
          refine ih (rest ++ chl (id :: vis) id) (id :: vis) (id :: out) ?_ ?_ ?_ ?_ ?_ ?_ hW8' ?_
          · intro u hu
            rcases List.mem_append.mp hu with h | h
            · exact hW1 u (List.mem_cons_of_mem _ h)
            · exact childIds_live hio hidx hlive hidids (hc1 _ _ _ h)
          · intro x hx
            rcases List.mem_cons.mp hx with rfl | h
            · exact hidids
            · exact hW2 x h
          · intro x
            rw [List.mem_cons, List.mem_cons, hW4 x]
          · exact List.nodup_cons.mpr ⟨hidout, hW5⟩
          · exact ⟨fun p hp => (hW4 p).mpr (hall p hp), hW6⟩
          · intro v hv hvv
            have hvne : v ≠ id := fun hh => hvv (List.mem_cons.mpr (Or.inl hh))
            have hv2 : v ∉ vis := fun hh => hvv (List.mem_cons_of_mem _ hh)
            obtain ⟨u, hu, huv, l, hpath⟩ := hW7 v hv hv2
            by_cases hidin : id ∈ u :: l
            · obtain ⟨c, l2, hc, hcv, hpath2, hnotin⟩ :=
                ipathVis_split hpath hidin (fun hh => hvne hh.symm)
            -- the split successor is an unvisited child of the visited vertex
              have hcne : c ≠ id := fun hh =>
                hnotin (List.mem_cons.mpr (Or.inl hh.symm))
              have hcnv : c ∉ id :: vis := by
                intro hh
                rcases List.mem_cons.mp hh with hh' | hh'
                · exact hcne hh'
                · exact hcv hh'
              refine ⟨c, List.mem_append_right _ (hc2 _ _ _ hc hcnv), hcnv, l2, ?_⟩
              exact ipathVis_mono hpath2
                (fun hh => hnotin (List.mem_cons_of_mem _ hh))
            · have hune : u ≠ id := fun hh =>
                hidin (List.mem_cons.mpr (Or.inl hh.symm))
              have hurest : u ∈ rest := by
                rcases List.mem_cons.mp hu with rfl | h
                · exact absurd rfl hune
                · exact h
              have hunv : u ∉ id :: vis := by
                intro hh
                rcases List.mem_cons.mp hh with hh' | hh'
                · exact hune hh'
                · exact huv hh'
              refine ⟨u, List.mem_append_left _ hurest, hunv, l, ?_⟩
              exact ipathVis_mono hpath
                (fun hh => hidin (List.mem_cons_of_mem _ hh))
          · -- the measure drops: one fewer unvisited vertex dominates
            set Q1 := walkQBound hash g + 1 with hQ1
            set Unew := ((idsOf g).filter (fun v => decide (v ∉ id :: vis))).length
              with hUnew
            set Uold := ((idsOf g).filter (fun v => decide (v ∉ vis))).length with hUold
            have hidxle : List.findIdx (readyB hash g (id :: vis))
                (rest ++ chl (id :: vis) id) ≤ (rest ++ chl (id :: vis) id).length :=
              List.findIdx_le_length _
            have hqle : (rest ++ chl (id :: vis) id).length ≤ walkQBound hash g := by
              have := hW8'
              omega
            have hnew : Unew * Q1 + List.findIdx (readyB hash g (id :: vis))
                (rest ++ chl (id :: vis) id) < Uold * Q1 := by
              have h1 : Uold * Q1 = Unew * Q1 + Q1 := by
                rw [show Uold = Unew + 1 from by omega, Nat.succ_mul]
              rw [h1]
              have : Q1 = walkQBound hash g + 1 := hQ1
              omega
            have hold : Uold * Q1 ≤ fuel := by
              have := hfuel
              omega
            omega

theorem ordOut_parent_mem {hash : V → K} {g : GenericDAG K V} :
    ∀ {out : List String}, OrdOut hash g out →
      ∀ {a b : String}, b ∈ out → a ∈ parentIds hash g b → a ∈ out := by
  intro out
  induction out with
  | nil => intro _ a b hb _; exact absurd hb (List.not_mem_nil b)
  | cons x rest ih =>
    intro h a b hb hab
    obtain ⟨hx, hrest⟩ := h
    rcases List.mem_cons.mp hb with rfl | hb'
    · exact List.mem_cons_of_mem _ (hx a hab)
    · exact List.mem_cons_of_mem _ (ih hrest hb' hab)

theorem ordOut_before {hash : V → K} {g : GenericDAG K V} :
    ∀ {out : List String}, OrdOut hash g out → out.Nodup →
      ∀ {a b : String}, b ∈ out → a ∈ parentIds hash g b →
        out.reverse.indexOf a < out.reverse.indexOf b := by
  intro out
  induction out with
  | nil => intro _ _ a b hb _; exact absurd hb (List.not_mem_nil b)
  | cons x rest ih =>
    intro h hnd a b hb hab
    obtain ⟨hx, hrest⟩ := h
    obtain ⟨hxr, hndr⟩ := List.nodup_cons.mp hnd
    rw [List.reverse_cons]
    rcases List.mem_cons.mp hb with rfl | hb'
    · have har : a ∈ rest.reverse := List.mem_reverse.mpr (hx a hab)
      have hbnr : b ∉ rest.reverse := fun hh => hxr (List.mem_reverse.mp hh)
      rw [List.indexOf_append_of_mem har, List.indexOf_append_of_not_mem hbnr]
      have h1 : rest.reverse.indexOf a < rest.reverse.length :=
        List.indexOf_lt_length.mpr har
      have h2 : List.indexOf b [b] = 0 := by simp
      omega
    · have hbr : b ∈ rest.reverse := List.mem_reverse.mpr hb'
      have har : a ∈ rest.reverse :=
        List.mem_reverse.mpr (ordOut_parent_mem hrest hb' hab)
      rw [List.indexOf_append_of_mem har, List.indexOf_append_of_mem hbr]
      exact ih hrest hndr hb' hab

theorem live_of_childIds_ne {hash : V → K} {g : GenericDAG K V}
    (hidx : HashIndex hash g) {a b : String} (h : b ∈ childIds hash g a) :
    a ∈ idsOf g := by
  cases hs : saneID g a with
  | some e =>
    rw [childIds_dead (by rw [hs]; simp)] at h
    exact absurd h (List.not_mem_nil b)
  | none =>
    have hl := saneID_none_lookup hs
    have := hidx a _ hl
    exact mem_idsOf.mpr ⟨_, lookupA_mem this⟩

theorem walk_spec {hash : V → K} {g : GenericDAG K V} (hio : IdsOK hash g)
    (hidx : HashIndex hash g) (hsymm : Symm g) (hlive : EdgesLive g) (hacy : Acyclic g)
    (chl : List String → String → List String)
    (hc1 : ∀ vis id c, c ∈ chl vis id → c ∈ childIds hash g id)
    (hc2 : ∀ vis id c, c ∈ childIds hash g id → c ∉ vis → c ∈ chl vis id)
    (hc3 : ∀ vis id, (chl vis id).length ≤ (childIds hash g id).length)
    (q0 : List String) (hq0 : q0.Perm (rootIds g)) :
    ∃ s, orderedWalkAux hash g chl (walkFuel hash g) q0 [] [] = some s ∧
      s.Nodup ∧ (∀ x, x ∈ s ↔ x ∈ idsOf g) ∧ OrdOut hash g s.reverse := by
  have hfilter : (idsOf g).filter (fun v => decide (v ∉ ([] : List String))) = idsOf g :=
    List.filter_eq_self.mpr (fun a _ => by simp)
  apply walk_master hio hidx hsymm hlive hacy chl hc1 hc2 hc3 (walkFuel hash g) q0 [] []
  · intro u hu
    exact rootIds_live ((hq0.mem_iff).mp hu)
  · intro x hx
    exact absurd hx (List.not_mem_nil x)
  · exact fun x => Iff.rfl
  · exact List.nodup_nil
  · trivial
  · intro v hv _
    obtain ⟨r, hr, l, hl⟩ :=
      exists_root_ipath hio hidx hsymm hlive hacy (hgt hash g v) v hv (Nat.le_refl _)
    exact ⟨r, (hq0.mem_iff).mpr hr, List.not_mem_nil r, l, hl⟩
  · rw [hfilter]
    have hlen := hq0.length_eq
    unfold walkQBound sumChildren
    omega
  · rw [hfilter]
    have hlen := hq0.length_eq
    have hfi : List.findIdx (readyB hash g []) q0 ≤ q0.length :=
      List.findIdx_le_length _
    have hq : q0.length ≤ walkQBound hash g := by
      unfold walkQBound
      omega
    have hmul : ((idsOf g).length + 1) * (walkQBound hash g + 1) =
        (idsOf g).length * (walkQBound hash g + 1) + (walkQBound hash g + 1) :=
      Nat.succ_mul _ _
    unfold walkFuel
    omega

theorem genericOrderedWalk_spec {hash : V → K} {g : GenericDAG K V} (hio : IdsOK hash g)
    (hidx : HashIndex hash g) (hsymm : Symm g) (hlive : EdgesLive g) (hacy : Acyclic g)
    (ord : List String → List String) (hord : ∀ l, (ord l).Perm l) :
    ∃ s, GenericOrderedWalk hash g ord = some s ∧
      s.Nodup ∧ (∀ x, x ∈ s ↔ x ∈ idsOf g) ∧ OrdOut hash g s.reverse := by
  unfold GenericOrderedWalk
  refine walk_spec hio hidx hsymm hlive hacy _ ?_ ?_ ?_ _ (hord (rootIds g))
  · intro vis id c hc
    exact ((hord (childIds hash g id)).mem_iff).mp (List.mem_of_mem_filter hc)
  · intro vis id c hcc hcv
    exact List.mem_filter.mpr ⟨((hord _).mem_iff).mpr hcc, decide_eq_true hcv⟩
  · intro vis id
    calc ((ord (childIds hash g id)).filter _).length
        ≤ (ord (childIds hash g id)).length := List.length_filter_le _ _
      _ = (childIds hash g id).length := (hord _).length_eq

theorem orderedWalk_spec {hash : V → K} {g : GenericDAG K V} (hio : IdsOK hash g)
    (hidx : HashIndex hash g) (hsymm : Symm g) (hlive : EdgesLive g) (hacy : Acyclic g) :
    ∃ s, OrderedWalk hash g = some s ∧
      s.Nodup ∧ (∀ x, x ∈ s ↔ x ∈ idsOf g) ∧ OrdOut hash g s.reverse := by
  unfold OrderedWalk
  refine walk_spec hio hidx hsymm hlive hacy _ ?_ ?_ ?_ _ (sortIds_perm (rootIds g))
  · intro vis id c hc
    exact ((sortIds_perm (childIds hash g id)).mem_iff).mp hc
  · intro vis id c hcc _
    exact ((sortIds_perm (childIds hash g id)).mem_iff).mpr hcc
  · intro vis id
    exact Nat.le_of_eq (sortIds_perm (childIds hash g id)).length_eq

theorem walk_edge_order {hash : V → K} {g : GenericDAG K V} (hio : IdsOK hash g)
    (hidx : HashIndex hash g) (hsymm : Symm g) (hlive : EdgesLive g)
    {s : List String} (hnd : s.Nodup) (hcom : ∀ x, x ∈ s ↔ x ∈ idsOf g)
    (hord : OrdOut hash g s.reverse) {a b : String} (hb : b ∈ childIds hash g a) :
    s.indexOf a < s.indexOf b := by
  have ha : a ∈ idsOf g := live_of_childIds_ne hidx hb
  have hbl : b ∈ idsOf g := childIds_live hio hidx hlive ha hb
  have hpar : a ∈ parentIds hash g b :=
    (child_parent_duality hio hidx hsymm hlive ha hbl).mp hb
  have hbrev : b ∈ s.reverse := List.mem_reverse.mpr ((hcom b).mpr hbl)
  have := ordOut_before hord (List.nodup_reverse.mpr hnd) hbrev hpar
  rwa [List.reverse_reverse] at this

theorem inv_triangle3 : INV idHash triangle3 :=
  inv_runMutOps idHash
    [.addVertexByID "1" "1", .addVertexByID "2" "2", .addVertexByID "3" "3",
     .addEdge "1" "2", .addEdge "2" "3", .addEdge "1" "3"]
    (NewGenericDAG String String) (inv_new idHash)

theorem idsOK_triangle3 : IdsOK idHash triangle3 := by
  refine ⟨?_, by decide, by decide, by decide⟩
  have hd : ∀ kv ∈ triangle3.vertices,
      (lookupA triangle3.vertexValues kv.2).map idHash = some kv.1 := by decide
  intro kv hkv
  have h := hd kv hkv
  cases hl : lookupA triangle3.vertexValues kv.2 with
  | none => rw [hl] at h; exact absurd h (by simp)
  | some v =>
    rw [hl] at h
    exact ⟨v, rfl, by injection h⟩

/-- C5: on a well-formed acyclic graph, the topological walk — both
`GenericOrderedWalk` (for any map-iteration order) and the legacy
`OrderedWalk` — terminates with a visit sequence that contains every
vertex exactly once, and for every edge a→b the vertex a is visited
strictly before b. -/
theorem C5_ordered_walk (hash : V → K) (g : GenericDAG K V)
    (hio : IdsOK hash g) (hidx : HashIndex hash g) (hsymm : Symm g)
    (hlive : EdgesLive g) (hacy : Acyclic g)
    (ord : List String → List String) (hord : ∀ l, (ord l).Perm l) :
    (∃ s, GenericOrderedWalk hash g ord = some s ∧ s.Nodup ∧
      (∀ x, x ∈ s ↔ x ∈ idsOf g) ∧
      ∀ a b, b ∈ childIds hash g a → s.indexOf a < s.indexOf b) ∧
    (∃ s, OrderedWalk hash g = some s ∧ s.Nodup ∧
      (∀ x, x ∈ s ↔ x ∈ idsOf g) ∧
      ∀ a b, b ∈ childIds hash g a → s.indexOf a < s.indexOf b) := by
  constructor
  · obtain ⟨s, he, hnd, hcom, ho⟩ :=
      genericOrderedWalk_spec hio hidx hsymm hlive hacy ord hord
    exact ⟨s, he, hnd, hcom,
      fun a b hb => walk_edge_order hio hidx hsymm hlive hnd hcom ho hb⟩
  · obtain ⟨s, he, hnd, hcom, ho⟩ := orderedWalk_spec hio hidx hsymm hlive hacy
    exact ⟨s, he, hnd, hcom,
      fun a b hb => walk_edge_order hio hidx hsymm hlive hnd hcom ho hb⟩

theorem C5_ordered_walk_witness :
    ∃ s, GenericOrderedWalk idHash triangle3 (fun l => l) = some s ∧ s.Nodup ∧
      (∀ x, x ∈ s ↔ x ∈ idsOf triangle3) ∧
      ∀ a b, b ∈ childIds idHash triangle3 a → s.indexOf a < s.indexOf b :=
  (C5_ordered_walk idHash triangle3 idsOK_triangle3 inv_triangle3.2.2.2.2.1
    inv_triangle3.1 inv_triangle3.2.2.1 inv_triangle3.2.1
    (fun l => l) (fun l => List.Perm.refl l)).1

/-- C10: on a well-formed acyclic graph the topological walk
terminates: despite the re-enqueueing of dequeued vertices that still
have an unvisited parent, the queue always holds a ready vertex while
anything is unvisited, so the loop drains within the computed fuel for
both `GenericOrderedWalk` (any map order) and the legacy
`OrderedWalk`. -/
theorem C10_ordered_walk_terminates (hash : V → K) (g : GenericDAG K V)
    (hio : IdsOK hash g) (hidx : HashIndex hash g) (hsymm : Symm g)
    (hlive : EdgesLive g) (hacy : Acyclic g)
    (ord : List String → List String) (hord : ∀ l, (ord l).Perm l) :
    (GenericOrderedWalk hash g ord).isSome = true ∧
    (OrderedWalk hash g).isSome = true := by
  constructor
  · obtain ⟨s, he, _⟩ := genericOrderedWalk_spec hio hidx hsymm hlive hacy ord hord
    rw [he]
    rfl
  · obtain ⟨s, he, _⟩ := orderedWalk_spec hio hidx hsymm hlive hacy
    rw [he]
    rfl

theorem C10_ordered_walk_terminates_witness :
    (GenericOrderedWalk idHash triangle3 (fun l => l)).isSome = true ∧
    (OrderedWalk idHash triangle3).isSome = true :=
  C10_ordered_walk_terminates idHash triangle3 idsOK_triangle3
    inv_triangle3.2.2.2.2.1 inv_triangle3.1 inv_triangle3.2.2.1 inv_triangle3.2.1
    (fun l => l) (fun l => List.Perm.refl l)

/-! ## DFS walks (claim C6) -/

/-- The stack loop of `GenericDFSWalk` (generic_visitor.go): pop the
top id, visit it if unvisited, then push its children — enumerated in
map order (`ord`) — skipping already-visited ones, in reverse, so the
first enumerated child ends on top. -/
def genericDFSAux (hash : V → K) (g : GenericDAG K V)
    (ord : List String → List String) :
    Nat → List String → List String → List String → Option (List String)
  | 0, q, _, out => if q = [] then some out.reverse else none
  | _ + 1, [], _, out => some out.reverse
  | fuel + 1, id :: rest, vis, out =>
    if id ∈ vis then
      genericDFSAux hash g ord fuel
        ((ord (childIds hash g id)).filter (fun c => decide (c ∉ vis)) ++ rest) vis out
    else
      genericDFSAux hash g ord fuel
        ((ord (childIds hash g id)).filter (fun c => decide (c ∉ id :: vis)) ++ rest)
        (id :: vis) (id :: out)

/-- `GenericDFSWalk` (generic_visitor.go): seed the stack with the root
ids in map order (first enumerated on top, by pushing in reverse) and
run the loop. -/
def GenericDFSWalk (hash : V → K) (g : GenericDAG K V)
    (ord : List String → List String) : Option (List String) :=
  genericDFSAux hash g ord (walkFuel hash g) (ord (rootIds g)) [] []

/-- The stack loop of the legacy `DFSWalk` (src/unnamed/part_001): pop
the top id, visit it if unvisited, then push ALL its children (no
visited filter) sorted by id, in reverse, so the lowest id ends on
top. -/
def dfsAux (hash : V → K) (g : GenericDAG K V) (chl : String → List String) :
    Nat → List String → List String → List String → Option (List String)
  | 0, q, _, out => if q = [] then some out.reverse else none
  | _ + 1, [], _, out => some out.reverse
  | fuel + 1, id :: rest, vis, out =>
    if id ∈ vis then dfsAux hash g chl fuel (chl id ++ rest) vis out
    else dfsAux hash g chl fuel (chl id ++ rest) (id :: vis) (id :: out)

/-- Modelled from the spec: the legacy `DFSWalk` of
src/unnamed/part_001 — its walker loop is translated from that source
(roots and children pass through `reversedVertexIDs`, i.e. the sorted
map keys pushed in reverse so the lowest id is on top), while its graph
accessors (`getRoots`, `getChildren` of the legacy dag.go absent from
src/) are modelled by the generic embedding's accessors; the map
enumeration order is the parameter `ord`, which the sort cancels. -/
def DFSWalk (hash : V → K) (g : GenericDAG K V)
    (ord : List String → List String) : Option (List String) :=
  dfsAux hash g (fun id => sortIds (ord (childIds hash g id))) (walkFuel hash g)
    (sortIds (ord (rootIds g))) [] []

theorem sortIds_sorted (l : List String) :
    (sortIds l).Sorted (fun a b => strLeB a b = true) :=
  List.sorted_insertionSort _ l

theorem sortIds_eq_of_perm {l1 l2 : List String} (h : l1.Perm l2) :
    sortIds l1 = sortIds l2 :=
  List.eq_of_perm_of_sorted
    ((sortIds_perm l1).trans (h.trans (sortIds_perm l2).symm))
    (sortIds_sorted l1) (sortIds_sorted l2)

/-- Two roots inserted in the order b then a, with no edges. -/
def dfs2G : GenericDAG String String :=
  runMutOps idHash (NewGenericDAG String String)
    [.addVertexByID "b" "b", .addVertexByID "a" "a"]

/-- C6 counterexample: `GenericDFSWalk` does NOT sort — it consumes the
map keys in iteration order, so two runs of the same graph under two
legitimate map orders (identity and reversal are both permutations of
the key set) produce different visit sequences; the claimed
reverse-id-sorted pushing would have visited "a" first in both runs. -/
theorem C6_generic_dfs_order_dependent :
    (∀ l : List String, l.reverse.Perm l) ∧
    GenericDFSWalk idHash dfs2G (fun l => l) = some ["b", "a"] ∧
    GenericDFSWalk idHash dfs2G (fun l => l.reverse) = some ["a", "b"] ∧
    GenericDFSWalk idHash dfs2G (fun l => l) ≠
      GenericDFSWalk idHash dfs2G (fun l => l.reverse) :=
  ⟨fun l => List.reverse_perm l, by decide, by decide, by decide⟩

/-- C6 (amended): only the legacy `DFSWalk` sorts and is therefore
deterministic — its visit sequence is independent of the map iteration
order, because every root and child list is id-sorted before being
pushed in reverse (lowest id processed first); on the two-root graph
inserted in the order b, a it visits a first. `GenericDFSWalk`
enumerates keys unsorted and is deterministic only for a fixed map
order. -/
theorem C6_dfs_determinism (hash : V → K) (g : GenericDAG K V)
    (ord1 ord2 : List String → List String)
    (h1 : ∀ l, (ord1 l).Perm l) (h2 : ∀ l, (ord2 l).Perm l) :
    DFSWalk hash g ord1 = DFSWalk hash g ord2 ∧
    DFSWalk idHash dfs2G (fun l => l) = some ["a", "b"] := by
  constructor
  · unfold DFSWalk
    have hroot : sortIds (ord1 (rootIds g)) = sortIds (ord2 (rootIds g)) :=
      sortIds_eq_of_perm ((h1 _).trans (h2 _).symm)
    have hchl : (fun id => sortIds (ord1 (childIds hash g id))) =
        (fun id => sortIds (ord2 (childIds hash g id))) :=
      funext fun id => sortIds_eq_of_perm ((h1 _).trans (h2 _).symm)
    rw [hroot, hchl]
  · decide

theorem C6_dfs_determinism_witness :
    DFSWalk idHash dfs2G (fun l => l) = DFSWalk idHash dfs2G (fun l => l.reverse) ∧
    DFSWalk idHash dfs2G (fun l => l) = some ["a", "b"] :=
  C6_dfs_determinism idHash dfs2G (fun l => l) (fun l => l.reverse)
    (fun l => List.Perm.refl l) (fun l => List.reverse_perm l)

/-! ## Marshalling (claim C4) -/

/-- The DFS collection loop of `GenericDAG.MarshalJSON`
(generic_marshal.go): pop the top id; if unvisited, record the vertex;
then — UNCONDITIONALLY, also on a repeated pop of a visited id — emit
one edge per child (`AddEdges` sits outside the visited guard); finally
push the unvisited children. `ord` is Go's map-iteration order; the
wire format is modelled as the storable vertex/edge lists the JSON
codec round-trips faithfully. -/
def genericMarshalAux (hash : V → K) (g : GenericDAG K V)
    (ord : List String → List String) :
    Nat → List String → List String → List (String × V) →
      List (String × String) → Option (List (String × V) × List (String × String))
  | 0, q, _, vs, es => if q = [] then some (vs, es) else none
  | _ + 1, [], _, vs, es => some (vs, es)
  | fuel + 1, id :: rest, vis, vs, es =>
    let vis' := if id ∈ vis then vis else id :: vis
    let vs' := if id ∈ vis then vs
      else vs ++ [(id, (lookupA g.vertexValues id).getD default)]
    let ch := ord (childIds hash g id)
    genericMarshalAux hash g ord fuel
      (ch.filter (fun c => decide (c ∉ vis')) ++ rest) vis' vs'
      (es ++ ch.map (fun c => (id, c)))

/-- `GenericDAG.MarshalJSON` (generic_marshal.go). -/
def GenericMarshalJSON (hash : V → K) (g : GenericDAG K V)
    (ord : List String → List String) :
    Option (List (String × V) × List (String × String)) :=
  genericMarshalAux hash g ord (walkFuel hash g) (ord (rootIds g)) [] [] []

/-- Modelled from the spec: the legacy `DAG.MarshalJSON`
(src/unnamed/part_000) runs the legacy `DFSWalk` with `marshalVisitor`,
whose `Visit` — called only for unvisited pops — records the vertex and
emits its outgoing edges in map order; children are pushed sorted and
unconditionally, as in `DFSWalk`; the legacy graph accessors of the
absent dag.go are modelled by the generic embedding's accessors. -/
def legacyMarshalAux (hash : V → K) (g : GenericDAG K V)
    (ord : List String → List String) :
    Nat → List String → List String → List (String × V) →
      List (String × String) → Option (List (String × V) × List (String × String))
  | 0, q, _, vs, es => if q = [] then some (vs, es) else none
  | _ + 1, [], _, vs, es => some (vs, es)
  | fuel + 1, id :: rest, vis, vs, es =>
    if id ∈ vis then
      legacyMarshalAux hash g ord fuel
        (sortIds (ord (childIds hash g id)) ++ rest) vis vs es
    else
      legacyMarshalAux hash g ord fuel
        (sortIds (ord (childIds hash g id)) ++ rest) (id :: vis)
        (vs ++ [(id, (lookupA g.vertexValues id).getD default)])
        (es ++ (ord (childIds hash g id)).map (fun c => (id, c)))

/-- Modelled from the spec: the legacy `DAG.MarshalJSON` entry point. -/
def LegacyMarshalJSON (hash : V → K) (g : GenericDAG K V)
    (ord : List String → List String) :
    Option (List (String × V) × List (String × String)) :=
  legacyMarshalAux hash g ord (walkFuel hash g) (sortIds (ord (rootIds g))) [] [] []

/-- The vertex pass of `UnmarshalGenericJSON` (generic_marshal.go):
`AddVertexByID` for each stored vertex, aborting on the first error. -/
def addVerticesLoop (hash : V → K) :
    List (String × V) → GenericDAG K V → GenericDAG K V × Option (DagError K V)
  | [], g => (g, none)
  | (i, v) :: rest, g =>
    match AddVertexByID hash g i v with
    | (g', none) => addVerticesLoop hash rest g'
    | (g', some e) => (g', some e)

/-- The edge pass of `UnmarshalGenericJSON` (generic_marshal.go):
`AddEdge` for each stored edge, aborting on the first error. -/
def addEdgesLoop (hash : V → K) :
    List (String × String) → GenericDAG K V → GenericDAG K V × Option (DagError K V)
  | [], g => (g, none)
  | (s, d) :: rest, g =>
    match AddEdge hash (opFuel g) g s d with
    | (g', none) => addEdgesLoop hash rest g'
    | (g', some e) => (g', some e)

/-- `UnmarshalGenericJSON` (generic_marshal.go): decode the storable
structure, add all vertices, then all edges; any error aborts the
parse. -/
def UnmarshalGenericJSON (hash : V → K)
    (sd : List (String × V) × List (String × String)) :
    GenericDAG K V × Option (DagError K V) :=
  match addVerticesLoop hash sd.1 (NewGenericDAG K V) with
  | (g, none) => addEdgesLoop hash sd.2 g
  | (g, some e) => (g, some e)

/-- The diamond-with-tail graph B→E, B→D, E→D, D→F. -/
def c4G : GenericDAG String String :=
  runMutOps idHash (NewGenericDAG String String)
    [.addVertexByID "B" "B", .addVertexByID "D" "D", .addVertexByID "E" "E",
     .addVertexByID "F" "F", .addEdge "B" "E", .addEdge "B" "D",
     .addEdge "E" "D", .addEdge "D" "F"]

/-- C4: the roundtrip claim FAILS for the GenericDAG pair. On the
diamond-with-tail graph B→E, B→D, E→D, D→F (with identity map order),
`GenericDAG.MarshalJSON` pops D twice — once via B, once via E — and,
because `AddEdges` is called outside the `if !visited[id]` guard, emits
the edge D→F twice; `UnmarshalGenericJSON` then aborts with
`EdgeDuplicateError "D" "F"`, so parsing the emitted form does not
succeed. The legacy `DAG.MarshalJSON`, whose visitor emits a vertex's
edges only inside `Visit` (called once per vertex), round-trips the
same graph: parsing succeeds and restores the same vertex set, payload
map and edge sets (equal up to list permutation). -/
theorem C4_generic_marshal_roundtrip_fails :
    GenericMarshalJSON idHash c4G (fun l => l) =
      some ([("B", "B"), ("E", "E"), ("D", "D"), ("F", "F")],
            [("B", "E"), ("B", "D"), ("E", "D"), ("D", "F"), ("D", "F")]) ∧
    List.count ("D", "F")
      [("B", "E"), ("B", "D"), ("E", "D"), ("D", "F"), ("D", "F")] = 2 ∧
    (UnmarshalGenericJSON idHash
        ([("B", "B"), ("E", "E"), ("D", "D"), ("F", "F")],
         [("B", "E"), ("B", "D"), ("E", "D"), ("D", "F"), ("D", "F")])).2 =
      some (DagError.EdgeDuplicateError "D" "F") ∧
    LegacyMarshalJSON idHash c4G (fun l => l) =
      some ([("B", "B"), ("D", "D"), ("F", "F"), ("E", "E")],
            [("B", "E"), ("B", "D"), ("D", "F"), ("E", "D")]) ∧
    (UnmarshalGenericJSON idHash
        ([("B", "B"), ("D", "D"), ("F", "F"), ("E", "E")],
         [("B", "E"), ("B", "D"), ("D", "F"), ("E", "D")])).2 = none ∧
    ((UnmarshalGenericJSON idHash
        ([("B", "B"), ("D", "D"), ("F", "F"), ("E", "E")],
         [("B", "E"), ("B", "D"), ("D", "F"), ("E", "D")])).1.vertices.Perm
      c4G.vertices ∧
     (UnmarshalGenericJSON idHash
        ([("B", "B"), ("D", "D"), ("F", "F"), ("E", "E")],
         [("B", "E"), ("B", "D"), ("D", "F"), ("E", "D")])).1.vertexValues.Perm
      c4G.vertexValues ∧
     (UnmarshalGenericJSON idHash
        ([("B", "B"), ("D", "D"), ("F", "F"), ("E", "E")],
         [("B", "E"), ("B", "D"), ("D", "F"), ("E", "D")])).1.outboundEdge.Perm
      c4G.outboundEdge ∧
     (UnmarshalGenericJSON idHash
        ([("B", "B"), ("D", "D"), ("F", "F"), ("E", "E")],
         [("B", "E"), ("B", "D"), ("D", "F"), ("E", "D")])).1.inboundEdge.Perm
      c4G.inboundEdge) := by
  refine ⟨by decide, by decide, by decide, by decide, by decide, by decide,
    by decide, by decide, by decide⟩
